import Mathlib

/-!
# Memory pools of `rts/System/MemPoolTypes.h`

A shallow embedding of the allocators of `MemPoolTypes.h` and machine-checked
statements about them.

Conventions of the embedding

* `std::vector<T>` is a `List`; `resize` is `vecResize`, which always succeeds (memory
  is not bounded).
* `std::map<size_t, size_t>` and `std::multimap<size_t, size_t>` are lists of
  `(key, value)` pairs kept in ascending key order.  The operations below are
  the container operations on such lists; they do not require the list to be
  ordered, and separate lemmas show that they keep it ordered.
* An iterator is the index of its element in the list.
* `size_t` values are natural numbers.  The sum `data.size() + numElems` that
  `AllocateImpl` passes to `resize` is reduced modulo `2 ^ 64`, the width of
  `size_t` on a 64-bit target; the sums over gaps and freed ranges are bounded by
  the statements that use them.  `uint32_t` values are reduced modulo `2 ^ 32` where the source casts
  to that type.
* A result of `none` stands for a failed `assert` or for undefined behaviour
  (dereferencing `end()`, a null chunk, ...).
* An address handed out by `FixedDynMemPool` or `DynMemPool` is `Ptr.mk b o`, byte
  `o` of block `b` (a chunk of the former, a page of the latter); an address of
  `StaticMemPool` is its distance in bytes from the first page.
* Which pages are allocated is not stored by the pools; statements about allocated
  pages or ranges carry the set of them next to the state (`ValidUse`, `Owns`).
* The floating-point test of `Free` is a parameter of `Free`; `compactionTrigger`
  is that test in binary32 arithmetic.
-/

/-! ## Definitions -/

/-- Value of the C++ expression `~0u` (an `unsigned int` with all 32 bits set). -/
def sentinel : Nat := 4294967295

/-- Model of `std::vector::resize`: keep the first `n` elements, pad with
value-initialised elements up to length `n`. -/
def vecResize {α : Type} [Inhabited α] (v : List α) (n : Nat) : List α :=
  v.take n ++ List.replicate (n - v.length) default

/-- Model of `lower_bound(k)` on an ordered container: the index of the first
entry whose key is not less than `k` (the length of the list when there is none). -/
def lowerBound : List (Nat × Nat) → Nat → Nat
  | [], _ => 0
  | e :: es, k => if e.1 < k then lowerBound es k + 1 else 0

/-- Model of `std::multimap::emplace(k, v)`: the new entry goes after every entry
whose key is not greater than `k` (the upper bound of the equal range). -/
def mmEmplace : List (Nat × Nat) → Nat → Nat → List (Nat × Nat)
  | [], k, v => [(k, v)]
  | e :: es, k, v => if k < e.1 then (k, v) :: e :: es else e :: mmEmplace es k v

/-- Model of `std::map::emplace(k, v)`: nothing happens when the key is present. -/
def mapEmplace : List (Nat × Nat) → Nat → Nat → List (Nat × Nat)
  | [], k, v => [(k, v)]
  | e :: es, k, v =>
    if k < e.1 then (k, v) :: e :: es
    else if k = e.1 then e :: es
    else e :: mapEmplace es k v

/-- Model of `std::map::erase(key)`. -/
def mapErase (m : List (Nat × Nat)) (k : Nat) : List (Nat × Nat) :=
  m.eraseP (fun e => e.1 == k)

/-- The lambda `eraseSizeToPositionsKVFunc` of `CompactGaps`: erase the first entry
of the equal range of `size` whose value is `pos`. -/
def eraseSizeToPositionsKVFunc : List (Nat × Nat) → Nat → Nat → List (Nat × Nat)
  | [], _, _ => []
  | e :: es, size, pos =>
    if e.1 = size ∧ e.2 = pos then es else e :: eraseSizeToPositionsKVFunc es size pos

/-- The members of `StablePosAllocator<T>` (the mutex apart). -/
structure StablePosAllocator (α : Type) where
  /-- Member `data` (a vector). -/
  data : List α
  /-- Member `sizeToPositions`: entries `(size, position)`. -/
  sizeToPositions : List (Nat × Nat)
  /-- Member `positionToSize`: entries `(position, size)`. -/
  positionToSize : List (Nat × Nat)
  deriving DecidableEq, Repr

namespace StablePosAllocator

variable {α : Type} [Inhabited α]

/-- A default-constructed allocator. -/
def empty : StablePosAllocator α := ⟨[], [], []⟩

/-- Member function `GetSize`. -/
def GetSize (st : StablePosAllocator α) : Nat := st.data.length

/-- The `for` loop of `AllocateImpl` started at iterator `i`: entries with a key
below `numElems` are skipped, the first other entry is taken. -/
def gapLoop (numElems : Nat) : List (Nat × Nat) → Nat → Option (Nat × (Nat × Nat))
  | [], _ => none
  | e :: es, i => if e.1 < numElems then gapLoop numElems es (i + 1) else some (i, e)

/-- Member function `AllocateImpl`: the returned position and the new state.  The new
size `data.size() + numElems` is a `size_t` sum, formed modulo `2 ^ 64`. -/
def AllocateImpl (st : StablePosAllocator α) (numElems : Nat) : Nat × StablePosAllocator α :=
  if numElems = 0 then (sentinel, st)
  else if st.positionToSize = [] then
    (st.data.length,
      { st with data := vecResize st.data ((st.data.length + numElems) % 2 ^ 64) })
  else
    let beg := lowerBound st.sizeToPositions numElems
    match gapLoop numElems (st.sizeToPositions.drop beg) beg with
    | some (it, (size, pos)) =>
      let p2s := mapErase st.positionToSize pos
      if size > numElems then
        let gapSize := size - numElems
        let gapPos := pos + numElems
        -- the emplaced entry has a smaller key than `it`, which moves one index up
        (pos, { st with
                  sizeToPositions := (mmEmplace st.sizeToPositions gapSize gapPos).eraseIdx (it + 1)
                  positionToSize := mapEmplace p2s gapPos gapSize })
      else
        (pos, { st with
                  sizeToPositions := st.sizeToPositions.eraseIdx it
                  positionToSize := p2s })
    | none =>
      (st.data.length,
        { st with data := vecResize st.data ((st.data.length + numElems) % 2 ^ 64) })

/-- Member function `Allocate`; the mutex does not change the result. -/
def Allocate (st : StablePosAllocator α) (numElems : Nat) (withMutex : Bool) :
    Nat × StablePosAllocator α :=
  if withMutex then AllocateImpl st numElems else AllocateImpl st numElems

/-- The inner `for` loop of `CompactGaps` from iterator `i` (`posSizeThis`) on:
`none` when the loop would dereference `end()`, `some none` when it reaches
`posSizeFin` without a merge, otherwise the iterator and the two adjacent entries. -/
def scanAdjacent : List (Nat × Nat) → Nat → Option (Option (Nat × (Nat × Nat) × (Nat × Nat)))
  | [], _ => none
  | [_], _ => some none
  | x :: y :: rest, i =>
    if x.1 + x.2 = y.1 then some (some (i, x, y)) else scanAdjacent (y :: rest) (i + 1)

/-- The `do ... while (found)` loop of `CompactGaps` on `(positionToSize,
sizeToPositions)` with the current `posStartFrom`.  A round reads `posStartFrom` only
for its `lower_bound`; the next round runs only after a merge, when the variable holds
the key of `posSizeThis`.  Each round that merges removes one entry, `fuel` bounds the
number of rounds (`none` when it runs out; `CompactGaps` passes the number of gaps, which
`CompactGaps_eq` shows to be enough). -/
def mergeLoop : Nat → List (Nat × Nat) → List (Nat × Nat) → Nat →
    Option (List (Nat × Nat) × List (Nat × Nat))
  | 0, _, _, _ => none
  | fuel + 1, p2s, s2p, posStartFrom =>
    let beg := lowerBound p2s posStartFrom
    match scanAdjacent (p2s.drop beg) beg with
    | none => none
    | some none => some (p2s, s2p)
    | some (some (it, this, next)) =>
      let newPos := this.1
      let newSize := this.2 + next.2
      let s2p1 := eraseSizeToPositionsKVFunc (eraseSizeToPositionsKVFunc s2p this.2 this.1) next.2 next.1
      let p2s1 := (p2s.eraseIdx it).eraseIdx it
      mergeLoop fuel (mapEmplace p2s1 newPos newSize) (mmEmplace s2p1 newSize newPos) this.1

/-- The tail trim that ends `CompactGaps`, on the merged indices. -/
def trimTail (st : StablePosAllocator α) (p2s s2p : List (Nat × Nat)) :
    Option (StablePosAllocator α) :=
  match p2s.getLast? with
  | none => none
  | some posSizeFin =>
    if posSizeFin.1 + posSizeFin.2 = st.data.length then
      some { data := vecResize st.data posSizeFin.1
             sizeToPositions := eraseSizeToPositionsKVFunc s2p posSizeFin.2 posSizeFin.1
             positionToSize := p2s.dropLast }
    else
      some { data := st.data, sizeToPositions := s2p, positionToSize := p2s }

/-- Member function `CompactGaps`.  With no gap at all the function steps back from
`end()` of an empty map, which is undefined: `none`. -/
def CompactGaps (st : StablePosAllocator α) : Option (StablePosAllocator α) :=
  match mergeLoop st.positionToSize.length st.positionToSize st.sizeToPositions 0 with
  | none => none
  | some (p2s, s2p) => trimTail st p2s s2p

/-- Member function `Free`: the new state and the value left in `firstElem`.
The test `positionToSize.size() >= std::ceil(0.025f * data.size())` is done in
floating point; it is the parameter `trig`, applied to the two sizes.  The sum
`firstElem + numElems` is the exact one: a call is taken to fail its `assert` when
the range does not end inside the vector, also when the `size_t` sum would overflow. -/
def Free (trig : Nat → Nat → Bool) (st : StablePosAllocator α) (firstElem numElems : Nat) :
    Option (StablePosAllocator α × Nat) :=
  if ¬ (firstElem + numElems ≤ st.data.length) then none
  else if numElems = 0 then some (st, sentinel)
  else if firstElem + numElems = st.data.length then
    some ({ st with data := vecResize st.data firstElem }, sentinel)
  else
    let st1 : StablePosAllocator α :=
      { st with
          positionToSize := mapEmplace st.positionToSize firstElem numElems
          sizeToPositions := mmEmplace st.sizeToPositions numElems firstElem }
    if trig st1.positionToSize.length st1.data.length then
      (CompactGaps st1).map (fun st2 => (st2, sentinel))
    else some (st1, sentinel)

end StablePosAllocator

/-- Keys in ascending order, equal keys allowed: the order of a `std::multimap`. -/
abbrev KeysSorted (m : List (Nat × Nat)) : Prop := m.Pairwise (fun a b => a.1 ≤ b.1)

/-- Keys in strictly ascending order: the order of a `std::map`. -/
abbrev KeysStrict (m : List (Nat × Nat)) : Prop := m.Pairwise (fun a b => a.1 < b.1)

/-- Gaps `(position, size)` listed in position order do not overlap: each one
ends before or where every later one starts. -/
abbrev NonOverlapping (m : List (Nat × Nat)) : Prop := m.Pairwise (fun a b => a.1 + a.2 ≤ b.1)

/-- Position `q` lies in one of the gaps `(position, size)` of `m`. -/
abbrev Covered (m : List (Nat × Nat)) (q : Nat) : Prop := ∃ g ∈ m, g.1 ≤ q ∧ q < g.1 + g.2

/-- The two gaps `(position, size)` are exactly adjacent: `a` ends where `b` starts. -/
abbrev Adjacent (a b : Nat × Nat) : Prop := a.1 + a.2 = b.1

namespace StablePosAllocator

variable {α : Type} [Inhabited α]

/-- The two indices hold the same gaps: the entries of `sizeToPositions` are, as a
multiset, the entries of `positionToSize` with the components swapped. -/
abbrev Consistent (st : StablePosAllocator α) : Prop :=
  st.sizeToPositions.Perm (st.positionToSize.map Prod.swap)

/-- Both containers are ordered as `std::map` and `std::multimap` keep them. -/
abbrev Ordered (st : StablePosAllocator α) : Prop :=
  KeysStrict st.positionToSize ∧ KeysSorted st.sizeToPositions

/-- Every gap is a non-empty range inside the backing vector, and the gaps do not overlap. -/
abbrev GapsWellFormed (st : StablePosAllocator α) : Prop :=
  (∀ g ∈ st.positionToSize, 0 < g.2 ∧ g.1 + g.2 ≤ st.data.length) ∧
    NonOverlapping st.positionToSize

/-- A call `Free(firstElem, numElems)` is valid when the range lies inside the backing
vector and none of its positions is in a recorded gap (all are allocated). -/
abbrev ValidFree (st : StablePosAllocator α) (firstElem numElems : Nat) : Prop :=
  firstElem + numElems ≤ st.data.length ∧
    ∀ q, firstElem ≤ q → q < firstElem + numElems → ¬ Covered st.positionToSize q

/-- States reachable from a default-constructed allocator by `Allocate` calls (of any
size, also one whose size sum overflows) and valid `Free` calls, whatever the compaction
trigger `trig` answers. -/
inductive Reachable (trig : Nat → Nat → Bool) : StablePosAllocator α → Prop
  | empty : Reachable trig empty
  | allocate {st : StablePosAllocator α} (numElems : Nat) (withMutex : Bool) :
      Reachable trig st → Reachable trig (Allocate st numElems withMutex).2
  | free {st st1 : StablePosAllocator α} (firstElem numElems r : Nat) :
      Reachable trig st → ValidFree st firstElem numElems →
      Free trig st firstElem numElems = some (st1, r) → Reachable trig st1

/-- The states of `Reachable` in which no `Allocate` call overflowed: each call
`Allocate(numElems)` was made with `data.size() + numElems < 2 ^ 64`. -/
inductive ReachableNoWrap (trig : Nat → Nat → Bool) : StablePosAllocator α → Prop
  | empty : ReachableNoWrap trig empty
  | allocate {st : StablePosAllocator α} (numElems : Nat) (withMutex : Bool) :
      ReachableNoWrap trig st → st.data.length + numElems < 2 ^ 64 →
      ReachableNoWrap trig (Allocate st numElems withMutex).2
  | free {st st1 : StablePosAllocator α} (firstElem numElems r : Nat) :
      ReachableNoWrap trig st → ValidFree st firstElem numElems →
      Free trig st firstElem numElems = some (st1, r) → ReachableNoWrap trig st1

end StablePosAllocator

/-- The gap list in which every maximal run of adjacent gaps, read in position order
with `cur` the run collected so far, is one gap: the run's first position with the sum
of the run's sizes. -/
def mergeRunsAux (cur : Nat × Nat) : List (Nat × Nat) → List (Nat × Nat)
  | [] => [cur]
  | y :: rest =>
    if cur.1 + cur.2 = y.1 then mergeRunsAux (cur.1, cur.2 + y.2) rest
    else cur :: mergeRunsAux y rest

/-- See `mergeRunsAux`. -/
def mergeRuns : List (Nat × Nat) → List (Nat × Nat)
  | [] => []
  | x :: rest => mergeRunsAux x rest

/-- The single gap that stands for a run of gaps: the first position, the sum of the sizes. -/
def collapseRun (run : List (Nat × Nat)) : Nat × Nat :=
  ((run.head?.getD (0, 0)).1, (run.map Prod.snd).sum)

/-- Gaps in position order with free room between any two of them. -/
abbrev Separated (m : List (Nat × Nat)) : Prop := m.Pairwise (fun a b => a.1 + a.2 < b.1)

namespace StablePosAllocator

variable {α : Type} [Inhabited α]

/-- The invariant of the allocator while no `Allocate` call overflows: ordered containers,
consistent indices, well-formed gaps. -/
abbrev Inv (st : StablePosAllocator α) : Prop :=
  Ordered st ∧ Consistent st ∧ GapsWellFormed st

/-- A state with three gaps `(0, 5)`, `(10, 8)` and `(20, 3)` in a backing vector of 30
elements. -/
def threeGaps : StablePosAllocator Unit :=
  { data := List.replicate 30 ()
    sizeToPositions := [(3, 20), (5, 0), (8, 10)]
    positionToSize := [(0, 5), (10, 8), (20, 3)] }

/-- A state with the adjacent gaps `(2, 3)`, `(5, 1)`, `(6, 2)` and the gap `(10, 2)` that
ends with the backing vector of 12 elements. -/
def adjacentGaps : StablePosAllocator Unit :=
  { data := List.replicate 12 ()
    sizeToPositions := [(1, 5), (2, 6), (2, 10), (3, 2)]
    positionToSize := [(2, 3), (5, 1), (6, 2), (10, 2)] }

/-- The compaction test of `Free` with `0.025f` read as the exact fraction `1 / 40`:
the number of gaps is at least `size / 40` rounded up. -/
def trigFortieth (gaps size : Nat) : Bool := decide (size ≤ 40 * gaps)

/-- The state after `Allocate(10)`, `Allocate(5)`, `Allocate(10)` on an empty allocator. -/
def threeRanges : StablePosAllocator Unit :=
  (Allocate (Allocate (Allocate empty 10 false).2 5 false).2 10 false).2

/-- The state after freeing the middle range of `threeRanges`: one gap `(10, 5)`. -/
def middleFreed : StablePosAllocator Unit :=
  { data := List.replicate 25 (), sizeToPositions := [(5, 10)], positionToSize := [(10, 5)] }

/-- The state after also freeing `[0, 4)` in `middleFreed`: gaps `(0, 4)` and `(10, 5)`. -/
def twoGaps : StablePosAllocator Unit :=
  { data := List.replicate 25 ()
    sizeToPositions := [(4, 0), (5, 10)]
    positionToSize := [(0, 4), (10, 5)] }

/-- The state with the two adjacent gaps `(0, 1)` and `(1, 1)` that fill a backing vector
of 2 elements. -/
def tailRun : StablePosAllocator Unit :=
  { data := List.replicate 2 (), sizeToPositions := [(1, 0), (1, 1)]
    positionToSize := [(0, 1), (1, 1)] }

/-- The state after three `Allocate(1)` on an empty allocator. -/
def threeUnits : StablePosAllocator Unit :=
  (Allocate (Allocate (Allocate empty 1 false).2 1 false).2 1 false).2

/-- The state after `Free(1, 1)` in `threeUnits`: the gap `(1, 1)` in 3 elements. -/
def unitGap : StablePosAllocator Unit :=
  { data := List.replicate 3 (), sizeToPositions := [(1, 1)], positionToSize := [(1, 1)] }

/-- The state after `Free(2, 1)` in `unitGap`: the gap `(1, 1)` ends the 2 elements. -/
def gapAtEnd : StablePosAllocator Unit :=
  { data := List.replicate 2 (), sizeToPositions := [(1, 1)], positionToSize := [(1, 1)] }

/-- The state after `Allocate(10)` on an empty allocator: 10 elements, no gap. -/
def tenElems : StablePosAllocator Unit :=
  { data := List.replicate 10 (), sizeToPositions := [], positionToSize := [] }

/-- The state after `Allocate` of 1, 2, 2, 5, 10 and 10 elements on an empty allocator: the
ranges `[0, 1)`, `[1, 3)`, `[3, 5)`, `[5, 10)`, `[10, 20)`, `[20, 30)`, no gap. -/
def sixRanges : StablePosAllocator Unit :=
  { data := List.replicate 30 (), sizeToPositions := [], positionToSize := [] }

/-- The state after `Free(10, 10)` in `sixRanges`: the gap `(10, 10)` in 30 elements. -/
def holeAtTen : StablePosAllocator Unit :=
  { data := List.replicate 30 (), sizeToPositions := [(10, 10)], positionToSize := [(10, 10)] }

/-- The state after `Allocate(2 ^ 64 - 25)` in `holeAtTen`: the request fits no gap, the
new size `30 + (2 ^ 64 - 25)` is 5 as a `size_t`, and the gap `(10, 10)` lies behind the 5
elements that are left. -/
def wrapped : StablePosAllocator Unit :=
  { data := List.replicate 5 (), sizeToPositions := [(10, 10)], positionToSize := [(10, 10)] }

/-- The state after `Free(1, 2)` in `wrapped`: gaps `(1, 2)` and `(10, 10)`, 5 elements. -/
def wrappedGap : StablePosAllocator Unit :=
  { data := List.replicate 5 (), sizeToPositions := [(2, 1), (10, 10)]
    positionToSize := [(1, 2), (10, 10)] }

/-- The state after the tail free `Free(3, 2)` in `wrappedGap`: 3 elements are left, the
gap `(1, 2)` ends with them. -/
def wrappedTail : StablePosAllocator Unit :=
  { data := List.replicate 3 (), sizeToPositions := [(2, 1), (10, 10)]
    positionToSize := [(1, 2), (10, 10)] }

/-- The state in which `Free(0, 1)` on `wrappedTail` calls `CompactGaps`: the gaps `(0, 1)`,
`(1, 2)` and `(10, 10)`, 3 elements. -/
def wrappedRun : StablePosAllocator Unit :=
  { data := List.replicate 3 (), sizeToPositions := [(1, 0), (2, 1), (10, 10)]
    positionToSize := [(0, 1), (1, 2), (10, 10)] }

/-- The state `CompactGaps` leaves of `wrappedRun`: the gaps `(0, 3)` and `(10, 10)`, 3
elements. -/
def wrappedMerged : StablePosAllocator Unit :=
  { data := List.replicate 3 (), sizeToPositions := [(3, 0), (10, 10)]
    positionToSize := [(0, 3), (10, 10)] }

end StablePosAllocator

/-- An address in pool memory: null, or the byte at offset `ofs` of the memory block of
chunk number `chunk` (each chunk is a heap block of its own). -/
inductive Ptr where
  | null : Ptr
  | mk (chunk : Nat) (ofs : Nat) : Ptr
  deriving DecidableEq, Repr

/-- Reading a `uint32_t` at byte offset `o` of a block (little-endian, as on x86; a byte
is a `uint8_t`, its value is taken modulo 256); `none` when the four bytes are not inside
the block. -/
def readU32 (mem : List Nat) (o : Nat) : Option Nat :=
  if o + 4 ≤ mem.length then
    some (mem.getD o 0 % 256 + 256 * (mem.getD (o + 1) 0 % 256) +
      65536 * (mem.getD (o + 2) 0 % 256) + 16777216 * (mem.getD (o + 3) 0 % 256))
  else none

/-- Model of `memcpy(dst, &v, 4)` for a `uint32_t v` at byte offset `o` of a block. -/
def writeU32 (mem : List Nat) (o v : Nat) : Option (List Nat) :=
  if o + 4 ≤ mem.length then
    some ((((mem.set o (v % 256)).set (o + 1) (v / 256 % 256)).set (o + 2)
      (v / 65536 % 256)).set (o + 3) (v / 16777216 % 256))
  else none

/-- Model of `memset(dst, 0, len)` at byte offset `o` of a block. -/
def zeroFill (mem : List Nat) (o len : Nat) : Option (List Nat) :=
  if o + len ≤ mem.length then
    some (mem.take o ++ List.replicate len 0 ++ mem.drop (o + len))
  else none

/-- The members of `FixedDynMemPool<S, N, K>`.  A chunk is `none` while its
`unique_ptr` is null, otherwise the `K * (4 + S)` bytes of its pages. -/
structure FixedDynMemPool where
  /-- Member `chunks`. -/
  chunks : List (Option (List Nat))
  /-- Member `indcs` (a vector of `uint32_t`, back of the vector last). -/
  indcs : List Nat
  /-- Member `num_chunks`. -/
  num_chunks : Nat
  /-- Member `page_index`. -/
  page_index : Nat
  deriving DecidableEq, Repr

namespace FixedDynMemPool

/-- A freshly constructed pool with `N` null chunks. -/
def fresh (N : Nat) : FixedDynMemPool :=
  { chunks := List.replicate N none, indcs := [], num_chunks := 0, page_index := 0 }

/-- The memory of chunk `c`, `none` when the index is out of range or the chunk is null. -/
def chunkMem (st : FixedDynMemPool) (c : Nat) : Option (List Nat) :=
  match st.chunks[c]? with
  | some (some mem) => some mem
  | _ => none

/-- Member function `page_mem(idx, ofs)`: chunk `idx / K`, in-chunk slot `idx % K`. -/
def page_mem (S K : Nat) (st : FixedDynMemPool) (idx ofs : Nat) : Option Ptr :=
  if K = 0 then none
  else
    match chunkMem st (idx / K) with
    | none => none
    | some _ => some (Ptr.mk (idx / K) ((idx % K) * (4 + S) + ofs))

/-- Member function `page_idx(ptr)`: the `uint32_t` stored in the 4 bytes before `ptr`. -/
def page_idx (st : FixedDynMemPool) (ptr : Ptr) : Option Nat :=
  match ptr with
  | Ptr.null => none
  | Ptr.mk c o =>
    if o < 4 then none
    else
      match chunkMem st c with
      | none => none
      | some mem => readU32 mem (o - 4)

/-- The indices pushed by the `for` loop of `allocMem` for chunk number `c`, in push order;
each is cast to `uint32_t`. -/
def newIndices (K c : Nat) : List Nat :=
  (List.range K).map (fun j => ((c + 1) * K - j - 1) % 2 ^ 32)

/-- The part of `allocMem` after the free list has been refilled: pop an index, check the
size, write the index in front of the page and return the address behind it. -/
def popPage (S K : Nat) (st : FixedDynMemPool) (size : Nat) : Option (Ptr × FixedDynMemPool) :=
  match st.indcs.getLast? with
  | none => none
  | some idx =>
    if ¬ size ≤ S then none
    else
      match page_mem S K st idx 0 with
      | some (Ptr.mk c o) =>
        match chunkMem st c with
        | none => none
        | some mem =>
          match writeU32 mem o idx with
          | none => none
          | some mem1 =>
            some (Ptr.mk c (o + 4),
              { chunks := st.chunks.set c (some mem1)
                indcs := st.indcs.dropLast
                num_chunks := st.num_chunks
                page_index := idx })
      | _ => none

/-- The part of `allocMem` that materialises chunk number `num_chunks` (value-initialised,
all bytes 0) and pushes its `K` indices. -/
def materialize (S K : Nat) (st : FixedDynMemPool) : FixedDynMemPool :=
  { chunks := st.chunks.set st.num_chunks (some (List.replicate (K * (4 + S)) 0))
    indcs := st.indcs ++ newIndices K st.num_chunks
    num_chunks := st.num_chunks + 1
    page_index := st.page_index }

/-- Member function `allocMem(size)`: the returned pointer and the new state. -/
def allocMem (S N K : Nat) (st : FixedDynMemPool) (size : Nat) :
    Option (Ptr × FixedDynMemPool) :=
  if st.indcs = [] then
    if st.num_chunks = N then some (Ptr.null, st)
    else
      match st.chunks[st.num_chunks]? with
      | some none => popPage S K (materialize S K st) size
      | _ => none
  else popPage S K st size

/-- Member function `freeMem(ptr)`. -/
def freeMem (S N K : Nat) (st : FixedDynMemPool) (ptr : Ptr) : Option FixedDynMemPool :=
  match page_idx st ptr with
  | none => none
  | some idx =>
    if ¬ idx < N * K then none
    else
      match page_mem S K st idx 0 with
      | some (Ptr.mk c o) =>
        match chunkMem st c with
        | none => none
        | some mem =>
          match zeroFill mem o (4 + S) with
          | none => none
          | some mem1 =>
            some { st with chunks := st.chunks.set c (some mem1), indcs := st.indcs ++ [idx] }
      | _ => none

/-- Member function `clear`. -/
def clear (K : Nat) (st : FixedDynMemPool) : FixedDynMemPool :=
  { st with
      indcs := ((List.range st.num_chunks).map (fun i => newIndices K i)).flatten
      page_index := 0 }

/-- Member function `mapped(ptr)`. -/
def mapped (S K : Nat) (st : FixedDynMemPool) (ptr : Ptr) : Option Bool :=
  match page_idx st ptr with
  | none => none
  | some idx =>
    if idx < st.num_chunks * K then
      match page_mem S K st idx 4 with
      | none => none
      | some p => some (decide (p = ptr))
    else some false

/-- Member function `alloced(ptr)`. -/
def alloced (S K : Nat) (st : FixedDynMemPool) (ptr : Ptr) : Option Bool :=
  if st.page_index < st.num_chunks * K then
    match page_mem S K st st.page_index 4 with
    | none => none
    | some p => some (decide (p = ptr))
  else some false

/-- Member function `alloc_size`. -/
def alloc_size (S K : Nat) (st : FixedDynMemPool) : Nat := st.num_chunks * K * S

/-- Member function `freed_size`. -/
def freed_size (S : Nat) (st : FixedDynMemPool) : Nat := st.indcs.length * S

/-- The state after `i` calls of `allocMem` on a fresh pool, the call number `k + 1` with
size `sz k`; `none` when one of the calls fails. -/
def allocMemN (S N K : Nat) (sz : Nat → Nat) : Nat → Option FixedDynMemPool
  | 0 => some (fresh N)
  | i + 1 =>
    match allocMemN S N K sz i with
    | none => none
    | some st =>
      match allocMem S N K st (sz i) with
      | none => none
      | some r => some r.2

/-- The shape of the chunk array: `N` entries, the first `num_chunks` of them materialised
with `K * (4 + S)` bytes each, the others null. -/
def ChunksShaped (S N K : Nat) (st : FixedDynMemPool) : Prop :=
  st.chunks.length = N ∧ st.num_chunks ≤ N ∧
    (∀ c, c < st.num_chunks → ∃ mem, st.chunks[c]? = some (some mem) ∧
      mem.length = K * (4 + S)) ∧
    (∀ c, st.num_chunks ≤ c → c < N → st.chunks[c]? = some none)

/-- States reachable from a fresh pool by calls of `allocMem`, `freeMem` and `clear` that
return (no failed assertion, no undefined behaviour). -/
inductive Reachable (S N K : Nat) : FixedDynMemPool → Prop
  | fresh : Reachable S N K (fresh N)
  | allocMem {st st1 : FixedDynMemPool} (size : Nat) (ptr : Ptr) :
      Reachable S N K st → allocMem S N K st size = some (ptr, st1) → Reachable S N K st1
  | freeMem {st st1 : FixedDynMemPool} (ptr : Ptr) :
      Reachable S N K st → freeMem S N K st ptr = some st1 → Reachable S N K st1
  | clear {st : FixedDynMemPool} : Reachable S N K st → Reachable S N K (clear K st)

/-- The state after `i` calls of `allocMem` on a fresh pool: `num_chunks` is `i / K` rounded
up, and the free list holds the indices of the newest chunk that are not handed out yet. -/
def AfterAllocs (S N K i : Nat) (st : FixedDynMemPool) : Prop :=
  ChunksShaped S N K st ∧ i ≤ st.num_chunks * K ∧ st.num_chunks * K < i + K ∧
    st.indcs = (List.range (st.num_chunks * K - i)).map
      (fun j => (st.num_chunks * K - j - 1) % 2 ^ 32) ∧
    (0 < i → st.page_index = (i - 1) % 2 ^ 32)

/-- The pool `FixedDynMemPool<2, 2, 2>` after one `allocMem`: chunk 0 is materialised,
page 0 is handed out, page 1 is on the free list. -/
def oneAllocated : FixedDynMemPool :=
  { chunks := [some [0, 0, 0, 0, 0, 0, 0, 0, 0, 0, 0, 0], none]
    indcs := [1], num_chunks := 1, page_index := 0 }

/-- The state `oneAllocated` after one more `allocMem`: page 1 carries its index. -/
def twoAllocated : FixedDynMemPool :=
  { chunks := [some [0, 0, 0, 0, 0, 0, 1, 0, 0, 0, 0, 0], none]
    indcs := [], num_chunks := 1, page_index := 1 }

end FixedDynMemPool

/-- Number of binary digits of `n`, by halving at most `fuel` times. -/
def bitLenFuel : Nat → Nat → Nat
  | 0, _ => 0
  | fuel + 1, n => if n = 0 then 0 else bitLenFuel fuel (n / 2) + 1

/-- Number of binary digits of `n` (0 for 0). -/
def bitLen (n : Nat) : Nat := bitLenFuel n n

/-- Rounding of the natural number `n` to 24 significant binary digits, to nearest and
to even on a tie: the rounding of IEEE binary32 (`float`), on values scaled by a power
of two into the naturals. -/
def roundSig24 (n : Nat) : Nat :=
  if bitLen n ≤ 24 then n
  else
    let sh := bitLen n - 24
    let q := n / 2 ^ sh
    let r := n % 2 ^ sh
    let half := 2 ^ (sh - 1)
    (if half < r ∨ (r = half ∧ q % 2 = 1) then q + 1 else q) * 2 ^ sh

/-- The test `positionToSize.size() >= std::ceil(compactionTriggerFraction * data.size())`
of `Free` in binary32 arithmetic: `0.025f` is `13421773 / 2 ^ 29`, `data.size()` and
`positionToSize.size()` are converted to `float`, the product is rounded to `float`
(here in units of `2 ^ -29`), `std::ceil` rounds it up to a whole number. -/
def compactionTrigger (gaps size : Nat) : Bool :=
  decide ((roundSig24 (roundSig24 size * 13421773) + 2 ^ 29 - 1) / 2 ^ 29 ≤ roundSig24 gaps)

namespace StablePosAllocator

variable {α : Type} [Inhabited α]

/-- Member function `Reset`: `CompactGaps`, then the three assertions. -/
def Reset (st : StablePosAllocator α) : Option (StablePosAllocator α) :=
  match CompactGaps st with
  | none => none
  | some st1 =>
    if st1.data.isEmpty && st1.sizeToPositions.isEmpty && st1.positionToSize.isEmpty then
      some st1
    else none

end StablePosAllocator

namespace FixedDynMemPool

/-- The address `page_mem(idx, 4)` that `allocMem` returns for the page with index `idx`:
chunk `idx / K`, behind the 4 index bytes of slot `idx % K`. -/
def payload (S K idx : Nat) : Ptr := Ptr.mk (idx / K) (idx % K * (4 + S) + 4)

/-- The 4 index bytes in front of the page with index `idx`, read as `page_idx` reads them. -/
def header (S K : Nat) (st : FixedDynMemPool) (idx : Nat) : Option Nat :=
  match chunkMem st (idx / K) with
  | none => none
  | some mem => readU32 mem (idx % K * (4 + S))

/-- A client storing `bytes` (at most `S` of them) at the start of the payload of page
`idx`: the bytes behind the 4 index bytes of the page change, nothing else does. -/
def writePayload (S K : Nat) (st : FixedDynMemPool) (idx : Nat) (bytes : List Nat) :
    Option FixedDynMemPool :=
  match chunkMem st (idx / K) with
  | none => none
  | some mem =>
    if bytes.length ≤ S ∧ idx % K * (4 + S) + 4 + bytes.length ≤ mem.length then
      some { st with
        chunks := st.chunks.set (idx / K) (some (mem.take (idx % K * (4 + S) + 4) ++ bytes ++
          mem.drop (idx % K * (4 + S) + 4 + bytes.length))) }
    else none

/-- Valid use of a pool, with the set `A` of the indices of the pages that are allocated
(handed out by `allocMem` and not freed since): `allocMem` calls that return a page,
`freeMem` on the address of an allocated page, `clear` when nothing is allocated, and
the client storing bytes in the payload of a page it holds. -/
inductive ValidUse (S N K : Nat) : FixedDynMemPool → List Nat → Prop
  | fresh : ValidUse S N K (fresh N) []
  | allocMem {st st1 : FixedDynMemPool} {A : List Nat} (size : Nat) (ptr : Ptr) :
      ValidUse S N K st A → allocMem S N K st size = some (ptr, st1) → ptr ≠ Ptr.null →
      ValidUse S N K st1 (st1.page_index :: A)
  | freeMem {st st1 : FixedDynMemPool} {A : List Nat} (idx : Nat) :
      ValidUse S N K st A → idx ∈ A → freeMem S N K st (payload S K idx) = some st1 →
      ValidUse S N K st1 (A.filter (fun j => decide (j ≠ idx)))
  | clear {st : FixedDynMemPool} : ValidUse S N K st [] → ValidUse S N K (clear K st) []
  | write {st st1 : FixedDynMemPool} {A : List Nat} (idx : Nat) (bytes : List Nat) :
      ValidUse S N K st A → idx ∈ A → writePayload S K st idx bytes = some st1 →
      ValidUse S N K st1 A

/-- What the bookkeeping of an allocated set `A` means for the memory of the pool: the
chunk array is well shaped, the free list holds `uint32_t` values, every allocated index
names a page of a materialised chunk, and the index bytes of such a page hold the index
of the page when it is allocated and 0 when it is not. -/
def Tracked (S N K : Nat) (st : FixedDynMemPool) (A : List Nat) : Prop :=
  ChunksShaped S N K st ∧ (∀ x ∈ st.indcs, x < 2 ^ 32) ∧
    (∀ idx ∈ A, idx < st.num_chunks * K) ∧
    (∀ idx, idx < st.num_chunks * K →
      header S K st idx = some (if idx ∈ A then idx else 0))

/-- The pool `FixedDynMemPool<2, 1, 2>` after one `allocMem`: page 0 is handed out. -/
def halfPool : FixedDynMemPool :=
  { chunks := [some [0, 0, 0, 0, 0, 0, 0, 0, 0, 0, 0, 0]]
    indcs := [1], num_chunks := 1, page_index := 0 }

/-- The pool `FixedDynMemPool<2, 1, 2>` after two `allocMem`: both pages of its only chunk
are handed out, the free list is empty. -/
def fullPool : FixedDynMemPool :=
  { chunks := [some [0, 0, 0, 0, 0, 0, 1, 0, 0, 0, 0, 0]]
    indcs := [], num_chunks := 1, page_index := 1 }

/-- The state `oneAllocated` after `freeMem` on its page 0: both pages are free again. -/
def oneFreed : FixedDynMemPool :=
  { chunks := [some [0, 0, 0, 0, 0, 0, 0, 0, 0, 0, 0, 0], none]
    indcs := [1, 0], num_chunks := 1, page_index := 0 }

end FixedDynMemPool

/-- Modelled from the spec: `spring::VectorBackPop` of `System/ContainerUtil.h` is not among
the sources; the free-index stack is popped LIFO, so it removes the last element of the
vector and returns it (`none` on an empty vector). -/
def VectorBackPop (v : List Nat) : Option (Nat × List Nat) :=
  match v.getLast? with
  | none => none
  | some x => some (x, v.dropLast)

/-- Modelled from the spec: `spring::unsynced_map` of `System/UnorderedMap.hpp` is not among
the sources; it is the mapping from page address to page index, held here as the list of
its entries.  This is `find`: the index stored for address `p`, if any. -/
def tableFind : List (Ptr × Nat) → Ptr → Option Nat
  | [], _ => none
  | e :: rest, p => if e.1 = p then some e.2 else tableFind rest p

/-- Modelled from the spec: `emplace` of the address table (see `tableFind`); a key that is
present keeps its entry. -/
def tableEmplace (t : List (Ptr × Nat)) (p : Ptr) (i : Nat) : List (Ptr × Nat) :=
  if (tableFind t p).isSome then t else t ++ [(p, i)]

/-- Modelled from the spec: `erase` by key of the address table (see `tableFind`). -/
def tableErase (t : List (Ptr × Nat)) (p : Ptr) : List (Ptr × Nat) :=
  t.filter (fun e => decide (e.1 ≠ p))

/-- The members of `DynMemPool<S>`.  A page is the list of its `S` bytes; the address of
byte `o` of the page with index `i` is `Ptr.mk i o` (deque elements never move).  Distinct
pages have distinct addresses; this is so for `S > 0`, while the pages of `DynMemPool<0>`
are empty arrays, whose `data()` is the same null pointer for every page (no object fits
such a page: `alloc<T>` asserts `sizeof(T) <= S` statically).  Statements that rest on the
addresses of distinct pages are made for `S > 0`. -/
structure DynMemPool where
  /-- Member `pages`. -/
  pages : List (List Nat)
  /-- Member `indcs` (back of the vector last). -/
  indcs : List Nat
  /-- Member `table`. -/
  table : List (Ptr × Nat)
  /-- Member `curr_page_index`. -/
  curr_page_index : Nat
  deriving DecidableEq, Repr

namespace DynMemPool

/-- A default-constructed pool. -/
def empty : DynMemPool := { pages := [], indcs := [], table := [], curr_page_index := 0 }

/-- Member function `mapped(p)`. -/
def mapped (st : DynMemPool) (p : Ptr) : Bool := (tableFind st.table p).isSome

/-- Member function `alloced(p)`. -/
def alloced (st : DynMemPool) (p : Ptr) : Bool :=
  decide (st.curr_page_index < st.pages.length) && decide (Ptr.mk st.curr_page_index 0 = p)

/-- Member function `alloc_size`. -/
def alloc_size (S : Nat) (st : DynMemPool) : Nat := st.pages.length * S

/-- Member function `freed_size`. -/
def freed_size (S : Nat) (st : DynMemPool) : Nat := st.indcs.length * S

/-- Member function `allocMem(size)`: the returned address and the new state; `none` when
the assertion fails or a page index is out of range.  The page with index `i` has the
address `Ptr.mk i 0` of its own (page size `S > 0`, see `DynMemPool`). -/
def allocMem (S : Nat) (st : DynMemPool) (size : Nat) : Option (Ptr × DynMemPool) :=
  if ¬ size ≤ S then none
  else if st.indcs = [] then
    some (Ptr.mk (st.pages.length + 1 - 1) 0,
      { pages := st.pages ++ [List.replicate S 0]
        indcs := st.indcs
        table := tableEmplace st.table (Ptr.mk (st.pages.length + 1 - 1) 0)
          (st.pages.length + 1 - 1)
        curr_page_index := st.pages.length + 1 - 1 })
  else
    match VectorBackPop st.indcs with
    | none => none
    | some (i, indcs1) =>
      if i < st.pages.length then
        some (Ptr.mk i 0,
          { pages := st.pages
            indcs := indcs1
            table := tableEmplace st.table (Ptr.mk i 0) i
            curr_page_index := i })
      else none

/-- Member function `freeMem(m)`; `none` when the assertion fails or the stored page index
is out of range. -/
def freeMem (S : Nat) (st : DynMemPool) (m : Ptr) : Option DynMemPool :=
  if ¬ mapped st m then none
  else
    match tableFind st.table m with
    | none => none
    | some i =>
      if i < st.pages.length then
        some { pages := st.pages.set i (List.replicate S 0)
               indcs := st.indcs ++ [i]
               table := tableErase st.table m
               curr_page_index := st.curr_page_index }
      else none

/-- Member function `clear`. -/
def clear (_st : DynMemPool) : DynMemPool := empty

/-- A client storing the `S` bytes `bytes` in the page with index `i`. -/
def writePage (st : DynMemPool) (i : Nat) (bytes : List Nat) : DynMemPool :=
  { st with pages := st.pages.set i bytes }

/-- Valid use of a pool, with the set `A` of the addresses that are allocated (returned by
`allocMem` and not freed since): `allocMem`, `freeMem` on a mapped address, and the client
storing bytes in a page it holds. -/
inductive ValidUse (S : Nat) : DynMemPool → List Ptr → Prop
  | empty : ValidUse S empty []
  | allocMem {st st1 : DynMemPool} {A : List Ptr} (size : Nat) (p : Ptr) :
      ValidUse S st A → allocMem S st size = some (p, st1) → ValidUse S st1 (p :: A)
  | freeMem {st st1 : DynMemPool} {A : List Ptr} (p : Ptr) :
      ValidUse S st A → mapped st p = true → freeMem S st p = some st1 →
      ValidUse S st1 (A.filter (fun q => decide (q ≠ p)))
  | write {st : DynMemPool} {A : List Ptr} (i : Nat) (bytes : List Nat) :
      ValidUse S st A → Ptr.mk i 0 ∈ A → bytes.length = S → ValidUse S (writePage st i bytes) A

/-- The pool `DynMemPool<2>` after one `allocMem` and the client storing the bytes 7, 9 in
the page. -/
def onePage : DynMemPool :=
  { pages := [[7, 9]], indcs := [], table := [(Ptr.mk 0 0, 0)], curr_page_index := 0 }

/-- The state `onePage` after one more `allocMem`. -/
def twoPages : DynMemPool :=
  { pages := [[7, 9], [0, 0]], indcs := [], table := [(Ptr.mk 0 0, 0), (Ptr.mk 1 0, 1)]
    curr_page_index := 1 }

/-- The state `twoPages` after `freeMem` on the address of page 0. -/
def firstFreed : DynMemPool :=
  { pages := [[0, 0], [0, 0]], indcs := [0], table := [(Ptr.mk 1 0, 1)]
    curr_page_index := 1 }

/-- The page table invariant: the allocated addresses are pairwise distinct and are the
keys of the table, every entry maps the address of a page to the index of that page, the
indices in the table and on the free stack together are `0 .. pages.size() - 1`, each
once, and every page has `S` bytes. -/
def TableInv (S : Nat) (st : DynMemPool) (A : List Ptr) : Prop :=
  A.Nodup ∧ (st.table.map Prod.fst).Perm A ∧ (∀ e ∈ st.table, e.1 = Ptr.mk e.2 0) ∧
    (st.table.map Prod.snd ++ st.indcs).Perm (List.range st.pages.length) ∧
    ∀ pg ∈ st.pages, pg.length = S

end DynMemPool

/-- Model of `memset(indcs.data(), 0, count)` on an array of `size_t`: the first `count`
bytes of the array become 0.  With `size_t` of 8 bytes stored little-endian (x86-64), the
entry `j` is 0 when its 8 bytes are among them, loses its low `count - 8 * j` bytes when only
these are, and is untouched otherwise. -/
def zeroLowBytes (count : Nat) (indcs : List Nat) : List Nat :=
  indcs.enum.map (fun e =>
    if 8 * (e.1 + 1) ≤ count then 0
    else if 8 * e.1 < count then e.2 / 256 ^ (count - 8 * e.1) * 256 ^ (count - 8 * e.1)
    else e.2)

/-- The members of `StaticMemPool<N, S>`.  The member `pages` is the list of its `N * S`
bytes (the pages lie one after the other), and an address is given by its `base_offset`,
the distance in bytes from `pages[0].data()` as a `size_t`. -/
structure StaticMemPool where
  /-- Member `pages`. -/
  pages : List Nat
  /-- Member `indcs`. -/
  indcs : List Nat
  /-- Member `used_page_count`. -/
  used_page_count : Nat
  /-- Member `free_page_count`. -/
  free_page_count : Nat
  /-- Member `curr_page_index`. -/
  curr_page_index : Nat
  deriving DecidableEq, Repr

namespace StaticMemPool

/-- Member function `total_size`. -/
def total_size (N S : Nat) : Nat := N * S

/-- Member function `alloc_size`. -/
def alloc_size (S : Nat) (st : StaticMemPool) : Nat := st.used_page_count * S

/-- Member function `freed_size`. -/
def freed_size (S : Nat) (st : StaticMemPool) : Nat := st.free_page_count * S

/-- Member function `mapped(p)` for the address at `base_offset` `ofs`; `none` for the
division by a page size of 0. -/
def mapped (N S ofs : Nat) : Option Bool :=
  if S = 0 then none
  else some (decide (ofs / S < total_size N S) && decide (ofs % S = 0))

/-- Member function `alloced(p)`; `none` when `curr_page_index` is out of range. -/
def alloced (N S : Nat) (st : StaticMemPool) (ofs : Nat) : Option Bool :=
  if st.curr_page_index < N then some (decide (st.curr_page_index * S = ofs)) else none

/-- Member function `can_alloc`. -/
def can_alloc (N : Nat) (st : StaticMemPool) : Bool :=
  decide (st.used_page_count < N) || decide (st.free_page_count > 0)

/-- Member function `can_free`. -/
def can_free (N : Nat) (st : StaticMemPool) : Bool := decide (st.free_page_count < N)

/-- Member function `clear`. -/
def clear (N S : Nat) (st : StaticMemPool) : StaticMemPool :=
  { pages := List.replicate (total_size N S) 0
    indcs := zeroLowBytes N st.indcs
    used_page_count := 0
    free_page_count := 0
    curr_page_index := 0 }

/-- Member function `allocMem(size)`: the offset of the returned page and the new state;
`none` when an assertion fails or an array index is out of range. -/
def allocMem (N S : Nat) (st : StaticMemPool) (size : Nat) : Option (Nat × StaticMemPool) :=
  if ¬ size ≤ S then none
  else if ¬ can_alloc N st then none
  else if st.free_page_count = 0 then
    if st.used_page_count < N then
      some (st.used_page_count * S,
        { st with used_page_count := st.used_page_count + 1
                  curr_page_index := st.used_page_count })
    else none
  else
    match st.indcs[st.free_page_count - 1]? with
    | none => none
    | some i =>
      if i < N then
        some (i * S, { st with free_page_count := st.free_page_count - 1
                               curr_page_index := i })
      else none

/-- Member function `freeMem(m)` for the address at `base_offset` `ofs`; `none` when an
assertion fails, the `memset` leaves the array `pages`, or an array index is out of range. -/
def freeMem (N S : Nat) (st : StaticMemPool) (ofs : Nat) : Option StaticMemPool :=
  if ¬ can_free N st then none
  else
    match mapped N S ofs with
    | some true =>
      match zeroFill st.pages ofs S with
      | none => none
      | some pages1 =>
        if st.free_page_count < st.indcs.length then
          some { st with pages := pages1
                         indcs := st.indcs.set st.free_page_count (ofs / S)
                         free_page_count := st.free_page_count + 1 }
        else none
    | _ => none

/-- A client storing `bytes` at the start of the page with index `i`. -/
def writePage (S : Nat) (st : StaticMemPool) (i : Nat) (bytes : List Nat) : StaticMemPool :=
  { st with pages := st.pages.take (i * S) ++ bytes ++ st.pages.drop (i * S + bytes.length) }

/-- Valid use of a pool, with the set `A` of the indices of the pages that are allocated:
`clear()` on the members as they are (the constructor calls it on uninitialised arrays),
`allocMem` when `can_alloc()` is true, `freeMem` on the address of an allocated page, and
the client storing bytes in a page it holds. -/
inductive ValidUse (N S : Nat) : StaticMemPool → List Nat → Prop
  | clear (st0 : StaticMemPool) : st0.indcs.length = N → ValidUse N S (clear N S st0) []
  | allocMem {st st1 : StaticMemPool} {A : List Nat} (size ofs : Nat) :
      ValidUse N S st A → can_alloc N st = true → allocMem N S st size = some (ofs, st1) →
      ValidUse N S st1 (st1.curr_page_index :: A)
  | freeMem {st st1 : StaticMemPool} {A : List Nat} (i : Nat) :
      ValidUse N S st A → i ∈ A → freeMem N S st (i * S) = some st1 →
      ValidUse N S st1 (A.filter (fun j => decide (j ≠ i)))
  | write {st : StaticMemPool} {A : List Nat} (i : Nat) (bytes : List Nat) :
      ValidUse N S st A → i ∈ A → bytes.length ≤ S → ValidUse N S (writePage S st i bytes) A

/-- Members of a `StaticMemPool<2, 4>` with arbitrary bytes and indices in its arrays, as
before the constructor has run `clear()`. -/
def uncleared : StaticMemPool :=
  { pages := [1, 2, 3, 4, 5, 6, 7, 8], indcs := [65793, 7], used_page_count := 0
    free_page_count := 0, curr_page_index := 0 }

/-- The state `clear 2 4 uncleared` after one `allocMem`: page 0 is handed out. -/
def oneUsed : StaticMemPool :=
  { pages := [0, 0, 0, 0, 0, 0, 0, 0], indcs := [65536, 7], used_page_count := 1
    free_page_count := 0, curr_page_index := 0 }

/-- The state `oneUsed` after one more `allocMem`: both pages are handed out. -/
def bothUsed : StaticMemPool :=
  { pages := [0, 0, 0, 0, 0, 0, 0, 0], indcs := [65536, 7], used_page_count := 2
    free_page_count := 0, curr_page_index := 1 }

/-- The state `bothUsed` after `freeMem` on page 0, at offset 0. -/
def firstReleased : StaticMemPool :=
  { pages := [0, 0, 0, 0, 0, 0, 0, 0], indcs := [0, 7], used_page_count := 2
    free_page_count := 1, curr_page_index := 1 }

/-- The bookkeeping of a pool in valid use: both arrays have their size, the allocated
indices together with the first `free_page_count` entries of `indcs` are
`0 .. used_page_count - 1`, each once, no more than `N` pages are in use, and a page was
freed only with a page size above 0. -/
def CountInv (N S : Nat) (st : StaticMemPool) (A : List Nat) : Prop :=
  st.indcs.length = N ∧ st.pages.length = N * S ∧
    st.free_page_count ≤ st.used_page_count ∧ st.used_page_count ≤ N ∧
    (A ++ st.indcs.take st.free_page_count).Perm (List.range st.used_page_count) ∧
    (0 < st.free_page_count → 0 < S)

end StaticMemPool

namespace StaticMemPool

/-- Valid use of a pool as in `ValidUse`, with the list `F` of the freed pages that await
reuse kept as well, the page freed last at its end: `freeMem` adds the page it is given,
`allocMem` takes the page it returns out of the list. -/
inductive ValidUseFreed (N S : Nat) : StaticMemPool → List Nat → List Nat → Prop
  | clear (st0 : StaticMemPool) : st0.indcs.length = N →
      ValidUseFreed N S (clear N S st0) [] []
  | allocMem {st st1 : StaticMemPool} {A F : List Nat} (size ofs : Nat) :
      ValidUseFreed N S st A F → can_alloc N st = true →
      allocMem N S st size = some (ofs, st1) →
      ValidUseFreed N S st1 (st1.curr_page_index :: A)
        (F.filter (fun j => decide (j ≠ st1.curr_page_index)))
  | freeMem {st st1 : StaticMemPool} {A F : List Nat} (i : Nat) :
      ValidUseFreed N S st A F → i ∈ A → freeMem N S st (i * S) = some st1 →
      ValidUseFreed N S st1 (A.filter (fun j => decide (j ≠ i))) (F ++ [i])
  | write {st : StaticMemPool} {A F : List Nat} (i : Nat) (bytes : List Nat) :
      ValidUseFreed N S st A F → i ∈ A → bytes.length ≤ S →
      ValidUseFreed N S (writePage S st i bytes) A F

end StaticMemPool

namespace StaticMemPool

/-- A call on a pool: `allocMem(size)`, or `freeMem` of the address at `base_offset` `ofs`. -/
inductive Call where
  | allocMem (size : Nat) : Call
  | freeMem (ofs : Nat) : Call
  deriving DecidableEq, Repr

/-- What one call gives: the offset that `allocMem` returns (nothing for `freeMem`) and the
new state; `none` when the call has no defined result. -/
def call (N S : Nat) (st : StaticMemPool) : Call → Option (Option Nat × StaticMemPool)
  | Call.allocMem size => (allocMem N S st size).map (fun r => (some r.1, r.2))
  | Call.freeMem ofs => (freeMem N S st ofs).map (fun st1 => (none, st1))

/-- A sequence of calls one after the other: the results in order and the last state;
`none` as soon as one of the calls has no defined result. -/
def calls (N S : Nat) : StaticMemPool → List Call → Option (List (Option Nat) × StaticMemPool)
  | st, [] => some ([], st)
  | st, c :: cs =>
    match call N S st c with
    | none => none
    | some (r, st1) =>
      match calls N S st1 cs with
      | none => none
      | some (rs, st2) => some (r :: rs, st2)

/-- What can be seen of a run of calls: the results, the bytes of the pages, the three
counters and the entries of `indcs` below `free_page_count`. -/
def observed (r : List (Option Nat) × StaticMemPool) :
    List (Option Nat) × List Nat × Nat × Nat × Nat × List Nat :=
  (r.1, r.2.pages, r.2.used_page_count, r.2.free_page_count, r.2.curr_page_index,
    r.2.indcs.take r.2.free_page_count)

/-- Two states that differ at most in the entries of `indcs` from `free_page_count` on. -/
def Agree (st st1 : StaticMemPool) : Prop :=
  st.pages = st1.pages ∧ st.indcs.length = st1.indcs.length ∧
    st.used_page_count = st1.used_page_count ∧ st.free_page_count = st1.free_page_count ∧
    st.curr_page_index = st1.curr_page_index ∧
    st.indcs.take st.free_page_count = st1.indcs.take st1.free_page_count

end StaticMemPool

/-- What is left of the range `a = (first, count)` when the positions
`[first, first + n)` are taken out of it: the part before `first` and the part from
`first + n` on, each when it is not empty. -/
def cutOne (first n : Nat) (a : Nat × Nat) : List (Nat × Nat) :=
  (if a.1 < first ∧ 0 < a.2 then
      [if a.1 + a.2 ≤ first then a else (a.1, first - a.1)] else []) ++
    (if first + n < a.1 + a.2 ∧ 0 < a.2 then
      [if a.1 ≤ first + n then (first + n, a.1 + a.2 - (first + n)) else a] else [])

/-- The ranges of `L` without the positions `[first, first + n)`. -/
def cutRange (first n : Nat) : List (Nat × Nat) → List (Nat × Nat)
  | [] => []
  | a :: rest => cutOne first n a ++ cutRange first n rest

/-- Two ranges `(first, count)` share no position. -/
abbrev Apart (a b : Nat × Nat) : Prop := a.1 + a.2 ≤ b.1 ∨ b.1 + b.2 ≤ a.1

namespace StablePosAllocator

variable {α : Type} [Inhabited α]

/-- States reached from a default-constructed allocator by `Allocate` calls that do not
overflow (`data.size() + numElems < 2 ^ 64`) and by `Free` calls on allocated positions,
with the list `L` of the ranges `(first, count)` that are allocated: `Allocate(n)` with
`n > 0` adds the range it returns, `Free(first, n)` is made for positions that all lie in
allocated ranges and takes them out. -/
inductive Owns (trig : Nat → Nat → Bool) : StablePosAllocator α → List (Nat × Nat) → Prop
  | empty : Owns trig empty []
  | allocate {st : StablePosAllocator α} {L : List (Nat × Nat)} (numElems : Nat)
      (withMutex : Bool) : Owns trig st L → st.data.length + numElems < 2 ^ 64 →
      Owns trig (Allocate st numElems withMutex).2
        (if numElems = 0 then L else ((Allocate st numElems withMutex).1, numElems) :: L)
  | free {st st1 : StablePosAllocator α} {L : List (Nat × Nat)} (firstElem numElems r : Nat) :
      Owns trig st L →
      (∀ q, firstElem ≤ q → q < firstElem + numElems → Covered L q) →
      Free trig st firstElem numElems = some (st1, r) →
      Owns trig st1 (cutRange firstElem numElems L)

end StablePosAllocator

/-! ## Lemmas -/

theorem vecResize_length {α : Type} [Inhabited α] (v : List α) (n : Nat) :
    (vecResize v n).length = n := by
  simp [vecResize]; omega

theorem lowerBound_append (pre : List (Nat × Nat)) (x : Nat × Nat) (rest : List (Nat × Nat))
    (k : Nat) (hpre : ∀ e ∈ pre, e.1 < k) (hx : k ≤ x.1) :
    lowerBound (pre ++ x :: rest) k = pre.length := by
  induction pre with
  | nil => simp [lowerBound]; omega
  | cons a as ih =>
    have ha : a.1 < k := hpre a (by simp)
    simp [lowerBound, ha]
    exact ih (fun e he => hpre e (by simp [he]))

theorem lowerBound_all_lt (m : List (Nat × Nat)) (k : Nat) (h : ∀ e ∈ m, e.1 < k) :
    lowerBound m k = m.length := by
  induction m with
  | nil => simp [lowerBound]
  | cons a as ih =>
    have ha : a.1 < k := h a (by simp)
    simp [lowerBound, ha]
    exact ih (fun e he => h e (by simp [he]))

theorem mmEmplace_perm (m : List (Nat × Nat)) (k v : Nat) :
    (mmEmplace m k v).Perm ((k, v) :: m) := by
  induction m with
  | nil => simp [mmEmplace]
  | cons a as ih =>
    by_cases h : k < a.1
    · simp [mmEmplace, h]
    · simp only [mmEmplace, h, if_false]
      exact (List.Perm.cons a ih).trans (List.Perm.swap _ _ _)

theorem mem_mmEmplace (m : List (Nat × Nat)) (k v : Nat) (e : Nat × Nat) :
    e ∈ mmEmplace m k v ↔ e = (k, v) ∨ e ∈ m := by
  rw [(mmEmplace_perm m k v).mem_iff]; simp

theorem mmEmplace_sorted (m : List (Nat × Nat)) (k v : Nat) (h : KeysSorted m) :
    KeysSorted (mmEmplace m k v) := by
  induction m with
  | nil => simp [mmEmplace]
  | cons a as ih =>
    rw [KeysSorted, List.pairwise_cons] at h
    by_cases hk : k < a.1
    · simp only [mmEmplace, hk, if_true]
      refine List.Pairwise.cons ?_ (List.Pairwise.cons h.1 h.2)
      intro b hb
      rcases List.mem_cons.1 hb with rfl | hb
      · exact Nat.le_of_lt hk
      · exact Nat.le_trans (Nat.le_of_lt hk) (h.1 b hb)
    · simp only [mmEmplace, hk, if_false]
      refine List.Pairwise.cons ?_ (ih h.2)
      intro b hb
      rcases (mem_mmEmplace as k v b).1 hb with rfl | hb
      · exact Nat.le_of_not_lt hk
      · exact h.1 b hb

theorem mapEmplace_append (pre post : List (Nat × Nat)) (k v : Nat)
    (hpre : ∀ e ∈ pre, e.1 < k) (hpost : ∀ e ∈ post, k < e.1) :
    mapEmplace (pre ++ post) k v = pre ++ (k, v) :: post := by
  induction pre with
  | nil =>
    cases post with
    | nil => simp [mapEmplace]
    | cons b bs =>
      have hb : k < b.1 := hpost b (by simp)
      simp [mapEmplace, hb]
  | cons a as ih =>
    have ha : a.1 < k := hpre a (by simp)
    have h1 : ¬ k < a.1 := by omega
    have h2 : ¬ k = a.1 := by omega
    have ih1 := ih (fun e he => hpre e (by simp [he]))
    simp [mapEmplace, h1, h2, ih1]

theorem mapErase_append (pre post : List (Nat × Nat)) (k v : Nat)
    (hpre : ∀ e ∈ pre, e.1 ≠ k) :
    mapErase (pre ++ (k, v) :: post) k = pre ++ post := by
  induction pre with
  | nil => simp [mapErase]
  | cons a as ih =>
    have ha : a.1 ≠ k := hpre a (by simp)
    have ih1 := ih (fun e he => hpre e (by simp [he]))
    simp only [mapErase] at ih1
    simp [mapErase, List.eraseP_cons, ha, ih1]

theorem eraseIdx_append_length (pre : List (Nat × Nat)) (x : Nat × Nat) (rest : List (Nat × Nat)) :
    (pre ++ x :: rest).eraseIdx pre.length = pre ++ rest := by
  induction pre with
  | nil => simp
  | cons a as ih => simp [ih]

theorem eraseIdx_perm (m : List (Nat × Nat)) (i : Nat) (e : Nat × Nat) (h : m[i]? = some e) :
    (e :: m.eraseIdx i).Perm m := by
  induction m generalizing i with
  | nil => simp at h
  | cons a as ih =>
    cases i with
    | zero => simp at h; subst h; simp
    | succ j =>
      simp at h
      simp only [List.eraseIdx_cons_succ]
      exact (List.Perm.swap _ _ _).trans (List.Perm.cons a (ih j h))

theorem getElem?_mmEmplace_succ (m : List (Nat × Nat)) (k v i : Nat) (e : Nat × Nat)
    (h : m[i]? = some e) (hk : k < e.1) : (mmEmplace m k v)[i + 1]? = some e := by
  induction m generalizing i with
  | nil => simp at h
  | cons a as ih =>
    by_cases hka : k < a.1
    · simp [mmEmplace, hka, h]
    · cases i with
      | zero => simp at h; subst h; exact absurd hk hka
      | succ j =>
        simp at h
        simp [mmEmplace, hka, ih j h]

theorem eraseIdx_mmEmplace_perm (m : List (Nat × Nat)) (k v i : Nat) (e : Nat × Nat)
    (h : m[i]? = some e) (hk : k < e.1) :
    ((mmEmplace m k v).eraseIdx (i + 1)).Perm ((k, v) :: m.eraseIdx i) := by
  have h1 := eraseIdx_perm (mmEmplace m k v) (i + 1) e (getElem?_mmEmplace_succ m k v i e h hk)
  have h2 := eraseIdx_perm m i e h
  have h3 : (e :: (mmEmplace m k v).eraseIdx (i + 1)).Perm (e :: (k, v) :: m.eraseIdx i) :=
    h1.trans ((mmEmplace_perm m k v).trans
      ((List.Perm.cons (k, v) h2.symm).trans (List.Perm.swap _ _ _)))
  exact h3.cons_inv

theorem keysSorted_eraseIdx (m : List (Nat × Nat)) (i : Nat) (h : KeysSorted m) :
    KeysSorted (m.eraseIdx i) :=
  List.Pairwise.sublist (List.eraseIdx_sublist m i) h

theorem eraseKV_sublist (m : List (Nat × Nat)) (s p : Nat) :
    (eraseSizeToPositionsKVFunc m s p).Sublist m := by
  induction m with
  | nil => simp [eraseSizeToPositionsKVFunc]
  | cons a as ih =>
    by_cases h : a.1 = s ∧ a.2 = p
    · simp [eraseSizeToPositionsKVFunc, h]
    · simp [eraseSizeToPositionsKVFunc, h, ih]

theorem eraseKV_perm (m : List (Nat × Nat)) (s p : Nat) (h : (s, p) ∈ m) :
    ((s, p) :: eraseSizeToPositionsKVFunc m s p).Perm m := by
  induction m with
  | nil => simp at h
  | cons a as ih =>
    by_cases ha : a.1 = s ∧ a.2 = p
    · have : a = (s, p) := by cases a; simp at ha; simp [ha]
      subst this
      simp [eraseSizeToPositionsKVFunc]
    · have hne : (s, p) ≠ a := by
        intro heq; subst heq; simp at ha
      have hmem : (s, p) ∈ as := by
        rcases List.mem_cons.1 h with h | h
        · exact absurd h hne
        · exact h
      simp only [eraseSizeToPositionsKVFunc, ha, if_false]
      exact (List.Perm.swap _ _ _).trans (List.Perm.cons a (ih hmem))

theorem keysSorted_eraseKV (m : List (Nat × Nat)) (s p : Nat) (h : KeysSorted m) :
    KeysSorted (eraseSizeToPositionsKVFunc m s p) :=
  List.Pairwise.sublist (eraseKV_sublist m s p) h

theorem gapLoop_drop_lowerBound (m : List (Nat × Nat)) (n i : Nat) :
    StablePosAllocator.gapLoop n (m.drop (lowerBound m n)) i =
      (m[lowerBound m n]?).map (fun e => (i, e)) := by
  induction m with
  | nil => simp [lowerBound, StablePosAllocator.gapLoop]
  | cons a as ih =>
    by_cases h : a.1 < n
    · simp [lowerBound, h, ih]
    · simp [lowerBound, h, StablePosAllocator.gapLoop]

theorem lowerBound_some (m : List (Nat × Nat)) (n : Nat) (e : Nat × Nat)
    (h : m[lowerBound m n]? = some e) : n ≤ e.1 ∧ e ∈ m := by
  induction m with
  | nil => simp at h
  | cons a as ih =>
    by_cases ha : a.1 < n
    · simp [lowerBound, ha] at h
      have := ih h
      exact ⟨this.1, List.mem_cons_of_mem _ this.2⟩
    · simp [lowerBound, ha] at h
      subst h
      exact ⟨Nat.le_of_not_lt ha, by simp⟩

theorem lowerBound_none (m : List (Nat × Nat)) (n : Nat)
    (h : m[lowerBound m n]? = none) : ∀ e ∈ m, e.1 < n := by
  induction m with
  | nil => simp
  | cons a as ih =>
    by_cases ha : a.1 < n
    · simp [lowerBound, ha] at h
      intro e he
      rcases List.mem_cons.1 he with rfl | he
      · exact ha
      · exact ih (by simpa using h) e he
    · simp [lowerBound, ha] at h

theorem lowerBound_of_all_lt (m : List (Nat × Nat)) (n : Nat) (h : ∀ e ∈ m, e.1 < n) :
    m[lowerBound m n]? = none := by
  rw [lowerBound_all_lt m n h]; simp

theorem lowerBound_of_exists (m : List (Nat × Nat)) (n : Nat) (h : ∃ e ∈ m, n ≤ e.1) :
    ∃ e, m[lowerBound m n]? = some e := by
  cases hm : m[lowerBound m n]? with
  | some e => exact ⟨e, rfl⟩
  | none =>
    obtain ⟨e, he, hn⟩ := h
    have := lowerBound_none m n hm e he
    omega

theorem lowerBound_min (m : List (Nat × Nat)) (n : Nat) (e : Nat × Nat) (hs : KeysSorted m)
    (h : m[lowerBound m n]? = some e) : ∀ g ∈ m, n ≤ g.1 → e.1 ≤ g.1 := by
  induction m with
  | nil => simp at h
  | cons a as ih =>
    rw [KeysSorted, List.pairwise_cons] at hs
    by_cases ha : a.1 < n
    · simp [lowerBound, ha] at h
      intro g hg hn
      rcases List.mem_cons.1 hg with rfl | hg
      · omega
      · exact ih hs.2 h g hg hn
    · simp [lowerBound, ha] at h
      subst h
      intro g hg _
      rcases List.mem_cons.1 hg with rfl | hg
      · exact Nat.le_refl _
      · exact hs.1 g hg

namespace StablePosAllocator

variable {α : Type} [Inhabited α]

theorem AllocateImpl_append_mod (st : StablePosAllocator α) (n : Nat) (hn : 0 < n)
    (h : st.positionToSize = [] ∨ ∀ e ∈ st.sizeToPositions, e.1 < n) :
    AllocateImpl st n =
      (st.data.length,
        { st with data := vecResize st.data ((st.data.length + n) % 2 ^ 64) }) := by
  have hn0 : n ≠ 0 := by omega
  rcases h with h | h
  · simp [AllocateImpl, hn0, h]
  · by_cases hp : st.positionToSize = []
    · simp [AllocateImpl, hn0, hp]
    · simp [AllocateImpl, hn0, hp, gapLoop_drop_lowerBound, lowerBound_of_all_lt _ _ h]

theorem AllocateImpl_append (st : StablePosAllocator α) (n : Nat) (hn : 0 < n)
    (h : st.positionToSize = [] ∨ ∀ e ∈ st.sizeToPositions, e.1 < n)
    (hb : st.data.length + n < 2 ^ 64) :
    AllocateImpl st n =
      (st.data.length, { st with data := vecResize st.data (st.data.length + n) }) := by
  rw [AllocateImpl_append_mod st n hn h, Nat.mod_eq_of_lt hb]

theorem AllocateImpl_gap (st : StablePosAllocator α) (n s p : Nat) (hn : 0 < n)
    (hp : st.positionToSize ≠ [])
    (h : st.sizeToPositions[lowerBound st.sizeToPositions n]? = some (s, p)) :
    AllocateImpl st n =
      (p, { data := st.data
            sizeToPositions :=
              if n < s then
                (mmEmplace st.sizeToPositions (s - n) (p + n)).eraseIdx
                  (lowerBound st.sizeToPositions n + 1)
              else st.sizeToPositions.eraseIdx (lowerBound st.sizeToPositions n)
            positionToSize :=
              if n < s then mapEmplace (mapErase st.positionToSize p) (p + n) (s - n)
              else mapErase st.positionToSize p }) := by
  have hn0 : n ≠ 0 := by omega
  by_cases hs : n < s
  · simp [AllocateImpl, hn0, hp, gapLoop_drop_lowerBound, h, hs]
  · simp [AllocateImpl, hn0, hp, gapLoop_drop_lowerBound, h, hs]

end StablePosAllocator

theorem split_of_mem_strict (m : List (Nat × Nat)) (g : Nat × Nat) (hm : g ∈ m)
    (hs : KeysStrict m) :
    ∃ pre post, m = pre ++ g :: post ∧ (∀ e ∈ pre, e.1 < g.1) ∧ (∀ e ∈ post, g.1 < e.1) := by
  obtain ⟨pre, post, rfl⟩ := List.append_of_mem hm
  refine ⟨pre, post, rfl, ?_, ?_⟩
  · intro e he
    exact (List.pairwise_append.1 hs).2.2 e he g (by simp)
  · intro e he
    exact (List.pairwise_cons.1 (List.pairwise_append.1 hs).2.1).1 e he

theorem eraseIdx_perm_eraseKV (m : List (Nat × Nat)) (i s p : Nat)
    (h : m[i]? = some (s, p)) : (m.eraseIdx i).Perm (eraseSizeToPositionsKVFunc m s p) := by
  have hm : (s, p) ∈ m := List.getElem?_mem h
  exact ((eraseIdx_perm m i (s, p) h).trans (eraseKV_perm m s p hm).symm).cons_inv

theorem mem_swap_of_perm (s2p p2s : List (Nat × Nat)) (h : s2p.Perm (p2s.map Prod.swap))
    (a b : Nat) : (a, b) ∈ s2p ↔ (b, a) ∈ p2s := by
  rw [h.mem_iff, List.mem_map]
  constructor
  · rintro ⟨g, hg, hsw⟩
    have : g = (b, a) := by
      cases g; simp [Prod.swap] at hsw; simp [hsw]
    exact this ▸ hg
  · intro hg
    exact ⟨(b, a), hg, rfl⟩

namespace StablePosAllocator

variable {α : Type} [Inhabited α]

theorem AllocateImpl_gap_split (st : StablePosAllocator α) (n s p : Nat) (hn : 0 < n)
    (hord : Ordered st) (hc : Consistent st) (hno : NonOverlapping st.positionToSize)
    (h : st.sizeToPositions[lowerBound st.sizeToPositions n]? = some (s, p)) :
    ∃ pre post, st.positionToSize = pre ++ (p, s) :: post ∧
      (AllocateImpl st n).1 = p ∧ (AllocateImpl st n).2.data = st.data ∧
      (AllocateImpl st n).2.positionToSize =
        (if n < s then pre ++ (p + n, s - n) :: post else pre ++ post) ∧
      Consistent (AllocateImpl st n).2 ∧
      KeysSorted (AllocateImpl st n).2.sizeToPositions ∧
      (AllocateImpl st n).2.sizeToPositions.Perm
        (if n < s then (s - n, p + n) :: eraseSizeToPositionsKVFunc st.sizeToPositions s p
         else eraseSizeToPositionsKVFunc st.sizeToPositions s p) := by
  have hls := lowerBound_some _ _ _ h
  have hmem : (p, s) ∈ st.positionToSize := (mem_swap_of_perm _ _ hc s p).1 hls.2
  have hne : st.positionToSize ≠ [] := List.ne_nil_of_mem hmem
  obtain ⟨pre, post, hsplit, hpre, hpost⟩ := split_of_mem_strict _ _ hmem hord.1
  have hpost2 : ∀ e ∈ post, p + s ≤ e.1 := by
    intro e he
    have hno2 : NonOverlapping (pre ++ (p, s) :: post) := hsplit ▸ hno
    exact (List.pairwise_cons.1 (List.pairwise_append.1 hno2).2.1).1 e he
  have hE : mapErase st.positionToSize p = pre ++ post := by
    rw [hsplit]
    exact mapErase_append pre post p s (fun e he => Nat.ne_of_lt (hpre e he))
  have hce : (eraseSizeToPositionsKVFunc st.sizeToPositions s p).Perm
      ((pre ++ post).map Prod.swap) := by
    have h1 : st.sizeToPositions.Perm ((s, p) :: (pre ++ post).map Prod.swap) := by
      refine hc.trans ?_
      rw [hsplit]
      simp only [List.map_append, List.map_cons]
      exact List.perm_middle
    have h2 := eraseKV_perm _ s p hls.2
    exact (h2.trans h1).cons_inv
  rw [AllocateImpl_gap st n s p hn hne h]
  refine ⟨pre, post, hsplit, rfl, rfl, ?_⟩
  by_cases hs : n < s
  · have hM : mapEmplace (pre ++ post) (p + n) (s - n) = pre ++ (p + n, s - n) :: post := by
      apply mapEmplace_append
      · intro e he; have := hpre e he; simp at this; omega
      · intro e he; have := hpost2 e he; omega
    have hP := eraseIdx_mmEmplace_perm st.sizeToPositions (s - n) (p + n)
      (lowerBound st.sizeToPositions n) (s, p) h (by simp; omega)
    have hP2 : ((mmEmplace st.sizeToPositions (s - n) (p + n)).eraseIdx
        (lowerBound st.sizeToPositions n + 1)).Perm
        ((s - n, p + n) :: eraseSizeToPositionsKVFunc st.sizeToPositions s p) :=
      hP.trans (List.Perm.cons _ (eraseIdx_perm_eraseKV _ _ _ _ h))
    simp only [hs, if_true, hE, hM]
    refine ⟨trivial, ?_, ?_, hP2⟩
    · refine hP2.trans ?_
      simp only [List.map_append, List.map_cons]
      refine (List.Perm.cons _ hce).trans ?_
      simp only [List.map_append]
      exact List.perm_middle.symm
    · exact keysSorted_eraseIdx _ _ (mmEmplace_sorted _ _ _ hord.2)
  · simp only [hs, if_false, hE]
    refine ⟨trivial, ?_, ?_, eraseIdx_perm_eraseKV _ _ _ _ h⟩
    · exact (eraseIdx_perm_eraseKV _ _ _ _ h).trans hce
    · exact keysSorted_eraseIdx _ _ hord.2

end StablePosAllocator

theorem perm_swap_erase (s2p pre post : List (Nat × Nat)) (g : Nat × Nat)
    (h : s2p.Perm ((pre ++ g :: post).map Prod.swap)) :
    (eraseSizeToPositionsKVFunc s2p g.2 g.1).Perm ((pre ++ post).map Prod.swap) := by
  have h1 : s2p.Perm ((g.2, g.1) :: (pre ++ post).map Prod.swap) := by
    refine h.trans ?_
    simp only [List.map_append, List.map_cons]
    exact List.perm_middle
  have hm : (g.2, g.1) ∈ s2p := h1.symm.subset (by simp)
  exact ((eraseKV_perm s2p g.2 g.1 hm).trans h1).cons_inv

theorem perm_swap_emplace (s2p pre post : List (Nat × Nat)) (k v : Nat)
    (h : s2p.Perm ((pre ++ post).map Prod.swap)) :
    (mmEmplace s2p v k).Perm ((pre ++ (k, v) :: post).map Prod.swap) := by
  refine (mmEmplace_perm s2p v k).trans ((List.Perm.cons _ h).trans ?_)
  simp only [List.map_append, List.map_cons]
  exact List.perm_middle.symm

theorem keysStrict_merge (pre rest : List (Nat × Nat)) (x y : Nat × Nat) (v : Nat)
    (h : KeysStrict (pre ++ x :: y :: rest)) : KeysStrict (pre ++ (x.1, v) :: rest) := by
  rw [KeysStrict, List.pairwise_append] at h ⊢
  obtain ⟨h1, h2, h3⟩ := h
  rw [List.pairwise_cons, List.pairwise_cons] at h2
  refine ⟨h1, ?_, ?_⟩
  · rw [List.pairwise_cons]
    exact ⟨fun b hb => h2.1 b (by simp [hb]), h2.2.2⟩
  · intro a ha b hb
    rcases List.mem_cons.1 hb with rfl | hb
    · exact h3 a ha x (by simp)
    · exact h3 a ha b (by simp [hb])

namespace StablePosAllocator

variable {α : Type} [Inhabited α]

theorem mergeLoop_congr (fuel : Nat) (p2s s2p : List (Nat × Nat)) (psf1 psf2 : Nat)
    (h : scanAdjacent (p2s.drop (lowerBound p2s psf1)) (lowerBound p2s psf1) =
      scanAdjacent (p2s.drop (lowerBound p2s psf2)) (lowerBound p2s psf2)) :
    mergeLoop fuel p2s s2p psf1 = mergeLoop fuel p2s s2p psf2 := by
  cases fuel with
  | zero => rfl
  | succ f => simp only [mergeLoop]; rw [h]

theorem mergeLoop_spec (rest : List (Nat × Nat)) :
    ∀ (pre : List (Nat × Nat)) (x : Nat × Nat) (fuel : Nat) (s2p : List (Nat × Nat)) (psf : Nat),
      KeysStrict (pre ++ x :: rest) → (∀ e ∈ pre, e.1 < psf) → psf ≤ x.1 →
      rest.length + 1 ≤ fuel → s2p.Perm ((pre ++ x :: rest).map Prod.swap) → KeysSorted s2p →
      ∃ s2p1, mergeLoop fuel (pre ++ x :: rest) s2p psf = some (pre ++ mergeRunsAux x rest, s2p1) ∧
        s2p1.Perm ((pre ++ mergeRunsAux x rest).map Prod.swap) ∧ KeysSorted s2p1 := by
  induction rest with
  | nil =>
    intro pre x fuel s2p psf _ hpre hx hf hperm hsort
    obtain ⟨f, rfl⟩ : ∃ f, fuel = f + 1 := ⟨fuel - 1, by omega⟩
    refine ⟨s2p, ?_, hperm, hsort⟩
    simp [mergeLoop, lowerBound_append pre x [] psf hpre hx, scanAdjacent, mergeRunsAux]
  | cons y rest ih =>
    intro pre x fuel s2p psf hstrict hpre hx hf hperm hsort
    have hlb := lowerBound_append pre x (y :: rest) psf hpre hx
    have hxy : x.1 < y.1 := by
      have := (List.pairwise_append.1 hstrict).2.1
      exact (List.pairwise_cons.1 this).1 y (by simp)
    have hprex : ∀ e ∈ pre, e.1 < x.1 := fun e he =>
      (List.pairwise_append.1 hstrict).2.2 e he x (by simp)
    by_cases hadj : x.1 + x.2 = y.1
    · obtain ⟨f, rfl⟩ : ∃ f, fuel = f + 1 := ⟨fuel - 1, by simp at hf; omega⟩
      have hstrict1 := keysStrict_merge pre rest x y (x.2 + y.2) hstrict
      have hrest : ∀ e ∈ rest, x.1 < e.1 := by
        intro e he
        have := (List.pairwise_append.1 hstrict).2.1
        exact (List.pairwise_cons.1 this).1 e (by simp [he])
      have hp1 := perm_swap_erase s2p pre (y :: rest) x hperm
      have hp2 := perm_swap_erase _ pre rest y hp1
      have hp3 := perm_swap_emplace _ pre rest x.1 (x.2 + y.2) hp2
      have hs3 : KeysSorted (mmEmplace (eraseSizeToPositionsKVFunc
          (eraseSizeToPositionsKVFunc s2p x.2 x.1) y.2 y.1) (x.2 + y.2) x.1) :=
        mmEmplace_sorted _ _ _ (keysSorted_eraseKV _ _ _ (keysSorted_eraseKV _ _ _ hsort))
      obtain ⟨s2p1, h1, h2, h3⟩ := ih pre (x.1, x.2 + y.2) f _ x.1 hstrict1 hprex
        (Nat.le_refl _) (by simp at hf; omega) hp3 hs3
      refine ⟨s2p1, ?_, ?_, h3⟩
      · simp only [mergeLoop, hlb, List.drop_left, scanAdjacent, hadj, if_true]
        rw [eraseIdx_append_length, eraseIdx_append_length,
          mapEmplace_append pre rest x.1 (x.2 + y.2) hprex hrest, h1]
        simp [mergeRunsAux, hadj]
      · simpa [mergeRunsAux, hadj] using h2
    · have hcongr : mergeLoop fuel (pre ++ x :: y :: rest) s2p psf =
          mergeLoop fuel (pre ++ x :: y :: rest) s2p y.1 := by
        apply mergeLoop_congr
        have hlb2 : lowerBound (pre ++ x :: y :: rest) y.1 = (pre ++ [x]).length := by
          have := lowerBound_append (pre ++ [x]) y rest y.1 (by
            intro e he
            rcases List.mem_append.1 he with he | he
            · exact Nat.lt_trans (hprex e he) hxy
            · simp at he; subst he; exact hxy) (Nat.le_refl _)
          simpa using this
        rw [hlb, hlb2, List.drop_left]
        have : pre ++ x :: y :: rest = (pre ++ [x]) ++ y :: rest := by simp
        rw [this, List.drop_left]
        simp [scanAdjacent, hadj]
      have hstrict2 : KeysStrict ((pre ++ [x]) ++ y :: rest) := by simpa using hstrict
      obtain ⟨s2p1, h1, h2, h3⟩ := ih (pre ++ [x]) y fuel s2p y.1 hstrict2 (by
          intro e he
          rcases List.mem_append.1 he with he | he
          · exact Nat.lt_trans (hprex e he) hxy
          · simp at he; subst he; exact hxy) (Nat.le_refl _) (by simp at hf; omega)
        (by simpa using hperm) hsort
      refine ⟨s2p1, ?_, ?_, h3⟩
      · rw [hcongr]
        simpa [mergeRunsAux, hadj] using h1
      · simpa [mergeRunsAux, hadj] using h2

end StablePosAllocator

theorem mergeRunsAux_ne_nil (rest : List (Nat × Nat)) :
    ∀ cur : Nat × Nat, mergeRunsAux cur rest ≠ [] := by
  induction rest with
  | nil => intro cur; simp [mergeRunsAux]
  | cons y rest ih =>
    intro cur
    by_cases h : cur.1 + cur.2 = y.1
    · simpa [mergeRunsAux, h] using ih _
    · simp [mergeRunsAux, h]

theorem mergeRunsAux_separated (rest : List (Nat × Nat)) :
    ∀ cur : Nat × Nat, NonOverlapping (cur :: rest) →
      (∀ b ∈ mergeRunsAux cur rest, cur.1 ≤ b.1) ∧ Separated (mergeRunsAux cur rest) := by
  induction rest with
  | nil => intro cur _; simp [mergeRunsAux]
  | cons y rest ih =>
    intro cur hno
    rw [NonOverlapping, List.pairwise_cons, List.pairwise_cons] at hno
    obtain ⟨h1, h2, h3⟩ := hno
    by_cases h : cur.1 + cur.2 = y.1
    · have hno1 : NonOverlapping ((cur.1, cur.2 + y.2) :: rest) := by
        rw [NonOverlapping, List.pairwise_cons]
        refine ⟨fun b hb => ?_, h3⟩
        have := h2 b hb
        simp only
        omega
      have := ih (cur.1, cur.2 + y.2) hno1
      simpa [mergeRunsAux, h] using this
    · have hy : cur.1 + cur.2 ≤ y.1 := h1 y (by simp)
      have := ih y (List.Pairwise.cons h2 h3)
      simp only [mergeRunsAux, h, if_false]
      refine ⟨?_, List.Pairwise.cons ?_ this.2⟩
      · intro b hb
        rcases List.mem_cons.1 hb with rfl | hb
        · exact Nat.le_refl _
        · have := this.1 b hb; omega
      · intro b hb
        have := this.1 b hb; omega

theorem mergeRunsAux_forall (P : Nat × Nat → Prop)
    (hP : ∀ a b : Nat × Nat, P a → P b → a.1 + a.2 = b.1 → P (a.1, a.2 + b.2))
    (rest : List (Nat × Nat)) :
    ∀ cur : Nat × Nat, P cur → (∀ g ∈ rest, P g) → ∀ g ∈ mergeRunsAux cur rest, P g := by
  induction rest with
  | nil => intro cur hc _ g hg; simp [mergeRunsAux] at hg; exact hg ▸ hc
  | cons y rest ih =>
    intro cur hc hr g hg
    have hy : P y := hr y (by simp)
    have hr1 : ∀ g ∈ rest, P g := fun g hg => hr g (by simp [hg])
    by_cases h : cur.1 + cur.2 = y.1
    · simp only [mergeRunsAux, h, if_true] at hg
      exact ih _ (hP cur y hc hy h) hr1 g hg
    · simp only [mergeRunsAux, h, if_false] at hg
      rcases List.mem_cons.1 hg with rfl | hg
      · exact hc
      · exact ih y hy hr1 g hg

theorem mergeRunsAux_covered (rest : List (Nat × Nat)) :
    ∀ (cur : Nat × Nat) (q : Nat),
      Covered (mergeRunsAux cur rest) q ↔ Covered (cur :: rest) q := by
  induction rest with
  | nil => intro cur q; simp [mergeRunsAux]
  | cons y rest ih =>
    intro cur q
    by_cases h : cur.1 + cur.2 = y.1
    · simp only [mergeRunsAux, h, if_true]
      rw [ih]
      simp only [Covered, List.exists_mem_cons_iff]
      constructor
      · rintro (⟨h1, h2⟩ | h3)
        · by_cases hq : q < y.1
          · left; exact ⟨h1, by omega⟩
          · right; left; exact ⟨by omega, by omega⟩
        · right; right; exact h3
      · rintro (⟨h1, h2⟩ | ⟨h1, h2⟩ | h3)
        · left; exact ⟨h1, by omega⟩
        · left; exact ⟨by omega, by omega⟩
        · right; exact h3
    · simp only [mergeRunsAux, h, if_false]
      simp only [Covered, List.exists_mem_cons_iff] at ih ⊢
      rw [ih]

/-- End of the last gap of a run, for a run whose gaps are adjacent one after the other:
it is the end of the collapsed gap. -/
theorem collapseRun_append (acc : List (Nat × Nat)) (y : Nat × Nat) (h : acc ≠ []) :
    collapseRun (acc ++ [y]) = ((collapseRun acc).1, (collapseRun acc).2 + y.2) := by
  cases acc with
  | nil => exact absurd rfl h
  | cons a as => simp [collapseRun]; omega

theorem mergeRunsAux_runs (rest : List (Nat × Nat)) :
    ∀ (acc : List (Nat × Nat)) (l : Nat × Nat), acc.getLast? = some l →
      List.Chain' Adjacent acc → (collapseRun acc).1 + (collapseRun acc).2 = l.1 + l.2 →
      ∃ runs : List (List (Nat × Nat)), runs.flatten = acc ++ rest ∧
        (∀ r ∈ runs, r ≠ [] ∧ List.Chain' Adjacent r) ∧
        mergeRunsAux (collapseRun acc) rest = runs.map collapseRun := by
  induction rest with
  | nil =>
    intro acc l hl hch _
    refine ⟨[acc], by simp, ?_, by simp [mergeRunsAux]⟩
    intro r hr
    simp at hr; subst hr
    refine ⟨?_, hch⟩
    intro h; simp [h] at hl
  | cons y rest ih =>
    intro acc l hl hch hend
    have hne : acc ≠ [] := by intro h; simp [h] at hl
    by_cases h : (collapseRun acc).1 + (collapseRun acc).2 = y.1
    · have hch1 : List.Chain' Adjacent (acc ++ [y]) := by
        refine List.Chain'.append hch (List.chain'_singleton y) ?_
        intro a ha b hb
        have hb1 : y = b := by simpa using hb
        have ha1 : l = a := by rw [hl] at ha; simpa using ha
        show a.1 + a.2 = b.1
        rw [← hb1, ← ha1]
        omega
      obtain ⟨runs, h1, h2, h3⟩ := ih (acc ++ [y]) y (by simp) hch1 (by
        rw [collapseRun_append acc y hne]; simp only; omega)
      refine ⟨runs, by simpa using h1, h2, ?_⟩
      rw [collapseRun_append acc y hne] at h3
      simpa [mergeRunsAux, h] using h3
    · obtain ⟨runs, h1, h2, h3⟩ := ih [y] y (by simp) (List.chain'_singleton y) (by
        simp [collapseRun])
      refine ⟨acc :: runs, by simp [h1], ?_, ?_⟩
      · intro r hr
        rcases List.mem_cons.1 hr with rfl | hr
        · exact ⟨hne, hch⟩
        · exact h2 r hr
      · have hy : collapseRun [y] = y := by simp [collapseRun]
        rw [hy] at h3
        simp [mergeRunsAux, h, h3]

/-- The merged list arises from a division of the input into runs of adjacent gaps. -/
theorem mergeRuns_runs (m : List (Nat × Nat)) :
    ∃ runs : List (List (Nat × Nat)), runs.flatten = m ∧
      (∀ r ∈ runs, r ≠ [] ∧ List.Chain' Adjacent r) ∧ mergeRuns m = runs.map collapseRun := by
  cases m with
  | nil => exact ⟨[], by simp, by simp, by simp [mergeRuns]⟩
  | cons x rest =>
    obtain ⟨runs, h1, h2, h3⟩ := mergeRunsAux_runs rest [x] x (by simp)
      (List.chain'_singleton x) (by simp [collapseRun])
    have hx : collapseRun [x] = x := by simp [collapseRun]
    rw [hx] at h3
    exact ⟨runs, by simpa using h1, h2, by simpa [mergeRuns] using h3⟩

namespace StablePosAllocator

variable {α : Type} [Inhabited α]

/-- What `CompactGaps` computes on a state with at least one gap: the merge loop ends
with `mergeRuns` of the position index, then the tail trim looks at its last gap. -/
theorem CompactGaps_eq (st : StablePosAllocator α) (hne : st.positionToSize ≠ [])
    (hord : Ordered st) (hc : Consistent st) :
    ∃ s2p1 fin, (mergeRuns st.positionToSize).getLast? = some fin ∧
      mergeLoop st.positionToSize.length st.positionToSize st.sizeToPositions 0 =
        some (mergeRuns st.positionToSize, s2p1) ∧
      s2p1.Perm ((mergeRuns st.positionToSize).map Prod.swap) ∧ KeysSorted s2p1 ∧
      CompactGaps st = some (if fin.1 + fin.2 = st.data.length then
          { data := vecResize st.data fin.1
            sizeToPositions := eraseSizeToPositionsKVFunc s2p1 fin.2 fin.1
            positionToSize := (mergeRuns st.positionToSize).dropLast }
        else { data := st.data, sizeToPositions := s2p1
               positionToSize := mergeRuns st.positionToSize }) := by
  obtain ⟨data, s2p, p2s⟩ := st
  cases p2s with
  | nil => exact absurd rfl hne
  | cons x rest =>
    obtain ⟨s2p1, h1, h2, h3⟩ := mergeLoop_spec rest [] x (rest.length + 1) s2p 0
      (by simpa using hord.1) (by simp) (Nat.zero_le _) (Nat.le_refl _)
      (by simpa using hc) hord.2
    simp only [List.nil_append] at h1 h2
    have hnn : mergeRunsAux x rest ≠ [] := mergeRunsAux_ne_nil rest x
    obtain ⟨fin, hfin⟩ : ∃ fin, (mergeRunsAux x rest).getLast? = some fin := by
      cases hl : (mergeRunsAux x rest).getLast? with
      | none => exact absurd (List.getLast?_eq_none_iff.1 hl) hnn
      | some fin => exact ⟨fin, rfl⟩
    refine ⟨s2p1, fin, hfin, h1, h2, h3, ?_⟩
    simp only [CompactGaps, List.length_cons, h1, trimTail, mergeRuns, hfin]
    split <;> rfl

end StablePosAllocator

theorem pairwise_insert_middle {R : Nat × Nat → Nat × Nat → Prop} (pre post : List (Nat × Nat))
    (x : Nat × Nat) (h : (pre ++ post).Pairwise R) (h1 : ∀ a ∈ pre, R a x)
    (h2 : ∀ b ∈ post, R x b) : (pre ++ x :: post).Pairwise R := by
  rw [List.pairwise_append] at h ⊢
  refine ⟨h.1, List.Pairwise.cons h2 h.2.1, ?_⟩
  intro a ha b hb
  rcases List.mem_cons.1 hb with rfl | hb
  · exact h1 a ha
  · exact h.2.2 a ha b hb

theorem pairwise_remove_middle {R : Nat × Nat → Nat × Nat → Prop} (pre post : List (Nat × Nat))
    (x : Nat × Nat) (h : (pre ++ x :: post).Pairwise R) : (pre ++ post).Pairwise R :=
  List.Pairwise.sublist
    (List.Sublist.append (List.Sublist.refl pre) (List.sublist_cons_self x post)) h

theorem split_at_key (m : List (Nat × Nat)) (k : Nat) (hs : KeysStrict m)
    (hk : ∀ e ∈ m, e.1 ≠ k) :
    ∃ pre post, m = pre ++ post ∧ (∀ e ∈ pre, e.1 < k) ∧ (∀ e ∈ post, k < e.1) := by
  induction m with
  | nil => exact ⟨[], [], rfl, by simp, by simp⟩
  | cons a as ih =>
    rw [KeysStrict, List.pairwise_cons] at hs
    have hak : a.1 ≠ k := hk a (by simp)
    by_cases ha : a.1 < k
    · obtain ⟨pre, post, h1, h2, h3⟩ := ih hs.2 (fun e he => hk e (by simp [he]))
      refine ⟨a :: pre, post, by simp [h1], ?_, h3⟩
      intro e he
      rcases List.mem_cons.1 he with rfl | he
      · exact ha
      · exact h2 e he
    · refine ⟨[], a :: as, rfl, by simp, ?_⟩
      intro e he
      rcases List.mem_cons.1 he with rfl | he
      · omega
      · have := hs.1 e he; omega

namespace StablePosAllocator

variable {α : Type} [Inhabited α]

theorem empty_inv (β : Type) : Inv (empty : StablePosAllocator β) := by
  simp [Inv, Ordered, Consistent, GapsWellFormed, empty]

theorem AllocateImpl_inv (st : StablePosAllocator α) (n : Nat) (h : Inv st)
    (hb : st.data.length + n < 2 ^ 64) :
    Inv (AllocateImpl st n).2 := by
  obtain ⟨hord, hc, hpos, hno⟩ := h
  by_cases hn : n = 0
  · simpa [AllocateImpl, hn] using ⟨hord, hc, hpos, hno⟩
  have hn0 : 0 < n := Nat.pos_of_ne_zero hn
  cases hlb : st.sizeToPositions[lowerBound st.sizeToPositions n]? with
  | none =>
    rw [AllocateImpl_append st n hn0 (Or.inr (lowerBound_none _ _ hlb)) hb]
    refine ⟨hord, hc, ?_, hno⟩
    intro g hg
    have := hpos g hg
    simp only [vecResize_length]
    omega
  | some e =>
    obtain ⟨s, p⟩ := e
    obtain ⟨pre, post, hsplit, _, hdata, hp2s, hcons, hsorted, _⟩ :=
      AllocateImpl_gap_split st n s p hn0 hord hc hno hlb
    have hns : n ≤ s := (lowerBound_some _ _ _ hlb).1
    have hstrict : KeysStrict (pre ++ (p, s) :: post) := hsplit ▸ hord.1
    have hno1 : NonOverlapping (pre ++ (p, s) :: post) := hsplit ▸ hno
    have hpos1 : ∀ g ∈ pre ++ (p, s) :: post, 0 < g.2 ∧ g.1 + g.2 ≤ st.data.length :=
      hsplit ▸ hpos
    have hpre : ∀ e ∈ pre, e.1 + e.2 ≤ p := fun e he =>
      (List.pairwise_append.1 hno1).2.2 e he (p, s) (by simp)
    have hpost : ∀ e ∈ post, p + s ≤ e.1 := fun e he =>
      (List.pairwise_cons.1 (List.pairwise_append.1 hno1).2.1).1 e he
    have hpre2 : ∀ e ∈ pre, e.1 < p := fun e he =>
      (List.pairwise_append.1 hstrict).2.2 e he (p, s) (by simp)
    refine ⟨⟨?_, hsorted⟩, hcons, ?_, ?_⟩
    · rw [hp2s]
      split
      · refine pairwise_insert_middle pre post _ (pairwise_remove_middle pre post _ hstrict) ?_ ?_
        · intro a ha; have := hpre2 a ha; simp only; omega
        · intro b hb; have := hpost b hb; simp only; omega
      · exact pairwise_remove_middle pre post _ hstrict
    · rw [hp2s, hdata]
      intro g hg
      split at hg
      · rcases List.mem_append.1 hg with hg | hg
        · exact hpos1 g (by simp [hg])
        · rcases List.mem_cons.1 hg with rfl | hg
          · have := hpos1 (p, s) (by simp)
            simp only at this ⊢
            omega
          · exact hpos1 g (by simp [hg])
      · rcases List.mem_append.1 hg with hg | hg
        · exact hpos1 g (by simp [hg])
        · exact hpos1 g (by simp [hg])
    · rw [hp2s]
      split
      · refine pairwise_insert_middle pre post _ (pairwise_remove_middle pre post _ hno1) ?_ ?_
        · intro a ha; have := hpre a ha; simp only; omega
        · intro b hb; have := hpost b hb; simp only; omega
      · exact pairwise_remove_middle pre post _ hno1

theorem Allocate_eq (st : StablePosAllocator α) (n : Nat) (b : Bool) :
    Allocate st n b = AllocateImpl st n := by
  cases b <;> rfl

theorem CompactGaps_post (st : StablePosAllocator α) (hne : st.positionToSize ≠ [])
    (hord : Ordered st) (hc : Consistent st) (hno : NonOverlapping st.positionToSize)
    (hin : ∀ g ∈ st.positionToSize, g.1 + g.2 ≤ st.data.length) :
    ∃ st1, CompactGaps st = some st1 ∧ Ordered st1 ∧ Consistent st1 ∧
      Separated st1.positionToSize ∧ (∀ g ∈ st1.positionToSize, g.1 + g.2 < st1.data.length) ∧
      ((∀ g ∈ st.positionToSize, 0 < g.2) → ∀ g ∈ st1.positionToSize, 0 < g.2) := by
  obtain ⟨s2p1, fin, hfin, _, hperm, hsorted, heq⟩ := CompactGaps_eq st hne hord hc
  obtain ⟨x, rest, hxr⟩ := List.exists_cons_of_ne_nil hne
  have hsep : Separated (mergeRuns st.positionToSize) := by
    rw [hxr]
    exact (mergeRunsAux_separated rest x (hxr ▸ hno)).2
  have hin1 : ∀ g ∈ mergeRuns st.positionToSize, g.1 + g.2 ≤ st.data.length := by
    rw [hxr]
    refine mergeRunsAux_forall (fun g => g.1 + g.2 ≤ st.data.length) ?_ rest x
      (hin x (by simp [hxr])) (fun g hg => hin g (by simp [hxr, hg]))
    intro a b ha hb hab
    simp only
    omega
  have hpos1 : (∀ g ∈ st.positionToSize, 0 < g.2) →
      ∀ g ∈ mergeRuns st.positionToSize, 0 < g.2 := by
    intro hpos
    rw [hxr]
    refine mergeRunsAux_forall (fun g => 0 < g.2) ?_ rest x
      (hpos x (by simp [hxr])) (fun g hg => hpos g (by simp [hxr, hg]))
    intro a b ha hb _
    simp only
    omega
  have hlast : (mergeRuns st.positionToSize).dropLast ++ [fin] = mergeRuns st.positionToSize :=
    List.dropLast_append_getLast? fin (by simp [hfin])
  have hfinmem : fin ∈ mergeRuns st.positionToSize := by rw [← hlast]; simp
  have hsep2 : Separated ((mergeRuns st.positionToSize).dropLast ++ [fin]) := by
    rw [hlast]; exact hsep
  have hsepd : Separated (mergeRuns st.positionToSize).dropLast :=
    (List.pairwise_append.1 hsep2).1
  have hlt : ∀ g ∈ (mergeRuns st.positionToSize).dropLast, g.1 + g.2 < fin.1 := fun g hg =>
    (List.pairwise_append.1 hsep2).2.2 g hg fin (by simp)
  by_cases htrim : fin.1 + fin.2 = st.data.length
  · rw [if_pos htrim] at heq
    refine ⟨_, heq, ?_⟩
    have hpermd : (eraseSizeToPositionsKVFunc s2p1 fin.2 fin.1).Perm
        ((mergeRuns st.positionToSize).dropLast.map Prod.swap) := by
      have := perm_swap_erase s2p1 (mergeRuns st.positionToSize).dropLast [] fin
        (by rw [hlast]; exact hperm)
      simpa using this
    refine ⟨⟨?_, keysSorted_eraseKV _ _ _ hsorted⟩, hpermd, hsepd, ?_, ?_⟩
    · exact hsepd.imp (fun {a b} hab => by omega)
    · intro g hg
      simpa [vecResize_length] using hlt g hg
    · intro hpos g hg
      exact hpos1 hpos g (List.mem_of_mem_dropLast hg)
  · rw [if_neg htrim] at heq
    refine ⟨_, heq, ⟨?_, hsorted⟩, hperm, hsep, ?_, hpos1⟩
    · exact hsep.imp (fun {a b} hab => by omega)
    · intro g hg
      have hfle := hin1 fin hfinmem
      simp only at hg
      rw [← hlast] at hg
      rcases List.mem_append.1 hg with hg | hg
      · have := hlt g hg
        simp only
        omega
      · simp at hg; subst hg
        simp only
        omega

theorem CompactGaps_inv (st : StablePosAllocator α) (hne : st.positionToSize ≠ [])
    (h : Inv st) : ∃ st1, CompactGaps st = some st1 ∧ Inv st1 := by
  obtain ⟨hord, hc, hpos, hno⟩ := h
  obtain ⟨st1, h1, h2, h3, h4, h5, h6⟩ :=
    CompactGaps_post st hne hord hc hno (fun g hg => (hpos g hg).2)
  refine ⟨st1, h1, h2, h3, ?_, h4.imp (fun {a b} hab => by omega)⟩
  intro g hg
  exact ⟨h6 (fun g hg => (hpos g hg).1) g hg, Nat.le_of_lt (h5 g hg)⟩

theorem no_gap_in_free {β : Type} (st : StablePosAllocator β) (first n : Nat) (hn : 0 < n)
    (hpos : ∀ g ∈ st.positionToSize, 0 < g.2)
    (hv : ValidFree st first n) (g : Nat × Nat) (hg : g ∈ st.positionToSize) :
    g.1 + g.2 ≤ first ∨ first + n ≤ g.1 := by
  by_contra hcon
  have h1 := hpos g hg
  have hq := hv.2 (max g.1 first) (by omega) (by omega)
  exact hq ⟨g, hg, by omega, by omega⟩

theorem no_gap_beyond_free {β : Type} (st : StablePosAllocator β) (first n : Nat) (hn : 0 < n)
    (hpos : ∀ g ∈ st.positionToSize, 0 < g.2 ∧ g.1 + g.2 ≤ st.data.length)
    (hv : ValidFree st first n) (g : Nat × Nat) (hg : g ∈ st.positionToSize) :
    g.1 + g.2 ≤ first ∨ first + n ≤ g.1 :=
  no_gap_in_free st first n hn (fun g hg => (hpos g hg).1) hv g hg

theorem Free_inv (trig : Nat → Nat → Bool) (st : StablePosAllocator α) (first n : Nat)
    (h : Inv st) (hv : ValidFree st first n) :
    ∃ st1, Free trig st first n = some (st1, sentinel) ∧ Inv st1 := by
  obtain ⟨hord, hc, hpos, hno⟩ := h
  have hle : first + n ≤ st.data.length := hv.1
  by_cases hn : n = 0
  · have hle0 : first ≤ st.data.length := by omega
    exact ⟨st, by simp [Free, hn, hle0], hord, hc, hpos, hno⟩
  have hn0 : 0 < n := Nat.pos_of_ne_zero hn
  have hsep := no_gap_beyond_free st first n hn0 hpos hv
  by_cases htail : first + n = st.data.length
  · refine ⟨{ st with data := vecResize st.data first }, by simp [Free, hn, htail], hord, hc,
      ?_, hno⟩
    intro g hg
    have h1 := hpos g hg
    have h2 := hsep g hg
    simp only [vecResize_length]
    omega
  · have hkey : ∀ e ∈ st.positionToSize, e.1 ≠ first := by
      intro e he
      have h1 := hpos e he
      have h2 := hsep e he
      omega
    obtain ⟨pre, post, hsplit, hpre, hpost⟩ := split_at_key _ first hord.1 hkey
    have hE : mapEmplace st.positionToSize first n = pre ++ (first, n) :: post := by
      rw [hsplit]; exact mapEmplace_append pre post first n hpre hpost
    have hmem : ∀ g, g ∈ pre ∨ g ∈ post → g ∈ st.positionToSize := by
      intro g hg; rw [hsplit]; exact List.mem_append.2 hg
    have hinv1 : Inv ({ st with
        positionToSize := mapEmplace st.positionToSize first n
        sizeToPositions := mmEmplace st.sizeToPositions n first } : StablePosAllocator α) := by
      refine ⟨⟨?_, mmEmplace_sorted _ _ _ hord.2⟩, ?_, ?_, ?_⟩
      · show KeysStrict (mapEmplace st.positionToSize first n)
        rw [hE]
        exact pairwise_insert_middle pre post _ (hsplit ▸ hord.1) hpre hpost
      · show (mmEmplace st.sizeToPositions n first).Perm
          ((mapEmplace st.positionToSize first n).map Prod.swap)
        rw [hE]
        exact perm_swap_emplace _ pre post first n (hsplit ▸ hc)
      · show ∀ g ∈ mapEmplace st.positionToSize first n, 0 < g.2 ∧ g.1 + g.2 ≤ st.data.length
        rw [hE]
        intro g hg
        rcases List.mem_append.1 hg with hg | hg
        · exact hpos g (hmem g (Or.inl hg))
        · rcases List.mem_cons.1 hg with rfl | hg
          · exact ⟨hn0, hle⟩
          · exact hpos g (hmem g (Or.inr hg))
      · show NonOverlapping (mapEmplace st.positionToSize first n)
        rw [hE]
        refine pairwise_insert_middle pre post _ (hsplit ▸ hno) ?_ ?_
        · intro a ha
          have h1 := hsep a (hmem a (Or.inl ha))
          have h2 := hpre a ha
          have h3 := hpos a (hmem a (Or.inl ha))
          simp only
          omega
        · intro b hb
          have h1 := hsep b (hmem b (Or.inr hb))
          have h2 := hpost b hb
          have h3 := hpos b (hmem b (Or.inr hb))
          simp only
          omega
    cases ht : trig (mapEmplace st.positionToSize first n).length st.data.length with
    | false =>
      exact ⟨_, by simp [Free, hn, htail, hle, ht], hinv1⟩
    | true =>
      have hne : (mapEmplace st.positionToSize first n) ≠ [] := by rw [hE]; simp
      obtain ⟨st2, h2, hinv2⟩ := CompactGaps_inv _ hne hinv1
      refine ⟨st2, ?_, hinv2⟩
      simp only [Free, hn, htail, hle, ht, not_true_eq_false, if_false, if_true]
      rw [h2]; rfl

theorem ReachableNoWrap_inv (trig : Nat → Nat → Bool) (st : StablePosAllocator α)
    (h : ReachableNoWrap trig st) : Inv st := by
  induction h with
  | empty => exact empty_inv α
  | allocate n b _ hb ih => rw [Allocate_eq]; exact AllocateImpl_inv _ n ih hb
  | free first n r _ hv hfree ih =>
    obtain ⟨st2, h2, hinv2⟩ := Free_inv trig _ first n ih hv
    rw [h2] at hfree
    simp only [Option.some.injEq, Prod.mk.injEq] at hfree
    exact hfree.1 ▸ hinv2

theorem ReachableNoWrap.reachable {trig : Nat → Nat → Bool} {st : StablePosAllocator α}
    (h : ReachableNoWrap trig st) : Reachable trig st := by
  induction h with
  | empty => exact Reachable.empty
  | allocate n b _ _ ih => exact Reachable.allocate n b ih
  | free first n r _ hv hfree ih => exact Reachable.free first n r ih hv hfree

theorem threeRanges_reachable : Reachable trigFortieth threeRanges :=
  Reachable.allocate 10 false (Reachable.allocate 5 false (Reachable.allocate 10 false
    Reachable.empty))

theorem threeRanges_validFree : ValidFree threeRanges 10 5 := by
  have h : threeRanges.positionToSize = [] := by decide
  refine ⟨by decide, ?_⟩
  rintro q _ _ ⟨g, hg, _⟩
  rw [h] at hg
  simp at hg

theorem middleFreed_reachable : Reachable trigFortieth middleFreed :=
  Reachable.free 10 5 sentinel threeRanges_reachable threeRanges_validFree (by decide)

theorem middleFreed_validFree : ValidFree middleFreed 0 4 := by
  refine ⟨by decide, ?_⟩
  rintro q _ hq ⟨g, hg, h1, _⟩
  simp [middleFreed] at hg
  subst hg
  simp at h1
  omega

theorem twoGaps_reachable : Reachable trigFortieth twoGaps :=
  Reachable.free 0 4 sentinel middleFreed_reachable middleFreed_validFree (by decide)

theorem threeUnits_reachable : Reachable trigFortieth threeUnits :=
  Reachable.allocate 1 false (Reachable.allocate 1 false (Reachable.allocate 1 false
    Reachable.empty))

theorem threeUnits_validFree : ValidFree threeUnits 1 1 := by
  have h : threeUnits.positionToSize = [] := by decide
  refine ⟨by decide, ?_⟩
  rintro q _ _ ⟨g, hg, _⟩
  rw [h] at hg
  simp at hg

theorem unitGap_reachable : Reachable trigFortieth unitGap :=
  Reachable.free 1 1 sentinel threeUnits_reachable threeUnits_validFree (by decide)

theorem unitGap_validFree : ValidFree unitGap 2 1 := by
  refine ⟨by decide, ?_⟩
  rintro q hq1 hq2 ⟨g, hg, _, h2⟩
  simp [unitGap] at hg
  subst hg
  simp at h2
  omega

theorem gapAtEnd_reachable : Reachable trigFortieth gapAtEnd :=
  Reachable.free 2 1 sentinel unitGap_reachable unitGap_validFree (by decide)

theorem gapAtEnd_validFree : ValidFree gapAtEnd 0 1 := by
  refine ⟨by decide, ?_⟩
  rintro q _ hq2 ⟨g, hg, h1, _⟩
  simp [gapAtEnd] at hg
  subst hg
  simp at h1
  omega

theorem threeRanges_noWrap : ReachableNoWrap trigFortieth threeRanges :=
  ReachableNoWrap.allocate 10 false (ReachableNoWrap.allocate 5 false
    (ReachableNoWrap.allocate 10 false ReachableNoWrap.empty (by decide)) (by decide))
    (by decide)

theorem middleFreed_noWrap : ReachableNoWrap trigFortieth middleFreed :=
  ReachableNoWrap.free 10 5 sentinel threeRanges_noWrap threeRanges_validFree (by decide)

theorem twoGaps_noWrap : ReachableNoWrap trigFortieth twoGaps :=
  ReachableNoWrap.free 0 4 sentinel middleFreed_noWrap middleFreed_validFree (by decide)

theorem tenElems_reachable : Reachable compactionTrigger tenElems :=
  Reachable.allocate 10 false Reachable.empty

theorem sixRanges_reachable : Reachable compactionTrigger sixRanges :=
  Reachable.allocate 10 false (Reachable.allocate 10 false (Reachable.allocate 5 false
    (Reachable.allocate 2 false (Reachable.allocate 2 false (Reachable.allocate 1 false
      Reachable.empty)))))

theorem sixRanges_validFree : ValidFree sixRanges 10 10 := by
  have h : sixRanges.positionToSize = [] := by decide
  refine ⟨by decide, ?_⟩
  rintro q _ _ ⟨g, hg, _⟩
  rw [h] at hg
  simp at hg

theorem holeAtTen_reachable : Reachable compactionTrigger holeAtTen :=
  Reachable.free 10 10 sentinel sixRanges_reachable sixRanges_validFree (by decide)

theorem holeAtTen_allocate : Allocate holeAtTen (2 ^ 64 - 25) false = (30, wrapped) := by
  decide

theorem wrapped_reachable : Reachable compactionTrigger wrapped := by
  have h := Reachable.allocate (2 ^ 64 - 25) false holeAtTen_reachable
  rw [holeAtTen_allocate] at h
  exact h

theorem wrapped_validFree : ValidFree wrapped 1 2 := by
  refine ⟨by decide, ?_⟩
  rintro q hq1 hq2 ⟨g, hg, h1, h2⟩
  simp [wrapped] at hg
  subst hg
  simp at h1
  omega

theorem wrappedGap_reachable : Reachable compactionTrigger wrappedGap :=
  Reachable.free 1 2 sentinel wrapped_reachable wrapped_validFree (by decide)

theorem wrappedGap_validFree : ValidFree wrappedGap 3 2 := by
  refine ⟨by decide, ?_⟩
  rintro q hq1 hq2 ⟨g, hg, h1, h2⟩
  simp [wrappedGap] at hg
  rcases hg with rfl | rfl
  · simp at h2
    omega
  · simp at h1
    omega

theorem wrappedTail_reachable : Reachable compactionTrigger wrappedTail :=
  Reachable.free 3 2 sentinel wrappedGap_reachable wrappedGap_validFree (by decide)

theorem wrappedTail_validFree : ValidFree wrappedTail 0 1 := by
  refine ⟨by decide, ?_⟩
  rintro q hq1 hq2 ⟨g, hg, h1, h2⟩
  simp [wrappedTail] at hg
  rcases hg with rfl | rfl
  · simp at h1
    omega
  · simp at h1
    omega

end StablePosAllocator

theorem writeU32_length (mem : List Nat) (o v : Nat) (mem1 : List Nat)
    (h : writeU32 mem o v = some mem1) : mem1.length = mem.length ∧ o + 4 ≤ mem.length := by
  unfold writeU32 at h
  split at h
  · simp only [Option.some.injEq] at h
    subst h
    simp
    assumption
  · simp at h

theorem readU32_writeU32 (mem : List Nat) (o v : Nat) (mem1 : List Nat)
    (h : writeU32 mem o v = some mem1) (hv : v < 2 ^ 32) : readU32 mem1 o = some v := by
  have hl := writeU32_length mem o v mem1 h
  unfold writeU32 at h
  rw [if_pos hl.2] at h
  simp only [Option.some.injEq] at h
  subst h
  unfold readU32
  have h0 : o < mem.length := by omega
  have h1 : o + 1 < mem.length := by omega
  have h2 : o + 2 < mem.length := by omega
  have h3 : o + 3 < mem.length := by omega
  simp [List.getD_eq_getElem?_getD, List.getElem?_set, h0, h1, h2, h3, hl.2]
  omega

namespace FixedDynMemPool

theorem chunkMem_of_shaped (S N K : Nat) (st : FixedDynMemPool) (h : ChunksShaped S N K st)
    (c : Nat) (hc : c < st.num_chunks) :
    ∃ mem, chunkMem st c = some mem ∧ mem.length = K * (4 + S) := by
  obtain ⟨mem, h1, h2⟩ := h.2.2.1 c hc
  exact ⟨mem, by simp [chunkMem, h1], h2⟩

theorem lt_of_chunkMem (S N K : Nat) (st : FixedDynMemPool) (h : ChunksShaped S N K st)
    (c : Nat) (mem : List Nat) (hc : chunkMem st c = some mem) : c < st.num_chunks := by
  by_contra hcon
  have hle : st.num_chunks ≤ c := Nat.le_of_not_lt hcon
  by_cases hN : c < N
  · have := h.2.2.2 c hle hN
    simp [chunkMem, this] at hc
  · have : st.chunks[c]? = none := by
      apply List.getElem?_eq_none
      rw [h.1]; omega
    simp [chunkMem, this] at hc

theorem slot_fits (S K idx : Nat) (hK : 0 < K) : idx % K * (4 + S) + 4 ≤ K * (4 + S) := by
  have h1 : idx % K + 1 ≤ K := Nat.mod_lt idx hK
  have h2 : (idx % K + 1) * (4 + S) ≤ K * (4 + S) := Nat.mul_le_mul_right _ h1
  rw [Nat.add_mul] at h2
  omega

theorem popPage_eq (S N K : Nat) (st : FixedDynMemPool) (size idx : Nat) (hK : 0 < K)
    (hsh : ChunksShaped S N K st) (hlast : st.indcs.getLast? = some idx) (hsize : size ≤ S)
    (hidx : idx / K < st.num_chunks) :
    ∃ mem mem1, chunkMem st (idx / K) = some mem ∧ mem.length = K * (4 + S) ∧
      writeU32 mem (idx % K * (4 + S)) idx = some mem1 ∧
      popPage S K st size = some (Ptr.mk (idx / K) (idx % K * (4 + S) + 4),
        { chunks := st.chunks.set (idx / K) (some mem1)
          indcs := st.indcs.dropLast
          num_chunks := st.num_chunks
          page_index := idx }) := by
  obtain ⟨mem, hmem, hlen⟩ := chunkMem_of_shaped S N K st hsh (idx / K) hidx
  have hfit := slot_fits S K idx hK
  have hK0 : K ≠ 0 := by omega
  have hw : idx % K * (4 + S) + 4 ≤ mem.length := by rw [hlen]; exact hfit
  obtain ⟨mem1, hwr⟩ : ∃ mem1, writeU32 mem (idx % K * (4 + S)) idx = some mem1 := by
    simp only [writeU32, if_pos hw]
    exact ⟨_, rfl⟩
  refine ⟨mem, mem1, hmem, hlen, hwr, ?_⟩
  simp [popPage, hlast, hsize, page_mem, hK0, hmem, hwr]

theorem shaped_set (S N K : Nat) (st : FixedDynMemPool) (hsh : ChunksShaped S N K st)
    (c : Nat) (hc : c < st.num_chunks) (mem1 : List Nat) (hlen : mem1.length = K * (4 + S))
    (indcs : List Nat) (pi : Nat) :
    ChunksShaped S N K { chunks := st.chunks.set c (some mem1), indcs := indcs
                         num_chunks := st.num_chunks, page_index := pi } := by
  obtain ⟨h1, h2, h3, h4⟩ := hsh
  refine ⟨by simp [h1], h2, ?_, ?_⟩
  · intro d hd
    by_cases hdc : c = d
    · subst hdc
      refine ⟨mem1, ?_, hlen⟩
      have : c < st.chunks.length := by rw [h1]; omega
      simp [List.getElem?_set, this]
    · obtain ⟨mem, hm1, hm2⟩ := h3 d hd
      exact ⟨mem, by simp [List.getElem?_set, hdc, hm1], hm2⟩
  · intro d hd hdN
    have hdc : c ≠ d := by
      intro h; subst h
      exact absurd hc (by simp at hd ⊢; omega)
    simp only at hd
    simp [List.getElem?_set, hdc, h4 d hd hdN]

theorem shaped_materialize (S N K : Nat) (st : FixedDynMemPool) (hsh : ChunksShaped S N K st)
    (hN : st.num_chunks ≠ N) : ChunksShaped S N K (materialize S K st) := by
  obtain ⟨h1, h2, h3, h4⟩ := hsh
  have hlt : st.num_chunks < N := by omega
  refine ⟨by simp [materialize, h1], by simp [materialize]; omega, ?_, ?_⟩
  · intro d hd
    simp only [materialize] at hd ⊢
    by_cases hdc : st.num_chunks = d
    · refine ⟨List.replicate (K * (4 + S)) 0, ?_, by simp⟩
      have : d < st.chunks.length := by rw [h1]; omega
      simp [List.getElem?_set, hdc, this]
    · obtain ⟨mem, hm1, hm2⟩ := h3 d (by omega)
      exact ⟨mem, by simp [List.getElem?_set, hdc, hm1], hm2⟩
  · intro d hd hdN
    simp only [materialize] at hd ⊢
    have hdc : st.num_chunks ≠ d := by omega
    simp [List.getElem?_set, hdc, h4 d (by omega) hdN]

theorem allocMem_eq (S N K : Nat) (st : FixedDynMemPool) (size : Nat)
    (hsh : ChunksShaped S N K st) :
    allocMem S N K st size =
      if st.indcs = [] then
        if st.num_chunks = N then some (Ptr.null, st) else popPage S K (materialize S K st) size
      else popPage S K st size := by
  unfold allocMem
  by_cases h1 : st.indcs = []
  · by_cases h2 : st.num_chunks = N
    · simp [h1, h2]
    · have := hsh.2.2.2 st.num_chunks (Nat.le_refl _) (by have := hsh.2.1; omega)
      simp [h1, h2, this]
  · simp [h1]

theorem popPage_inv (S N K : Nat) (st st1 : FixedDynMemPool) (size : Nat) (ptr : Ptr)
    (hsh : ChunksShaped S N K st) (h : popPage S K st size = some (ptr, st1)) :
    ∃ idx, st.indcs.getLast? = some idx ∧ size ≤ S ∧ idx / K < st.num_chunks ∧ 0 < K := by
  unfold popPage at h
  cases hl : st.indcs.getLast? with
  | none => simp [hl] at h
  | some idx =>
    by_cases hs : size ≤ S
    · by_cases hK : K = 0
      · simp [hl, hs, page_mem, hK] at h
      · cases hcm : chunkMem st (idx / K) with
        | none => simp [hl, hs, page_mem, hK, hcm] at h
        | some mem =>
          exact ⟨idx, rfl, hs, lt_of_chunkMem S N K st hsh _ mem hcm, Nat.pos_of_ne_zero hK⟩
    · simp [hl, hs] at h

/-- What a successful `popPage` leaves behind: the popped index is the stored header of the
returned page, and the page is the one `page_mem` finds for that index. -/
theorem popPage_round_trip (S N K : Nat) (st st1 : FixedDynMemPool) (size : Nat) (ptr : Ptr)
    (hsh : ChunksShaped S N K st) (hu32 : ∀ x ∈ st.indcs, x < 2 ^ 32)
    (h : popPage S K st size = some (ptr, st1)) :
    ∃ idx, st.indcs.getLast? = some idx ∧ st1.page_index = idx ∧
      page_idx st1 ptr = some idx ∧ page_mem S K st1 idx 4 = some ptr ∧
      ptr = Ptr.mk (idx / K) (idx % K * (4 + S) + 4) ∧
      mapped S K st1 ptr = some true ∧ alloced S K st1 ptr = some true ∧
      ChunksShaped S N K st1 ∧ st1.indcs = st.indcs.dropLast ∧
      st1.num_chunks = st.num_chunks := by
  obtain ⟨idx, hlast, hsize, hidx, hK⟩ := popPage_inv S N K st st1 size ptr hsh h
  obtain ⟨mem, mem1, hmem, hlen, hwr, heq⟩ :=
    popPage_eq S N K st size idx hK hsh hlast hsize hidx
  rw [heq] at h
  simp only [Option.some.injEq, Prod.mk.injEq] at h
  obtain ⟨hp, hst⟩ := h
  have hidx32 : idx < 2 ^ 32 := by
    obtain ⟨ys, hys⟩ := List.getLast?_eq_some_iff.1 hlast
    exact hu32 idx (by rw [hys]; simp)
  have hK0 : K ≠ 0 := by omega
  have hclen : idx / K < st.chunks.length := by rw [hsh.1]; have := hsh.2.1; omega
  have hcm1 : chunkMem st1 (idx / K) = some mem1 := by
    rw [← hst]; simp [chunkMem, List.getElem?_set, hclen]
  have hpi : page_idx st1 ptr = some idx := by
    rw [← hp]
    simp [page_idx, hcm1, readU32_writeU32 mem _ idx mem1 hwr hidx32]
  have hpm : page_mem S K st1 idx 4 = some ptr := by
    rw [← hp]; simp [page_mem, hK0, hcm1]
  have hnc : st1.num_chunks = st.num_chunks := by rw [← hst]
  have hlt : idx < st1.num_chunks * K := by
    rw [hnc]; exact (Nat.div_lt_iff_lt_mul hK).1 hidx
  have hpix : st1.page_index = idx := by rw [← hst]
  refine ⟨idx, hlast, hpix, hpi, hpm, hp.symm, ?_, ?_, ?_, by rw [← hst], hnc⟩
  · simp [mapped, hpi, hlt, hpm]
  · simp [alloced, hpix, hlt, hpm]
  · rw [← hst]
    exact shaped_set S N K st hsh (idx / K) hidx mem1
      (by rw [(writeU32_length mem _ idx mem1 hwr).1, hlen]) _ _

end FixedDynMemPool

theorem zeroFill_length (mem : List Nat) (o len : Nat) (mem1 : List Nat)
    (h : zeroFill mem o len = some mem1) : mem1.length = mem.length := by
  unfold zeroFill at h
  split at h
  · simp only [Option.some.injEq] at h
    subst h
    simp
    omega
  · simp at h

theorem readU32_lt (mem : List Nat) (o v : Nat) (h : readU32 mem o = some v) : v < 2 ^ 32 := by
  unfold readU32 at h
  split at h
  · simp only [Option.some.injEq] at h
    subst h
    omega
  · simp at h

namespace FixedDynMemPool

theorem shaped_fresh (S N K : Nat) : ChunksShaped S N K (fresh N) := by
  refine ⟨by simp [fresh], by simp [fresh], ?_, ?_⟩
  · intro c hc; simp [fresh] at hc
  · intro c _ hc; simp [fresh, List.getElem?_replicate, hc]

theorem newIndices_lt (K c x : Nat) (hx : x ∈ newIndices K c) : x < 2 ^ 32 := by
  simp only [newIndices, List.mem_map] at hx
  obtain ⟨j, _, rfl⟩ := hx
  exact Nat.mod_lt _ (by decide)

theorem allocMem_shaped (S N K : Nat) (st st1 : FixedDynMemPool) (size : Nat) (ptr : Ptr)
    (hsh : ChunksShaped S N K st) (hu32 : ∀ x ∈ st.indcs, x < 2 ^ 32)
    (h : allocMem S N K st size = some (ptr, st1)) :
    ChunksShaped S N K st1 ∧ ∀ x ∈ st1.indcs, x < 2 ^ 32 := by
  rw [allocMem_eq S N K st size hsh] at h
  by_cases hnil : st.indcs = []
  · rw [if_pos hnil] at h
    by_cases hN : st.num_chunks = N
    · rw [if_pos hN] at h
      simp only [Option.some.injEq, Prod.mk.injEq] at h
      rw [← h.2]
      exact ⟨hsh, hu32⟩
    · rw [if_neg hN] at h
      have hu : ∀ x ∈ (materialize S K st).indcs, x < 2 ^ 32 := by
        intro x hx
        simp only [materialize, hnil, List.nil_append] at hx
        exact newIndices_lt K _ x hx
      obtain ⟨idx, _, _, _, _, _, _, _, h8, h9, _⟩ :=
        popPage_round_trip S N K _ st1 size ptr (shaped_materialize S N K st hsh hN) hu h
      refine ⟨h8, ?_⟩
      intro x hx
      rw [h9] at hx
      exact hu x (List.mem_of_mem_dropLast hx)
  · rw [if_neg hnil] at h
    obtain ⟨idx, _, _, _, _, _, _, _, h8, h9, _⟩ :=
      popPage_round_trip S N K st st1 size ptr hsh hu32 h
    refine ⟨h8, ?_⟩
    intro x hx
    rw [h9] at hx
    exact hu32 x (List.mem_of_mem_dropLast hx)

theorem freeMem_shaped (S N K : Nat) (st st1 : FixedDynMemPool) (ptr : Ptr)
    (hsh : ChunksShaped S N K st) (hu32 : ∀ x ∈ st.indcs, x < 2 ^ 32)
    (h : freeMem S N K st ptr = some st1) :
    ChunksShaped S N K st1 ∧ ∀ x ∈ st1.indcs, x < 2 ^ 32 := by
  unfold freeMem at h
  cases hpi : page_idx st ptr with
  | none => simp [hpi] at h
  | some idx =>
    have hidx : idx < 2 ^ 32 := by
      cases ptr with
      | null => simp [page_idx] at hpi
      | mk c o =>
        simp only [page_idx] at hpi
        split at hpi
        · simp at hpi
        · split at hpi
          · simp at hpi
          · exact readU32_lt _ _ _ hpi
    by_cases hNK : idx < N * K
    · by_cases hK : K = 0
      · simp [hpi, hNK, page_mem, hK] at h
      · cases hcm : chunkMem st (idx / K) with
        | none => simp [hpi, hNK, page_mem, hK, hcm] at h
        | some mem =>
          cases hz : zeroFill mem (idx % K * (4 + S)) (4 + S) with
          | none => simp [hpi, hNK, page_mem, hK, hcm, hz] at h
          | some mem1 =>
            simp [hpi, hNK, page_mem, hK, hcm, hz] at h
            have hlt := lt_of_chunkMem S N K st hsh _ mem hcm
            obtain ⟨mem0, hm0, hl0⟩ := chunkMem_of_shaped S N K st hsh _ hlt
            rw [hcm] at hm0
            simp only [Option.some.injEq] at hm0
            subst hm0
            rw [← h]
            refine ⟨shaped_set S N K st hsh _ hlt mem1
              (by rw [zeroFill_length _ _ _ _ hz, hl0]) _ _, ?_⟩
            intro x hx
            rcases List.mem_append.1 hx with hx | hx
            · exact hu32 x hx
            · simp at hx; subst hx; exact hidx
    · simp [hpi, hNK] at h

theorem clear_shaped (S N K : Nat) (st : FixedDynMemPool) (hsh : ChunksShaped S N K st) :
    ChunksShaped S N K (clear K st) ∧ ∀ x ∈ (clear K st).indcs, x < 2 ^ 32 := by
  refine ⟨hsh, ?_⟩
  intro x hx
  simp only [clear, List.mem_flatten, List.mem_map] at hx
  obtain ⟨l, ⟨i, _, rfl⟩, hxl⟩ := hx
  exact newIndices_lt K i x hxl

/-- Every reachable state has a well-shaped chunk array and `uint32_t` free-list entries. -/
theorem reachable_shaped (S N K : Nat) (st : FixedDynMemPool) (h : Reachable S N K st) :
    ChunksShaped S N K st ∧ ∀ x ∈ st.indcs, x < 2 ^ 32 := by
  induction h with
  | fresh => exact ⟨shaped_fresh S N K, by simp [fresh]⟩
  | allocMem size ptr _ ha ih => exact allocMem_shaped S N K _ _ size ptr ih.1 ih.2 ha
  | freeMem ptr _ hf ih => exact freeMem_shaped S N K _ _ ptr ih.1 ih.2 hf
  | clear _ ih => exact clear_shaped S N K _ ih.1

end FixedDynMemPool

theorem range_map_last (f : Nat → Nat) (d : Nat) (hd : 0 < d) :
    ((List.range d).map f).getLast? = some (f (d - 1)) ∧
      ((List.range d).map f).dropLast = (List.range (d - 1)).map f := by
  obtain ⟨e, rfl⟩ : ∃ e, d = e + 1 := ⟨d - 1, by omega⟩
  simp [List.range_succ]

namespace FixedDynMemPool

theorem afterAllocs_fresh (S N K : Nat) (hK : 0 < K) : AfterAllocs S N K 0 (fresh N) := by
  refine ⟨⟨by simp [fresh], by simp [fresh], ?_, ?_⟩, by simp [fresh], by simp [fresh]; omega,
    by simp [fresh], by simp⟩
  · intro c hc; simp [fresh] at hc
  · intro c _ hc; simp [fresh, List.getElem?_replicate, hc]

theorem allocMem_step (S N K i : Nat) (st : FixedDynMemPool) (size : Nat) (hK : 0 < K)
    (h : AfterAllocs S N K i st) (hi : i < N * K) (hsize : size ≤ S) :
    ∃ st1, allocMem S N K st size =
        some (Ptr.mk (i % 2 ^ 32 / K) (i % 2 ^ 32 % K * (4 + S) + 4), st1) ∧
      AfterAllocs S N K (i + 1) st1 ∧ st1.page_index = i % 2 ^ 32 := by
  obtain ⟨hsh, hlo, hhi, hind, _⟩ := h
  have hidxle : i % 2 ^ 32 ≤ i := Nat.mod_le _ _
  rw [allocMem_eq S N K st size hsh]
  by_cases hd : st.num_chunks * K - i = 0
  · have hnk : st.num_chunks * K = i := by omega
    have hnil : st.indcs = [] := by rw [hind, hd]; rfl
    have hN : st.num_chunks ≠ N := by
      intro hcon; rw [hcon] at hnk; omega
    rw [if_pos hnil, if_neg hN]
    have hsh1 := shaped_materialize S N K st hsh hN
    have hsucc : (st.num_chunks + 1) * K = i + K := by rw [Nat.add_mul, hnk]; simp
    have hl := range_map_last (fun j => ((st.num_chunks + 1) * K - j - 1) % 2 ^ 32) K hK
    have hlast : (materialize S K st).indcs.getLast? = some (i % 2 ^ 32) := by
      simp only [materialize, hnil, List.nil_append, newIndices, hl.1]
      congr 2
      omega
    have hdiv : i % 2 ^ 32 / K < (materialize S K st).num_chunks := by
      simp only [materialize]
      have : i % 2 ^ 32 / K ≤ st.num_chunks := by
        calc i % 2 ^ 32 / K ≤ i / K := Nat.div_le_div_right hidxle
          _ = st.num_chunks := by rw [← hnk]; exact Nat.mul_div_cancel _ hK
      omega
    obtain ⟨mem, mem1, _, hlen, hwr, heq⟩ :=
      popPage_eq S N K (materialize S K st) size (i % 2 ^ 32) hK hsh1 hlast hsize hdiv
    refine ⟨_, heq, ⟨?_, ?_, ?_, ?_, ?_⟩, rfl⟩
    · exact shaped_set S N K _ hsh1 _ hdiv mem1
        (by rw [(writeU32_length mem _ _ mem1 hwr).1, hlen]) _ _
    · simp only [materialize]; omega
    · simp only [materialize]; omega
    · simp only [materialize, hnil, List.nil_append, newIndices, hl.2]
      have : (st.num_chunks + 1) * K - (i + 1) = K - 1 := by omega
      rw [this]
    · intro _; simp
  · have hne : st.indcs ≠ [] := by
      rw [hind]
      intro hcon
      have := congrArg List.length hcon
      simp at this
      omega
    rw [if_neg hne]
    have hl := range_map_last (fun j => (st.num_chunks * K - j - 1) % 2 ^ 32)
      (st.num_chunks * K - i) (by omega)
    have hlast : st.indcs.getLast? = some (i % 2 ^ 32) := by
      rw [hind, hl.1]
      show some ((st.num_chunks * K - (st.num_chunks * K - i - 1) - 1) % 2 ^ 32) =
        some (i % 2 ^ 32)
      congr 2
      omega
    have hdiv : i % 2 ^ 32 / K < st.num_chunks := by
      apply (Nat.div_lt_iff_lt_mul hK).2
      omega
    obtain ⟨mem, mem1, _, hlen, hwr, heq⟩ :=
      popPage_eq S N K st size (i % 2 ^ 32) hK hsh hlast hsize hdiv
    refine ⟨_, heq, ⟨?_, ?_, ?_, ?_, ?_⟩, rfl⟩
    · exact shaped_set S N K _ hsh _ hdiv mem1
        (by rw [(writeU32_length mem _ _ mem1 hwr).1, hlen]) _ _
    · simp only; omega
    · simp only; omega
    · simp only
      rw [hind, hl.2]
      have : st.num_chunks * K - i - 1 = st.num_chunks * K - (i + 1) := by omega
      rw [this]
    · intro _; simp

theorem allocMemN_afterAllocs (S N K : Nat) (sz : Nat → Nat) (hK : 0 < K)
    (hsz : ∀ k, sz k ≤ S) (i : Nat) (hi : i ≤ N * K) :
    ∃ st, allocMemN S N K sz i = some st ∧ AfterAllocs S N K i st := by
  induction i with
  | zero => exact ⟨fresh N, rfl, afterAllocs_fresh S N K hK⟩
  | succ j ih =>
    obtain ⟨st, h1, h2⟩ := ih (by omega)
    obtain ⟨st1, h3, h4, _⟩ := allocMem_step S N K j st (sz j) hK h2 (by omega) (hsz j)
    exact ⟨st1, by simp [allocMemN, h1, h3], h4⟩

/-- The call number `i + 1` on a fresh pool returns the payload address of the page whose
index is `i` reduced modulo `2 ^ 32`. -/
theorem allocMemN_next (S N K : Nat) (sz : Nat → Nat) (hK : 0 < K) (hsz : ∀ k, sz k ≤ S)
    (i : Nat) (hi : i < N * K) :
    ∃ st st1, allocMemN S N K sz i = some st ∧ AfterAllocs S N K i st ∧
      allocMem S N K st (sz i) =
        some (Ptr.mk (i % 2 ^ 32 / K) (i % 2 ^ 32 % K * (4 + S) + 4), st1) ∧
      AfterAllocs S N K (i + 1) st1 ∧ st1.page_index = i % 2 ^ 32 := by
  obtain ⟨st, h1, h2⟩ := allocMemN_afterAllocs S N K sz hK hsz i (by omega)
  obtain ⟨st1, h3, h4, h5⟩ := allocMem_step S N K i st (sz i) hK h2 hi (hsz i)
  exact ⟨st, st1, h1, h2, h3, h4, h5⟩

theorem oneAllocated_reachable : Reachable 2 2 2 oneAllocated :=
  Reachable.allocMem 1 (Ptr.mk 0 4) Reachable.fresh (by decide)

/-- The index round trip of a successful `allocMem` in a state with a well-shaped chunk
array and `uint32_t` free-list entries. -/
theorem allocMem_round_trip_of_shaped (S N K : Nat) (st st1 : FixedDynMemPool) (size : Nat)
    (ptr : Ptr) (hsh : ChunksShaped S N K st) (hu32 : ∀ x ∈ st.indcs, x < 2 ^ 32)
    (h : allocMem S N K st size = some (ptr, st1)) (hnn : ptr ≠ Ptr.null) :
    ∃ idx, (if st.indcs = [] then newIndices K st.num_chunks else st.indcs).getLast? = some idx ∧
      st1.page_index = idx ∧
      page_idx st1 ptr = some idx ∧ page_mem S K st1 idx 4 = some ptr ∧
      ptr = Ptr.mk (idx / K) (idx % K * (4 + S) + 4) ∧
      mapped S K st1 ptr = some true ∧ alloced S K st1 ptr = some true := by
  rw [allocMem_eq S N K st size hsh] at h
  by_cases hnil : st.indcs = []
  · rw [if_pos hnil] at h
    by_cases hN : st.num_chunks = N
    · rw [if_pos hN] at h
      simp only [Option.some.injEq, Prod.mk.injEq] at h
      exact absurd h.1.symm hnn
    · rw [if_neg hN] at h
      have hu : ∀ x ∈ (materialize S K st).indcs, x < 2 ^ 32 := by
        intro x hx
        simp only [materialize, hnil, List.nil_append, newIndices, List.mem_map] at hx
        obtain ⟨j, _, rfl⟩ := hx
        exact Nat.mod_lt _ (by decide)
      obtain ⟨idx, h1, h2, h3, h4, h5, h6, h7, _⟩ :=
        popPage_round_trip S N K _ st1 size ptr (shaped_materialize S N K st hsh hN) hu h
      refine ⟨idx, ?_, h2, h3, h4, h5, h6, h7⟩
      rw [if_pos hnil]
      simpa [materialize, hnil] using h1
  · rw [if_neg hnil] at h
    obtain ⟨idx, h1, h2, h3, h4, h5, h6, h7, _⟩ :=
      popPage_round_trip S N K st st1 size ptr hsh hu32 h
    exact ⟨idx, by rw [if_neg hnil]; exact h1, h2, h3, h4, h5, h6, h7⟩

end FixedDynMemPool

theorem compactionTrigger_small : ∀ s, s < 40 → compactionTrigger 1 s = true ∧
    compactionTrigger 2 s = true := by
  decide

namespace StablePosAllocator

variable {α : Type} [Inhabited α]

theorem CompactGaps_no_gaps (st : StablePosAllocator α) (h : st.positionToSize = []) :
    CompactGaps st = none := by
  simp [CompactGaps, h, mergeLoop]

/-- Without a recorded gap `Reset` has no defined result, in whatever state. -/
theorem Reset_no_gaps (st : StablePosAllocator α) (h : st.positionToSize = []) :
    Reset st = none := by
  simp [Reset, CompactGaps_no_gaps st h]

/-- `Free` of a range that is not the tail, in a state without gaps: the range is the only
gap afterwards, whether the compaction runs or not. -/
theorem Free_first_gap (trig : Nat → Nat → Bool) (data : List α) (first n : Nat) (hn : 0 < n)
    (hlt : first + n < data.length) :
    Free trig { data := data, sizeToPositions := [], positionToSize := [] } first n =
      some ({ data := data, sizeToPositions := [(n, first)], positionToSize := [(first, n)] },
        sentinel) := by
  have h1 : first + n ≤ data.length := by omega
  have h2 : ¬ n = 0 := by omega
  have h3 : ¬ first + n = data.length := by omega
  cases ht : trig 1 data.length with
  | false => simp [Free, h1, h2, h3, mapEmplace, mmEmplace, ht]
  | true =>
    simp [Free, h1, h2, h3, mapEmplace, mmEmplace, ht, CompactGaps, mergeLoop, lowerBound,
      scanAdjacent, trimTail]

/-- `Free` of a range that starts where the only gap ends, with the compaction running:
the two gaps become one. -/
theorem Free_second_gap (trig : Nat → Nat → Bool) (data : List α) (p x y : Nat) (hx : 0 < x)
    (hy : 0 < y) (hlt : p + x + y < data.length) (ht : trig 2 data.length = true) :
    Free trig { data := data, sizeToPositions := [(x, p)], positionToSize := [(p, x)] }
        (p + x) y =
      some ({ data := data, sizeToPositions := [(x + y, p)], positionToSize := [(p, x + y)] },
        sentinel) := by
  have h1 : p + x + y ≤ data.length := by omega
  have h2 : ¬ y = 0 := by omega
  have h3 : ¬ p + x + y = data.length := by omega
  have h4 : ¬ p + x < p := by omega
  have h5 : ¬ p + x = p := by omega
  have h6 : ¬ p + (x + y) = data.length := by omega
  by_cases hyx : y < x
  · simp [Free, h1, h2, h3, h4, h5, h6, mapEmplace, mmEmplace, ht, CompactGaps, mergeLoop,
      lowerBound, scanAdjacent, trimTail, eraseSizeToPositionsKVFunc, hyx]
  · simp [Free, h1, h2, h3, h4, h5, h6, mapEmplace, mmEmplace, ht, CompactGaps, mergeLoop,
      lowerBound, scanAdjacent, trimTail, eraseSizeToPositionsKVFunc, hyx]

/-- `Allocate(n)` in a state whose only gap has size `n`: the gap is consumed. -/
theorem Allocate_exact_gap (data : List α) (p n : Nat) (hn : 0 < n) (m : Bool) :
    Allocate { data := data, sizeToPositions := [(n, p)], positionToSize := [(p, n)] } n m =
      (p, { data := data, sizeToPositions := [], positionToSize := [] }) := by
  have h2 : ¬ n = 0 := by omega
  rw [Allocate_eq]
  simp [AllocateImpl, h2, lowerBound, gapLoop, mapErase]

/-- `Allocate(n)` in a state without gaps appends. -/
theorem Allocate_no_gaps (data : List α) (n : Nat) (hn : 0 < n) (m : Bool)
    (hb : data.length + n < 2 ^ 64) :
    Allocate { data := data, sizeToPositions := [], positionToSize := [] } n m =
      (data.length, { data := vecResize data (data.length + n), sizeToPositions := []
                      positionToSize := [] }) := by
  rw [Allocate_eq, AllocateImpl_append _ n hn (Or.inl rfl) hb]

end StablePosAllocator

/-! ### Bytes of a block -/

theorem readU32_congr (mem1 mem2 : List Nat) (o : Nat) (hlen : mem1.length = mem2.length)
    (h : ∀ j, o ≤ j → j < o + 4 → mem1.getD j 0 = mem2.getD j 0) :
    readU32 mem1 o = readU32 mem2 o := by
  unfold readU32
  rw [hlen, h o (by omega) (by omega), h (o + 1) (by omega) (by omega),
    h (o + 2) (by omega) (by omega), h (o + 3) (by omega) (by omega)]

theorem getD_writeU32 (mem : List Nat) (o v : Nat) (mem1 : List Nat)
    (h : writeU32 mem o v = some mem1) (j : Nat) (hj : j < o ∨ o + 4 ≤ j) :
    mem1.getD j 0 = mem.getD j 0 := by
  unfold writeU32 at h
  split at h
  · simp only [Option.some.injEq] at h
    subst h
    have h0 : o ≠ j := by omega
    have h1 : o + 1 ≠ j := by omega
    have h2 : o + 2 ≠ j := by omega
    have h3 : o + 3 ≠ j := by omega
    simp [List.getD_eq_getElem?_getD, List.getElem?_set, h0, h1, h2, h3]
  · simp at h

theorem getD_zeroFill (mem : List Nat) (o len : Nat) (mem1 : List Nat)
    (h : zeroFill mem o len = some mem1) (j : Nat) :
    mem1.getD j 0 = if o ≤ j ∧ j < o + len then 0 else mem.getD j 0 := by
  unfold zeroFill at h
  split at h
  · rename_i hle
    simp only [Option.some.injEq] at h
    subst h
    simp only [List.getD_eq_getElem?_getD]
    by_cases h1 : j < o
    · have : ¬ (o ≤ j ∧ j < o + len) := by omega
      rw [if_neg this, List.append_assoc, List.getElem?_append_left (by simp; omega)]
      simp [List.getElem?_take, h1]
    · by_cases h2 : j < o + len
      · rw [if_pos ⟨by omega, h2⟩, List.append_assoc,
          List.getElem?_append_right (by simp; omega),
          List.getElem?_append_left (by simp; omega)]
        have hm : o ⊓ mem.length = o := by omega
        simp only [List.length_take, hm, List.getElem?_replicate]
        rw [if_pos (by omega)]
        rfl
      · have : ¬ (o ≤ j ∧ j < o + len) := by omega
        rw [if_neg this, List.getElem?_append_right (by simp; omega)]
        simp
        congr 2
        omega
  · simp at h

theorem readU32_writeU32_other (mem : List Nat) (o v o2 : Nat) (mem1 : List Nat)
    (h : writeU32 mem o v = some mem1) (hd : o2 + 4 ≤ o ∨ o + 4 ≤ o2) :
    readU32 mem1 o2 = readU32 mem o2 :=
  readU32_congr mem1 mem o2 (writeU32_length mem o v mem1 h).1
    (fun j h1 h2 => getD_writeU32 mem o v mem1 h j (by omega))

theorem readU32_zeroFill_other (mem : List Nat) (o len o2 : Nat) (mem1 : List Nat)
    (h : zeroFill mem o len = some mem1) (hd : o2 + 4 ≤ o ∨ o + len ≤ o2) :
    readU32 mem1 o2 = readU32 mem o2 :=
  readU32_congr mem1 mem o2 (zeroFill_length mem o len mem1 h)
    (fun j h1 h2 => by rw [getD_zeroFill mem o len mem1 h j, if_neg (by omega)])

theorem readU32_zeroFill_self (mem : List Nat) (o len : Nat) (mem1 : List Nat)
    (h : zeroFill mem o len = some mem1) (hlen : 4 ≤ len) : readU32 mem1 o = some 0 := by
  have hl := zeroFill_length mem o len mem1 h
  have hb : o + len ≤ mem.length := by
    unfold zeroFill at h
    split at h
    · assumption
    · simp at h
  unfold readU32
  rw [if_pos (by omega), getD_zeroFill mem o len mem1 h o, getD_zeroFill mem o len mem1 h (o + 1),
    getD_zeroFill mem o len mem1 h (o + 2), getD_zeroFill mem o len mem1 h (o + 3),
    if_pos (by omega), if_pos (by omega), if_pos (by omega), if_pos (by omega)]

theorem getD_splice (mem bytes : List Nat) (o j : Nat) (hfit : o + bytes.length ≤ mem.length)
    (hj : j < o ∨ o + bytes.length ≤ j) :
    (mem.take o ++ bytes ++ mem.drop (o + bytes.length)).getD j 0 = mem.getD j 0 := by
  simp only [List.getD_eq_getElem?_getD]
  rcases hj with h1 | h1
  · rw [List.append_assoc, List.getElem?_append_left (by simp; omega)]
    simp [List.getElem?_take, h1]
  · rw [List.getElem?_append_right (by simp; omega)]
    simp
    congr 2
    omega

theorem readU32_zeros (n o : Nat) (h : o + 4 ≤ n) : readU32 (List.replicate n 0) o = some 0 := by
  unfold readU32
  rw [if_pos (by simpa using h)]
  have h0 : o < n := by omega
  have h1 : o + 1 < n := by omega
  have h2 : o + 2 < n := by omega
  have h3 : o + 3 < n := by omega
  simp [List.getD_eq_getElem?_getD, List.getElem?_replicate, h0, h1, h2, h3]

theorem slot_disjoint (S a b : Nat) (h : a ≠ b) :
    a * (4 + S) + (4 + S) ≤ b * (4 + S) ∨ b * (4 + S) + (4 + S) ≤ a * (4 + S) := by
  rcases Nat.lt_or_gt_of_ne h with h1 | h1
  · left
    have := Nat.mul_le_mul_right (4 + S) (Nat.succ_le_of_lt h1)
    rw [Nat.succ_mul] at this
    exact this
  · right
    have := Nat.mul_le_mul_right (4 + S) (Nat.succ_le_of_lt h1)
    rw [Nat.succ_mul] at this
    exact this

namespace FixedDynMemPool

theorem page_idx_payload (S K : Nat) (st : FixedDynMemPool) (idx : Nat) :
    page_idx st (payload S K idx) = header S K st idx := by
  simp [page_idx, payload, header]

/-- The index bytes of the other pages are untouched when the bytes of one page change. -/
theorem header_frame (S K : Nat) (st : FixedDynMemPool) (i0 idx : Nat)
    (mem mem1 : List Nat) (hcm : chunkMem st (i0 / K) = some mem)
    (hlen : mem1.length = mem.length)
    (hagree : ∀ j, j < i0 % K * (4 + S) ∨ i0 % K * (4 + S) + (4 + S) ≤ j →
      mem1.getD j 0 = mem.getD j 0)
    (hne : idx ≠ i0) (indcs : List Nat) (nc pi : Nat) :
    header S K { chunks := st.chunks.set (i0 / K) (some mem1), indcs := indcs
                 num_chunks := nc, page_index := pi } idx = header S K st idx := by
  by_cases hc : i0 / K = idx / K
  · have hmod : idx % K ≠ i0 % K := by
      intro hcon
      apply hne
      rw [← Nat.div_add_mod idx K, ← Nat.div_add_mod i0 K, hc, hcon]
    have hlt : idx / K < st.chunks.length := by
      rw [← hc]
      by_contra hcon
      have : st.chunks[i0 / K]? = none := List.getElem?_eq_none (by omega)
      simp [chunkMem, this] at hcm
    have h1 : chunkMem { chunks := st.chunks.set (i0 / K) (some mem1), indcs := indcs
                         num_chunks := nc, page_index := pi } (idx / K) = some mem1 := by
      simp [chunkMem, hc, List.getElem?_set, hlt]
    rw [hc] at hcm
    simp only [header, h1, hcm]
    apply readU32_congr _ _ _ hlen
    intro j hj1 hj2
    apply hagree
    rcases slot_disjoint S (idx % K) (i0 % K) hmod with h | h
    · left; omega
    · right; omega
  · have h1 : chunkMem { chunks := st.chunks.set (i0 / K) (some mem1), indcs := indcs
                         num_chunks := nc, page_index := pi } (idx / K) =
        chunkMem st (idx / K) := by
      simp [chunkMem, List.getElem?_set, hc]
    simp only [header, h1]

theorem tracked_fresh (S N K : Nat) : Tracked S N K (fresh N) [] :=
  ⟨shaped_fresh S N K, by simp [fresh], by simp, by intro idx h; simp [fresh] at h⟩

theorem tracked_materialize (S N K : Nat) (st : FixedDynMemPool) (A : List Nat)
    (ht : Tracked S N K st A) (hN : st.num_chunks ≠ N) :
    Tracked S N K (materialize S K st) A := by
  obtain ⟨hsh, hu, hA, hh⟩ := ht
  refine ⟨shaped_materialize S N K st hsh hN, ?_, ?_, ?_⟩
  · intro x hx
    simp only [materialize] at hx
    rcases List.mem_append.1 hx with h | h
    · exact hu x h
    · exact newIndices_lt K _ x h
  · intro idx hidx
    have := hA idx hidx
    simp only [materialize, Nat.add_mul]
    omega
  · intro idx hidx
    simp only [materialize] at hidx
    have hK : 0 < K := by
      rcases Nat.eq_zero_or_pos K with h | h
      · subst h; simp at hidx
      · exact h
    have hnlt : st.num_chunks < st.chunks.length := by
      have := hsh.1; have := hsh.2.1; omega
    by_cases hlt : idx < st.num_chunks * K
    · have hd : idx / K < st.num_chunks := (Nat.div_lt_iff_lt_mul hK).2 hlt
      have hc : st.num_chunks ≠ idx / K := by omega
      have h1 : chunkMem (materialize S K st) (idx / K) = chunkMem st (idx / K) := by
        simp [chunkMem, materialize, List.getElem?_set, hc]
      have := hh idx hlt
      simp only [header] at this ⊢
      rw [h1]
      exact this
    · have hd : idx / K = st.num_chunks := by
        apply Nat.div_eq_of_lt_le
        · rw [Nat.mul_comm] at hlt; rw [Nat.mul_comm]; omega
        · rw [Nat.mul_comm] at hidx; rw [Nat.mul_comm]; exact hidx
      have hni : idx ∉ A := fun hcon => hlt (hA idx hcon)
      have h1 : chunkMem (materialize S K st) (idx / K) =
          some (List.replicate (K * (4 + S)) 0) := by
        simp [chunkMem, materialize, List.getElem?_set, hd, hnlt]
      simp only [header, h1, if_neg hni]
      exact readU32_zeros _ _ (slot_fits S K idx hK)

theorem popPage_tracked (S N K : Nat) (st st1 : FixedDynMemPool) (size : Nat) (ptr : Ptr)
    (A : List Nat) (ht : Tracked S N K st A) (h : popPage S K st size = some (ptr, st1)) :
    Tracked S N K st1 (st1.page_index :: A) ∧ ptr = payload S K st1.page_index ∧
      st.indcs.getLast? = some st1.page_index := by
  obtain ⟨hsh, hu, hA, hh⟩ := ht
  obtain ⟨idx, hlast, hsize, hidx, hK⟩ := popPage_inv S N K st st1 size ptr hsh h
  obtain ⟨mem, mem1, hmem, hlen, hwr, heq⟩ :=
    popPage_eq S N K st size idx hK hsh hlast hsize hidx
  have hidx32 : idx < 2 ^ 32 := by
    obtain ⟨ys, hys⟩ := List.getLast?_eq_some_iff.1 hlast
    exact hu idx (by rw [hys]; simp)
  have hclen : idx / K < st.chunks.length := by rw [hsh.1]; have := hsh.2.1; omega
  rw [heq] at h
  simp only [Option.some.injEq, Prod.mk.injEq] at h
  obtain ⟨hp, hst⟩ := h
  subst hst
  refine ⟨⟨?_, ?_, ?_, ?_⟩, hp.symm, hlast⟩
  · exact shaped_set S N K st hsh (idx / K) hidx mem1
      (by rw [(writeU32_length mem _ idx mem1 hwr).1, hlen]) _ _
  · intro x hx
    exact hu x (List.mem_of_mem_dropLast hx)
  · intro j hj
    simp only [List.mem_cons] at hj
    rcases hj with hj | hj
    · subst hj; exact (Nat.div_lt_iff_lt_mul hK).1 hidx
    · exact hA j hj
  · intro j hj
    simp only at hj
    by_cases hji : j = idx
    · subst hji
      have h1 : chunkMem { chunks := st.chunks.set (j / K) (some mem1)
                           indcs := st.indcs.dropLast, num_chunks := st.num_chunks
                           page_index := j } (j / K) = some mem1 := by
        simp [chunkMem, List.getElem?_set, hclen]
      simp only [header, h1, List.mem_cons, true_or, if_true]
      exact readU32_writeU32 mem _ j mem1 hwr hidx32
    · rw [header_frame S K st idx j mem mem1 hmem (writeU32_length mem _ idx mem1 hwr).1
        (fun i hi => getD_writeU32 mem _ idx mem1 hwr i (by omega)) hji, hh j hj]
      simp [hji]

theorem allocMem_tracked (S N K : Nat) (st st1 : FixedDynMemPool) (size : Nat) (ptr : Ptr)
    (A : List Nat) (ht : Tracked S N K st A) (h : allocMem S N K st size = some (ptr, st1))
    (hp : ptr ≠ Ptr.null) :
    Tracked S N K st1 (st1.page_index :: A) ∧ ptr = payload S K st1.page_index := by
  rw [allocMem_eq S N K st size ht.1] at h
  by_cases hnil : st.indcs = []
  · rw [if_pos hnil] at h
    by_cases hN : st.num_chunks = N
    · rw [if_pos hN] at h
      simp only [Option.some.injEq, Prod.mk.injEq] at h
      exact absurd h.1.symm hp
    · rw [if_neg hN] at h
      have := popPage_tracked S N K _ st1 size ptr A (tracked_materialize S N K st A ht hN) h
      exact ⟨this.1, this.2.1⟩
  · rw [if_neg hnil] at h
    have := popPage_tracked S N K st st1 size ptr A ht h
    exact ⟨this.1, this.2.1⟩

/-- The function `freeMem` on the address of an allocated page: it returns, with the page
zero-filled and its index pushed on the free list. -/
theorem freeMem_payload_eq (S N K : Nat) (st : FixedDynMemPool) (A : List Nat) (idx : Nat)
    (ht : Tracked S N K st A) (hidx : idx ∈ A) :
    0 < K ∧ idx / K < st.num_chunks ∧
    ∃ mem mem1, chunkMem st (idx / K) = some mem ∧
      zeroFill mem (idx % K * (4 + S)) (4 + S) = some mem1 ∧
      freeMem S N K st (payload S K idx) =
        some { chunks := st.chunks.set (idx / K) (some mem1), indcs := st.indcs ++ [idx]
               num_chunks := st.num_chunks, page_index := st.page_index } := by
  obtain ⟨hsh, hu, hA, hh⟩ := ht
  have hlt := hA idx hidx
  have hK : 0 < K := by
    rcases Nat.eq_zero_or_pos K with h | h
    · subst h; simp at hlt
    · exact h
  have hK0 : K ≠ 0 := by omega
  have hd : idx / K < st.num_chunks := (Nat.div_lt_iff_lt_mul hK).2 hlt
  obtain ⟨mem, hmem, hlen⟩ := chunkMem_of_shaped S N K st hsh (idx / K) hd
  have hfit : idx % K * (4 + S) + (4 + S) ≤ mem.length := by
    rw [hlen]
    have h1 : idx % K + 1 ≤ K := Nat.mod_lt idx hK
    have h2 := Nat.mul_le_mul_right (4 + S) h1
    rw [Nat.add_mul] at h2
    omega
  have hz : zeroFill mem (idx % K * (4 + S)) (4 + S) =
      some (mem.take (idx % K * (4 + S)) ++ List.replicate (4 + S) 0 ++
        mem.drop (idx % K * (4 + S) + (4 + S))) := by
    simp only [zeroFill, if_pos hfit]
  have hNK : idx < N * K := Nat.lt_of_lt_of_le hlt (Nat.mul_le_mul_right K hsh.2.1)
  have hpi : page_idx st (payload S K idx) = some idx := by
    rw [page_idx_payload, hh idx hlt, if_pos hidx]
  refine ⟨hK, hd, mem, _, hmem, hz, ?_⟩
  simp [freeMem, hpi, hNK, page_mem, hK0, hmem, hz]

theorem freeMem_tracked (S N K : Nat) (st st1 : FixedDynMemPool) (A : List Nat) (idx : Nat)
    (ht : Tracked S N K st A) (hidx : idx ∈ A)
    (h : freeMem S N K st (payload S K idx) = some st1) :
    Tracked S N K st1 (A.filter (fun j => decide (j ≠ idx))) := by
  obtain ⟨hK, hd, mem, mem1, hmem, hz, heq⟩ := freeMem_payload_eq S N K st A idx ht hidx
  have hsh1 := freeMem_shaped S N K st st1 _ ht.1 ht.2.1 h
  obtain ⟨hsh, hu, hA, hh⟩ := ht
  rw [heq] at h
  simp only [Option.some.injEq] at h
  subst h
  have hclen : idx / K < st.chunks.length := by rw [hsh.1]; have := hsh.2.1; omega
  refine ⟨hsh1.1, hsh1.2, ?_, ?_⟩
  · intro j hj
    exact hA j (List.mem_filter.1 hj).1
  · intro j hj
    simp only at hj
    by_cases hji : j = idx
    · subst hji
      have h1 : chunkMem { chunks := st.chunks.set (j / K) (some mem1)
                           indcs := st.indcs ++ [j], num_chunks := st.num_chunks
                           page_index := st.page_index } (j / K) = some mem1 := by
        simp [chunkMem, List.getElem?_set, hclen]
      have hni : j ∉ A.filter (fun i => decide (i ≠ j)) := by simp [List.mem_filter]
      simp only [header, h1, if_neg hni]
      exact readU32_zeroFill_self mem _ _ mem1 hz (by omega)
    · rw [header_frame S K st idx j mem mem1 hmem (zeroFill_length mem _ _ mem1 hz)
        (fun i hi => by rw [getD_zeroFill mem _ _ mem1 hz i, if_neg (by omega)]) hji, hh j hj]
      simp [List.mem_filter, hji]

theorem writePayload_tracked (S N K : Nat) (st st1 : FixedDynMemPool) (A : List Nat)
    (idx : Nat) (bytes : List Nat) (ht : Tracked S N K st A)
    (h : writePayload S K st idx bytes = some st1) : Tracked S N K st1 A := by
  obtain ⟨hsh, hu, hA, hh⟩ := ht
  unfold writePayload at h
  cases hcm : chunkMem st (idx / K) with
  | none => simp [hcm] at h
  | some mem =>
    simp only [hcm] at h
    split at h
    · rename_i hfit
      simp only [Option.some.injEq] at h
      subst h
      have hlt := lt_of_chunkMem S N K st hsh _ mem hcm
      obtain ⟨mem0, hm0, hl0⟩ := chunkMem_of_shaped S N K st hsh _ hlt
      rw [hcm] at hm0
      simp only [Option.some.injEq] at hm0
      subst hm0
      have hlen : (mem.take (idx % K * (4 + S) + 4) ++ bytes ++
          mem.drop (idx % K * (4 + S) + 4 + bytes.length)).length = mem.length := by
        simp; omega
      have hclen : idx / K < st.chunks.length := by rw [hsh.1]; have := hsh.2.1; omega
      refine ⟨shaped_set S N K st hsh _ hlt _ (by rw [hlen, hl0]) _ _, hu, hA, ?_⟩
      intro j hj
      simp only at hj
      rw [← hh j hj]
      by_cases hji : j = idx
      · subst hji
        have h1 : chunkMem { chunks := st.chunks.set (j / K) (some (mem.take
              (j % K * (4 + S) + 4) ++ bytes ++ mem.drop (j % K * (4 + S) + 4 + bytes.length)))
                             indcs := st.indcs, num_chunks := st.num_chunks
                             page_index := st.page_index } (j / K) = some (mem.take
              (j % K * (4 + S) + 4) ++ bytes ++
              mem.drop (j % K * (4 + S) + 4 + bytes.length)) := by
          simp [chunkMem, List.getElem?_set, hclen]
        simp only [header, h1, hcm]
        exact readU32_congr _ _ _ hlen
          (fun i hi1 hi2 => getD_splice mem bytes _ i hfit.2 (by omega))
      · exact header_frame S K st idx j mem _ hcm hlen
          (fun i hi => getD_splice mem bytes _ i hfit.2 (by omega)) hji _ _ _
    · simp at h

theorem validUse_tracked (S N K : Nat) (st : FixedDynMemPool) (A : List Nat)
    (h : ValidUse S N K st A) : Tracked S N K st A := by
  induction h with
  | fresh => exact tracked_fresh S N K
  | allocMem size ptr _ ha hp ih => exact (allocMem_tracked S N K _ _ size ptr _ ih ha hp).1
  | freeMem idx _ hi hf ih => exact freeMem_tracked S N K _ _ _ idx ih hi hf
  | clear _ ih =>
    obtain ⟨hsh, _, _, hh⟩ := ih
    exact ⟨(clear_shaped S N K _ hsh).1, (clear_shaped S N K _ hsh).2, by simp, hh⟩
  | write idx bytes _ _ hw ih => exact writePayload_tracked S N K _ _ _ idx bytes ih hw

end FixedDynMemPool

namespace FixedDynMemPool

/-- What `mapped` answers for the address of a page of a materialised chunk: true when the
page is allocated, and also when it is page 0, whose index equals the zero that `freeMem`
leaves in the index bytes. -/
theorem mapped_payload (S N K : Nat) (st : FixedDynMemPool) (A : List Nat) (idx : Nat)
    (ht : Tracked S N K st A) (hidx : idx < st.num_chunks * K) :
    mapped S K st (payload S K idx) = some (decide (idx ∈ A ∨ idx = 0)) := by
  obtain ⟨hsh, hu, hA, hh⟩ := ht
  have hK : 0 < K := by
    rcases Nat.eq_zero_or_pos K with h | h
    · subst h; simp at hidx
    · exact h
  have hK0 : K ≠ 0 := by omega
  have hpi : page_idx st (payload S K idx) = some (if idx ∈ A then idx else 0) := by
    rw [page_idx_payload, hh idx hidx]
  by_cases hin : idx ∈ A
  · rw [if_pos hin] at hpi
    obtain ⟨mem, hmem, _⟩ :=
      chunkMem_of_shaped S N K st hsh (idx / K) ((Nat.div_lt_iff_lt_mul hK).2 hidx)
    simp only [mapped, hpi, if_pos hidx, page_mem, if_neg hK0, hmem]
    simp [payload, hin]
  · rw [if_neg hin] at hpi
    have h0 : 0 < st.num_chunks * K := by omega
    obtain ⟨mem, hmem, _⟩ :=
      chunkMem_of_shaped S N K st hsh (0 / K) ((Nat.div_lt_iff_lt_mul hK).2 h0)
    have hiff : (Ptr.mk (0 / K) (0 % K * (4 + S) + 4) = payload S K idx) ↔ idx = 0 := by
      constructor
      · intro h
        simp only [payload, Ptr.mk.injEq, Nat.zero_div, Nat.zero_mod, Nat.zero_mul,
          Nat.zero_add] at h
        have h1 : idx % K * (4 + S) = 0 := by omega
        have h2 : idx % K = 0 := by
          rcases Nat.mul_eq_zero.1 h1 with h | h
          · exact h
          · omega
        rw [← Nat.div_add_mod idx K, ← h.1, h2]
        simp
      · intro h; subst h; rfl
    simp only [mapped, hpi, if_pos h0, page_mem, if_neg hK0, hmem, hin, false_or]
    congr 1
    exact decide_eq_decide.2 hiff

theorem halfPool_valid : ValidUse 2 1 2 halfPool [0] :=
  ValidUse.allocMem 1 (Ptr.mk 0 4) ValidUse.fresh (by decide) (by decide)

theorem fullPool_valid : ValidUse 2 1 2 fullPool [1, 0] :=
  ValidUse.allocMem 1 (Ptr.mk 0 10) halfPool_valid (by decide) (by decide)

theorem oneAllocated_valid : ValidUse 2 2 2 oneAllocated [0] :=
  ValidUse.allocMem 1 (Ptr.mk 0 4) ValidUse.fresh (by decide) (by decide)

end FixedDynMemPool

/-! ### The address table -/

theorem tableFind_mem (t : List (Ptr × Nat)) (p : Ptr) (i : Nat) (h : tableFind t p = some i) :
    (p, i) ∈ t := by
  induction t with
  | nil => simp [tableFind] at h
  | cons e rest ih =>
    simp only [tableFind] at h
    split at h
    · rename_i he
      simp only [Option.some.injEq] at h
      have : e = (p, i) := Prod.ext he h
      simp [this]
    · exact List.mem_cons_of_mem _ (ih h)

theorem tableFind_none (t : List (Ptr × Nat)) (p : Ptr) (h : p ∉ t.map Prod.fst) :
    tableFind t p = none := by
  induction t with
  | nil => rfl
  | cons e rest ih =>
    simp only [List.map_cons, List.mem_cons, not_or] at h
    simp only [tableFind]
    rw [if_neg (fun hc => h.1 hc.symm)]
    exact ih h.2

theorem tableFind_isSome (t : List (Ptr × Nat)) (p : Ptr) (h : p ∈ t.map Prod.fst) :
    (tableFind t p).isSome = true := by
  induction t with
  | nil => simp at h
  | cons e rest ih =>
    simp only [tableFind]
    by_cases he : e.1 = p
    · simp [he]
    · rw [if_neg he]
      simp only [List.map_cons, List.mem_cons] at h
      rcases h with h | h
      · exact absurd h.symm he
      · exact ih h

theorem tableErase_cons_eq (e : Ptr × Nat) (rest : List (Ptr × Nat)) (p : Ptr) (he : e.1 = p) :
    tableErase (e :: rest) p = tableErase rest p := by
  simp [tableErase, List.filter_cons, he]

theorem tableErase_cons_ne (e : Ptr × Nat) (rest : List (Ptr × Nat)) (p : Ptr) (he : e.1 ≠ p) :
    tableErase (e :: rest) p = e :: tableErase rest p := by
  simp [tableErase, List.filter_cons, he]

theorem tableErase_map_fst (t : List (Ptr × Nat)) (p : Ptr) :
    (tableErase t p).map Prod.fst = (t.map Prod.fst).filter (fun q => decide (q ≠ p)) := by
  induction t with
  | nil => rfl
  | cons e rest ih =>
    by_cases he : e.1 = p
    · rw [tableErase_cons_eq e rest p he, ih, List.map_cons, List.filter_cons,
        if_neg (by simp [he])]
    · rw [tableErase_cons_ne e rest p he, List.map_cons, ih, List.map_cons, List.filter_cons,
        if_pos (by simp [he])]

theorem tableFind_erase_self (t : List (Ptr × Nat)) (p : Ptr) :
    tableFind (tableErase t p) p = none := by
  apply tableFind_none
  rw [tableErase_map_fst]
  simp [List.mem_filter]

theorem tableFind_erase_other (t : List (Ptr × Nat)) (p q : Ptr) (h : q ≠ p) :
    tableFind (tableErase t p) q = tableFind t q := by
  induction t with
  | nil => rfl
  | cons e rest ih =>
    by_cases he : e.1 = p
    · have hq : ¬ e.1 = q := fun hc => h (hc.symm.trans he)
      rw [tableErase_cons_eq e rest p he, ih]
      simp only [tableFind, if_neg hq]
    · rw [tableErase_cons_ne e rest p he]
      simp only [tableFind, ih]

theorem tableErase_perm (t : List (Ptr × Nat)) (p : Ptr) (i : Nat)
    (hnd : (t.map Prod.fst).Nodup) (h : tableFind t p = some i) :
    t.Perm ((p, i) :: tableErase t p) := by
  induction t with
  | nil => simp [tableFind] at h
  | cons e rest ih =>
    simp only [List.map_cons, List.nodup_cons] at hnd
    simp only [tableFind] at h
    by_cases he : e.1 = p
    · rw [if_pos he] at h
      simp only [Option.some.injEq] at h
      have hep : e = (p, i) := Prod.ext he h
      have hrest : tableErase rest p = rest := by
        unfold tableErase
        apply List.filter_eq_self.2
        intro a ha
        simp only [decide_eq_true_eq]
        intro hc
        apply hnd.1
        rw [he, ← hc]
        exact List.mem_map_of_mem _ ha
      rw [tableErase_cons_eq e rest p he, hrest, hep]
    · rw [if_neg he] at h
      rw [tableErase_cons_ne e rest p he]
      exact ((ih hnd.2 h).cons e).trans (List.Perm.swap _ _ _)

namespace DynMemPool

theorem tableInv_empty (S : Nat) : TableInv S empty [] := by
  refine ⟨List.nodup_nil, ?_, ?_, ?_, ?_⟩ <;> simp [empty]

theorem tableInv_values (S : Nat) (st : DynMemPool) (A : List Ptr) (h : TableInv S st A) :
    (st.table.map Prod.snd ++ st.indcs).Nodup ∧
      ∀ i ∈ st.table.map Prod.snd ++ st.indcs, i < st.pages.length := by
  refine ⟨(List.Perm.nodup_iff h.2.2.2.1).2 (List.nodup_range _), ?_⟩
  intro i hi
  exact List.mem_range.1 ((List.Perm.mem_iff h.2.2.2.1).1 hi)

/-- The step `table.emplace(m, i)` of `allocMem` for a page index that is in no table entry:
the entry is added and the invariant holds with the address allocated. -/
theorem tableInv_emplace (S : Nat) (st : DynMemPool) (A : List Ptr) (i : Nat)
    (h : TableInv S st A) (hi : i ∉ st.table.map Prod.snd) :
    tableFind st.table (Ptr.mk i 0) = none ∧ Ptr.mk i 0 ∉ A ∧
      tableEmplace st.table (Ptr.mk i 0) i = st.table ++ [(Ptr.mk i 0, i)] := by
  obtain ⟨hnd, hk, he, hv, _⟩ := h
  have hnone : tableFind st.table (Ptr.mk i 0) = none := by
    cases hf : tableFind st.table (Ptr.mk i 0) with
    | none => rfl
    | some j =>
      exfalso
      have hm := tableFind_mem _ _ _ hf
      have := he _ hm
      simp only [Ptr.mk.injEq, and_true] at this
      apply hi
      rw [this]
      exact List.mem_map_of_mem Prod.snd hm
  refine ⟨hnone, ?_, by simp [tableEmplace, hnone]⟩
  intro hc
  have := tableFind_isSome _ _ ((List.Perm.mem_iff hk).2 hc)
  rw [hnone] at this
  simp at this

theorem dyn_allocMem_inv (S : Nat) (st st1 : DynMemPool) (A : List Ptr) (size : Nat) (p : Ptr)
    (h : TableInv S st A) (ha : allocMem S st size = some (p, st1)) :
    TableInv S st1 (p :: A) ∧ mapped st p = false ∧ p ∉ A ∧
      ∃ i, p = Ptr.mk i 0 ∧ i < st1.pages.length ∧ st1.table = st.table ++ [(p, i)] ∧
        st1.curr_page_index = i ∧
        (if st.indcs = [] then i = st.pages.length ∧ st1.indcs = [] ∧
            st1.pages = st.pages ++ [List.replicate S 0]
          else st.indcs = st1.indcs ++ [i] ∧ st1.pages = st.pages) := by
  obtain ⟨hvn, hvlt⟩ := tableInv_values S st A h
  unfold allocMem at ha
  by_cases hs : size ≤ S
  · simp only [hs, not_true_eq_false, if_false] at ha
    by_cases hnil : st.indcs = []
    · rw [if_pos hnil] at ha
      simp only [Nat.add_sub_cancel, Option.some.injEq, Prod.mk.injEq] at ha
      obtain ⟨hp, hst⟩ := ha
      have hi : st.pages.length ∉ st.table.map Prod.snd := by
        intro hc
        have := hvlt _ (List.mem_append_left _ hc)
        omega
      obtain ⟨hnone, hnA, hem⟩ := tableInv_emplace S st A _ h hi
      subst hst
      subst hp
      obtain ⟨hnd, hk, he, hv, hpg⟩ := h
      refine ⟨⟨List.nodup_cons.2 ⟨hnA, hnd⟩, ?_, ?_, ?_, ?_⟩, by simp [mapped, hnone], hnA,
        st.pages.length, rfl, by simp, hem, rfl, by simp [hnil]⟩
      · rw [hem]
        simp only [List.map_append, List.map_cons, List.map_nil]
        exact (List.perm_append_singleton _ _).trans (hk.cons _)
      · rw [hem]
        intro e hmem
        rcases List.mem_append.1 hmem with h1 | h1
        · exact he e h1
        · simp only [List.mem_singleton] at h1
          rw [h1]
      · rw [hem, hnil]
        rw [hnil] at hv
        simp only [List.map_append, List.map_cons, List.map_nil, List.append_nil,
          List.length_append, List.length_singleton, List.range_succ] at hv ⊢
        exact hv.append_right _
      · intro pg hmem
        rcases List.mem_append.1 hmem with h1 | h1
        · exact hpg pg h1
        · simp only [List.mem_singleton] at h1
          rw [h1]; simp
    · rw [if_neg hnil] at ha
      obtain ⟨ys, i, hyi⟩ : ∃ ys i, st.indcs = ys ++ [i] := by
        rcases List.eq_nil_or_concat st.indcs with h1 | ⟨ys, i, h1⟩
        · exact absurd h1 hnil
        · exact ⟨ys, i, by simpa using h1⟩
      have hpop : VectorBackPop st.indcs = some (i, ys) := by
        simp [VectorBackPop, hyi]
      have hilt : i < st.pages.length :=
        hvlt i (List.mem_append_right _ (by rw [hyi]; simp))
      simp only [hpop, if_pos hilt, Option.some.injEq, Prod.mk.injEq] at ha
      obtain ⟨hp, hst⟩ := ha
      have hi : i ∉ st.table.map Prod.snd := by
        intro hc
        have hd := (List.nodup_append.1 hvn).2.2
        exact hd hc (by rw [hyi]; simp)
      obtain ⟨hnone, hnA, hem⟩ := tableInv_emplace S st A _ h hi
      subst hst
      subst hp
      obtain ⟨hnd, hk, he, hv, hpg⟩ := h
      refine ⟨⟨List.nodup_cons.2 ⟨hnA, hnd⟩, ?_, ?_, ?_, hpg⟩, by simp [mapped, hnone], hnA,
        i, rfl, hilt, hem, rfl, by simp [hnil, hyi]⟩
      · rw [hem]
        simp only [List.map_append, List.map_cons, List.map_nil]
        exact (List.perm_append_singleton _ _).trans (hk.cons _)
      · rw [hem]
        intro e hmem
        rcases List.mem_append.1 hmem with h1 | h1
        · exact he e h1
        · simp only [List.mem_singleton] at h1
          rw [h1]
      · rw [hem]
        rw [hyi] at hv
        simp only [List.map_append, List.map_cons, List.map_nil, List.append_assoc] at hv ⊢
        refine List.Perm.trans ?_ hv
        exact List.Perm.append_left _ (List.perm_append_comm)
  · simp [hs] at ha

end DynMemPool

namespace DynMemPool

/-- The function `freeMem` on a mapped address returns: the page the table names is
zero-filled, its index pushed on the free stack, the entry erased. -/
theorem dyn_freeMem_eq (S : Nat) (st : DynMemPool) (A : List Ptr) (p : Ptr)
    (h : TableInv S st A) (hm : mapped st p = true) :
    ∃ i, tableFind st.table p = some i ∧ p = Ptr.mk i 0 ∧ i < st.pages.length ∧ p ∈ A ∧
      freeMem S st p = some { pages := st.pages.set i (List.replicate S 0)
                              indcs := st.indcs ++ [i]
                              table := tableErase st.table p
                              curr_page_index := st.curr_page_index } := by
  obtain ⟨_, hvlt⟩ := tableInv_values S st A h
  cases hf : tableFind st.table p with
  | none => simp [mapped, hf] at hm
  | some i =>
    have hmem := tableFind_mem _ _ _ hf
    have hp : p = Ptr.mk i 0 := h.2.2.1 _ hmem
    have hilt : i < st.pages.length :=
      hvlt i (List.mem_append_left _ (List.mem_map_of_mem Prod.snd hmem))
    have hA : p ∈ A := (List.Perm.mem_iff h.2.1).1 (List.mem_map_of_mem Prod.fst hmem)
    refine ⟨i, rfl, hp, hilt, hA, ?_⟩
    simp [freeMem, hm, hf, hilt]

theorem dyn_freeMem_inv (S : Nat) (st st1 : DynMemPool) (A : List Ptr) (p : Ptr)
    (h : TableInv S st A) (hm : mapped st p = true) (hf : freeMem S st p = some st1) :
    TableInv S st1 (A.filter (fun q => decide (q ≠ p))) := by
  obtain ⟨i, hfind, hp, hilt, hA, heq⟩ := dyn_freeMem_eq S st A p h hm
  rw [heq] at hf
  simp only [Option.some.injEq] at hf
  subst hf
  obtain ⟨hnd, hk, he, hv, hpg⟩ := h
  have hkn : (st.table.map Prod.fst).Nodup := (List.Perm.nodup_iff hk).2 hnd
  refine ⟨hnd.filter _, ?_, ?_, ?_, ?_⟩
  · simp only
    rw [tableErase_map_fst]
    exact hk.filter _
  · intro e hmem
    exact he e (List.mem_of_mem_filter hmem)
  · have hperm := (tableErase_perm st.table p i hkn hfind).map Prod.snd
    simp only [List.map_cons, List.length_set] at hperm ⊢
    refine List.Perm.trans ?_ hv
    refine List.Perm.trans ?_ (hperm.symm.append_right st.indcs)
    rw [← List.append_assoc]
    refine List.Perm.trans (List.perm_append_comm) ?_
    simp only [List.singleton_append, List.cons_append]
    exact List.Perm.refl _
  · intro pg hmem
    rcases List.mem_or_eq_of_mem_set hmem with h1 | h1
    · exact hpg pg h1
    · rw [h1]; simp

theorem dyn_validUse_inv (S : Nat) (st : DynMemPool) (A : List Ptr) (h : ValidUse S st A) :
    TableInv S st A := by
  induction h with
  | empty => exact tableInv_empty S
  | allocMem size p _ ha ih => exact (dyn_allocMem_inv S _ _ _ size p ih ha).1
  | freeMem p _ hm hf ih => exact dyn_freeMem_inv S _ _ _ p ih hm hf
  | write i bytes _ _ hb ih =>
    obtain ⟨hnd, hk, he, hv, hpg⟩ := ih
    refine ⟨hnd, hk, he, by simpa [writePage] using hv, ?_⟩
    intro pg hmem
    rcases List.mem_or_eq_of_mem_set hmem with h1 | h1
    · exact hpg pg h1
    · rw [h1]; exact hb

end DynMemPool

namespace DynMemPool

theorem onePage_valid : ValidUse 2 onePage [Ptr.mk 0 0] := by
  have h1 : ValidUse 2 ⟨[[0, 0]], [], [(Ptr.mk 0 0, 0)], 0⟩ [Ptr.mk 0 0] :=
    ValidUse.allocMem 1 (Ptr.mk 0 0) ValidUse.empty (by decide)
  exact ValidUse.write 0 [7, 9] h1 (by decide) (by decide)

theorem twoPages_valid : ValidUse 2 twoPages [Ptr.mk 1 0, Ptr.mk 0 0] :=
  ValidUse.allocMem 1 (Ptr.mk 1 0) onePage_valid (by decide)

theorem firstFreed_valid : ValidUse 2 firstFreed [Ptr.mk 1 0] :=
  ValidUse.freeMem (Ptr.mk 0 0) twoPages_valid (by decide) (by decide)

end DynMemPool

/-! ### The static pool -/

theorem take_set_succ (l : List Nat) (f v : Nat) (h : f < l.length) :
    (l.set f v).take (f + 1) = l.take f ++ [v] := by
  rw [List.take_succ, List.set_take, List.set_eq_of_length_le (by simp)]
  simp [List.getElem?_set, h]

theorem take_pred_last (l : List Nat) (f i : Nat) (hf : 0 < f) (h : l[f - 1]? = some i) :
    l.take f = l.take (f - 1) ++ [i] := by
  obtain ⟨g, rfl⟩ : ∃ g, f = g + 1 := ⟨f - 1, by omega⟩
  simp only [Nat.add_sub_cancel] at h ⊢
  rw [List.take_succ, h]
  rfl

theorem perm_cons_filter_ne (A : List Nat) (i : Nat) (hnd : A.Nodup) (hi : i ∈ A) :
    A.Perm (i :: A.filter (fun j => decide (j ≠ i))) := by
  induction A with
  | nil => simp at hi
  | cons a as ih =>
    simp only [List.nodup_cons] at hnd
    by_cases hai : a = i
    · subst hai
      have : as.filter (fun j => decide (j ≠ a)) = as := by
        apply List.filter_eq_self.2
        intro b hb
        simp only [decide_eq_true_eq]
        intro hc
        exact hnd.1 (hc ▸ hb)
      rw [List.filter_cons, if_neg (by simp), this]
    · have hmem : i ∈ as := by
        rcases List.mem_cons.1 hi with h | h
        · exact absurd h.symm hai
        · exact h
      rw [List.filter_cons, if_pos (by simp [hai])]
      exact ((ih hnd.2 hmem).cons a).trans (List.Perm.swap _ _ _)

theorem zeroLowBytes_length (count : Nat) (indcs : List Nat) :
    (zeroLowBytes count indcs).length = indcs.length := by
  simp [zeroLowBytes]

namespace StaticMemPool

theorem countInv_clear (N S : Nat) (st0 : StaticMemPool) (h : st0.indcs.length = N) :
    CountInv N S (clear N S st0) [] := by
  refine ⟨by simp [clear, zeroLowBytes_length, h], by simp [clear, total_size],
    Nat.le_refl _, Nat.zero_le _, by simp [clear], ?_⟩
  intro hc
  simp [clear] at hc

theorem countInv_bounds (N S : Nat) (st : StaticMemPool) (A : List Nat)
    (h : CountInv N S st A) :
    (A ++ st.indcs.take st.free_page_count).Nodup ∧
      (∀ i ∈ A ++ st.indcs.take st.free_page_count, i < st.used_page_count) ∧
      A.length + st.free_page_count = st.used_page_count := by
  obtain ⟨hl, _, hfu, huN, hperm, _⟩ := h
  refine ⟨(List.Perm.nodup_iff hperm).2 (List.nodup_range _), ?_, ?_⟩
  · intro i hi
    exact List.mem_range.1 ((List.Perm.mem_iff hperm).1 hi)
  · have := hperm.length_eq
    simp only [List.length_append, List.length_take, List.length_range] at this
    omega

/-- What a successful `allocMem` does to the counters: with no freed page waiting it takes
the page with index `used_page_count`, otherwise the entry `free_page_count - 1` of
`indcs`. -/
theorem static_allocMem_inv (N S : Nat) (st st1 : StaticMemPool) (A : List Nat)
    (size ofs : Nat) (h : CountInv N S st A) (ha : allocMem N S st size = some (ofs, st1)) :
    CountInv N S st1 (st1.curr_page_index :: A) ∧ ofs = st1.curr_page_index * S ∧
      st1.curr_page_index ∉ A ∧ st1.curr_page_index < N ∧
      st1.pages = st.pages ∧ st1.indcs = st.indcs ∧
      (if st.free_page_count = 0 then
        st1.curr_page_index = st.used_page_count ∧
          st1.used_page_count = st.used_page_count + 1 ∧ st1.free_page_count = 0
      else
        st.indcs[st.free_page_count - 1]? = some st1.curr_page_index ∧
          st1.used_page_count = st.used_page_count ∧
          st1.free_page_count = st.free_page_count - 1) := by
  obtain ⟨hnd, hlt, hcount⟩ := countInv_bounds N S st A h
  obtain ⟨hl, hp, hfu, huN, hperm, hS⟩ := h
  unfold allocMem at ha
  by_cases hs : size ≤ S
  · by_cases hc : can_alloc N st = true
    · simp only [hs, hc, not_true_eq_false, if_false] at ha
      by_cases hf : st.free_page_count = 0
      · rw [if_pos hf] at ha
        by_cases hu : st.used_page_count < N
        · rw [if_pos hu] at ha
          simp only [Option.some.injEq, Prod.mk.injEq] at ha
          obtain ⟨ho, hst⟩ := ha
          subst hst
          refine ⟨⟨hl, hp, by dsimp only; omega, hu, ?_, by dsimp only; omega⟩, ho.symm, ?_, hu,
            rfl, rfl, by simp [hf]⟩
          · simp only [hf, List.take_zero, List.append_nil, List.range_succ] at hperm ⊢
            exact (hperm.cons _).trans (List.perm_append_singleton _ _).symm
          · intro hc2
            have := hlt _ (List.mem_append_left _ hc2)
            dsimp only at this
            omega
        · simp [hu] at ha
      · rw [if_neg hf] at ha
        have hfpos : 0 < st.free_page_count := Nat.pos_of_ne_zero hf
        cases hget : st.indcs[st.free_page_count - 1]? with
        | none => simp [hget] at ha
        | some i =>
          simp only [hget] at ha
          have htake := take_pred_last st.indcs st.free_page_count i hfpos hget
          have hiu : i < st.used_page_count :=
            hlt i (List.mem_append_right _ (by rw [htake]; simp))
          have hiN : i < N := by omega
          rw [if_pos hiN] at ha
          simp only [Option.some.injEq, Prod.mk.injEq] at ha
          obtain ⟨ho, hst⟩ := ha
          subst hst
          refine ⟨⟨hl, hp, by dsimp only; omega, huN, ?_, fun _ => hS hfpos⟩, ho.symm, ?_, hiN,
            rfl, rfl, by simp [hf, hget]⟩
          · simp only
            rw [htake, ← List.append_assoc] at hperm
            exact ((List.perm_append_singleton _ _).symm.trans hperm)
          · intro hc2
            rw [htake] at hnd
            have hd := (List.nodup_append.1 hnd).2.2
            exact hd hc2 (by simp)
    · simp [hs, hc] at ha
  · simp [hs] at ha

/-- The function `freeMem` on the address of an allocated page, with a page size above 0:
it returns, the page is zero-filled and its index stored in `indcs[free_page_count]`. -/
theorem static_freeMem_eq (N S : Nat) (st : StaticMemPool) (A : List Nat) (i : Nat)
    (h : CountInv N S st A) (hi : i ∈ A) (hS : 0 < S) :
    ∃ pages1, zeroFill st.pages (i * S) S = some pages1 ∧
      freeMem N S st (i * S) =
        some { pages := pages1
               indcs := st.indcs.set st.free_page_count i
               used_page_count := st.used_page_count
               free_page_count := st.free_page_count + 1
               curr_page_index := st.curr_page_index } := by
  obtain ⟨hnd, hlt, hcount⟩ := countInv_bounds N S st A h
  obtain ⟨hl, hp, hfu, huN, hperm, _⟩ := h
  have hiu : i < st.used_page_count := hlt i (List.mem_append_left _ hi)
  have hApos : 0 < A.length := List.length_pos_of_mem hi
  have hfN : st.free_page_count < N := by omega
  have hfit : i * S + S ≤ st.pages.length := by
    rw [hp]
    have h1 : i + 1 ≤ N := by omega
    have h2 := Nat.mul_le_mul_right S h1
    rw [Nat.add_mul] at h2
    omega
  have hz : zeroFill st.pages (i * S) S =
      some (st.pages.take (i * S) ++ List.replicate S 0 ++ st.pages.drop (i * S + S)) := by
    simp only [zeroFill, if_pos hfit]
  have hS0 : S ≠ 0 := by omega
  have hdiv : i * S / S = i := Nat.mul_div_cancel i hS
  have hmod : i * S % S = 0 := Nat.mul_mod_left i S
  have hNS : i < N * S := by
    have : N * 1 ≤ N * S := Nat.mul_le_mul_left N hS
    omega
  have hm : mapped N S (i * S) = some true := by
    simp [mapped, hS0, hdiv, hmod, total_size, hNS]
  refine ⟨_, hz, ?_⟩
  have hcf : can_free N st = true := by simp [can_free, hfN]
  have hfl : st.free_page_count < st.indcs.length := by omega
  simp [freeMem, hcf, hm, hz, hfl, hdiv]

theorem static_freeMem_inv (N S : Nat) (st st1 : StaticMemPool) (A : List Nat) (i : Nat)
    (h : CountInv N S st A) (hi : i ∈ A) (hf : freeMem N S st (i * S) = some st1) :
    CountInv N S st1 (A.filter (fun j => decide (j ≠ i))) ∧
      st1.used_page_count = st.used_page_count ∧
      st1.free_page_count = st.free_page_count + 1 := by
  have hS : 0 < S := by
    rcases Nat.eq_zero_or_pos S with h0 | h0
    · subst h0
      simp [freeMem, mapped] at hf
    · exact h0
  obtain ⟨pages1, hz, heq⟩ := static_freeMem_eq N S st A i h hi hS
  obtain ⟨hnd, hlt, hcount⟩ := countInv_bounds N S st A h
  obtain ⟨hl, hp, hfu, huN, hperm, _⟩ := h
  rw [heq] at hf
  simp only [Option.some.injEq] at hf
  subst hf
  have hApos : 0 < A.length := List.length_pos_of_mem hi
  have hfl : st.free_page_count < st.indcs.length := by omega
  refine ⟨⟨by simp [hl], by rw [zeroFill_length _ _ _ _ hz, hp], by dsimp only; omega, huN, ?_,
    fun _ => hS⟩, rfl, rfl⟩
  simp only
  rw [take_set_succ st.indcs _ i hfl]
  have hA := perm_cons_filter_ne A i (List.nodup_append.1 hnd).1 hi
  refine List.Perm.trans ?_ hperm
  refine List.Perm.trans ?_ (hA.symm.append_right _)
  rw [← List.append_assoc]
  refine (List.perm_append_singleton _ _).trans ?_
  simp

theorem static_validUse_inv (N S : Nat) (st : StaticMemPool) (A : List Nat)
    (h : ValidUse N S st A) : CountInv N S st A := by
  induction h with
  | clear st0 hl => exact countInv_clear N S st0 hl
  | allocMem size ofs _ _ ha ih => exact (static_allocMem_inv N S _ _ _ size ofs ih ha).1
  | freeMem i _ hi hf ih => exact (static_freeMem_inv N S _ _ _ i ih hi hf).1
  | write i bytes _ hi hb ih =>
    obtain ⟨_, hlt, _⟩ := countInv_bounds N S _ _ ih
    obtain ⟨hl, hp, hfu, huN, hperm, hS⟩ := ih
    refine ⟨hl, ?_, hfu, huN, hperm, hS⟩
    have hiu := hlt i (List.mem_append_left _ hi)
    have hfit : i * S + S ≤ N * S := by
      have h1 : i + 1 ≤ N := by omega
      have h2 := Nat.mul_le_mul_right S h1
      rw [Nat.add_mul] at h2
      omega
    simp only [writePage, List.length_append, List.length_take, List.length_drop, hp]
    omega

end StaticMemPool

namespace StaticMemPool

/-- What `mapped` computes: the offset is a multiple of `S` and its quotient by `S` is below
`N * S`. -/
theorem static_mapped_iff (N S ofs : Nat) (hS : 0 < S) :
    mapped N S ofs = some true ↔ ofs % S = 0 ∧ ofs / S < N * S := by
  have hS0 : S ≠ 0 := by omega
  simp [mapped, hS0, total_size, and_comm]

theorem oneUsed_valid : ValidUse 2 4 oneUsed [0] :=
  ValidUse.allocMem 1 0 (ValidUse.clear uncleared rfl) (by decide) (by decide)

theorem bothUsed_valid : ValidUse 2 4 bothUsed [1, 0] :=
  ValidUse.allocMem 1 4 oneUsed_valid (by decide) (by decide)

theorem firstReleased_valid : ValidUse 2 4 firstReleased [1] :=
  ValidUse.freeMem 0 bothUsed_valid (by decide) (by decide)

end StaticMemPool

theorem tableFind_append_other (t : List (Ptr × Nat)) (p q : Ptr) (i : Nat) (h : q ≠ p) :
    tableFind (t ++ [(p, i)]) q = tableFind t q := by
  induction t with
  | nil => simp [tableFind, Ne.symm h]
  | cons e rest ih =>
    show tableFind (e :: (rest ++ [(p, i)])) q = tableFind (e :: rest) q
    simp only [tableFind, ih]

theorem filter_ne_of_not_mem (l : List Nat) (j : Nat) (h : j ∉ l) :
    l.filter (fun x => decide (x ≠ j)) = l := by
  apply List.filter_eq_self.2
  intro a ha
  simp only [decide_eq_true_eq]
  intro hc
  exact h (hc ▸ ha)

namespace StaticMemPool

/-- The freed pages that await reuse are the first `free_page_count` entries of `indcs`, in
the order in which they were freed. -/
theorem validUseFreed_take (N S : Nat) (st : StaticMemPool) (A F : List Nat)
    (h : ValidUseFreed N S st A F) :
    ValidUse N S st A ∧ st.indcs.take st.free_page_count = F := by
  induction h with
  | clear st0 hl => exact ⟨ValidUse.clear st0 hl, by simp [clear]⟩
  | @allocMem st st1 A F size ofs _ hc ha ih =>
    refine ⟨ValidUse.allocMem size ofs ih.1 hc ha, ?_⟩
    have hinv := static_validUse_inv N S st A ih.1
    obtain ⟨hnd, _, _⟩ := countInv_bounds N S st A hinv
    obtain ⟨_, _, _, _, _, hind, hcase⟩ := static_allocMem_inv N S st st1 A size ofs hinv ha
    by_cases hf : st.free_page_count = 0
    · rw [if_pos hf] at hcase
      rw [hcase.2.2, ← ih.2, hf]
      simp
    · rw [if_neg hf] at hcase
      have htake := take_pred_last st.indcs st.free_page_count _ (Nat.pos_of_ne_zero hf)
        hcase.1
      have hnd2 : (st.indcs.take st.free_page_count).Nodup := (List.nodup_append.1 hnd).2.1
      rw [htake] at hnd2
      have hni : st1.curr_page_index ∉ st.indcs.take (st.free_page_count - 1) := by
        intro hc2
        exact (List.nodup_append.1 hnd2).2.2 hc2 (List.mem_singleton_self _) 
      rw [hcase.2.2, hind, ← ih.2, htake, List.filter_append,
        filter_ne_of_not_mem _ _ hni]
      simp
  | @freeMem st st1 A F i _ hi hf ih =>
    refine ⟨ValidUse.freeMem i ih.1 hi hf, ?_⟩
    have hinv := static_validUse_inv N S st A ih.1
    have hS : 0 < S := by
      rcases Nat.eq_zero_or_pos S with h0 | h0
      · subst h0
        simp [freeMem, mapped] at hf
      · exact h0
    obtain ⟨pages1, _, heq⟩ := static_freeMem_eq N S st A i hinv hi hS
    obtain ⟨_, _, hcount⟩ := countInv_bounds N S st A hinv
    have hApos : 0 < A.length := List.length_pos_of_mem hi
    have hfl : st.free_page_count < st.indcs.length := by
      have := hinv.1
      have := hinv.2.2.2.1
      omega
    rw [heq] at hf
    simp only [Option.some.injEq] at hf
    subst hf
    simp only
    rw [take_set_succ st.indcs _ i hfl, ih.2]
  | write i bytes _ hi hb ih => exact ⟨ValidUse.write i bytes ih.1 hi hb, ih.2⟩

end StaticMemPool

namespace StaticMemPool

theorem oneUsed_freed : ValidUseFreed 2 4 oneUsed [0] [] :=
  ValidUseFreed.allocMem 1 0 (ValidUseFreed.clear uncleared rfl) (by decide) (by decide)

theorem bothUsed_freed : ValidUseFreed 2 4 bothUsed [1, 0] [] :=
  ValidUseFreed.allocMem 1 4 oneUsed_freed (by decide) (by decide)

theorem firstReleased_freed : ValidUseFreed 2 4 firstReleased [1] [0] :=
  ValidUseFreed.freeMem 0 bothUsed_freed (by decide) (by decide)

end StaticMemPool

theorem getElem?_of_take_eq (l l1 : List Nat) (f i : Nat) (h : l.take f = l1.take f)
    (hi : i < f) : l[i]? = l1[i]? := by
  have h1 : (l.take f)[i]? = l[i]? := by rw [List.getElem?_take, if_pos hi]
  have h2 : (l1.take f)[i]? = l1[i]? := by rw [List.getElem?_take, if_pos hi]
  rw [← h1, ← h2, h]

theorem take_of_take_eq (l l1 : List Nat) (f g : Nat) (h : l.take f = l1.take f)
    (hg : g ≤ f) : l.take g = l1.take g := by
  have h1 : (l.take f).take g = l.take g := by rw [List.take_take, Nat.min_eq_left hg]
  have h2 : (l1.take f).take g = l1.take g := by rw [List.take_take, Nat.min_eq_left hg]
  rw [← h1, ← h2, h]

namespace StaticMemPool

/-- One call on two states that agree: both have no defined result, or both return the
same and leave states that agree. -/
theorem call_agree (N S : Nat) (st st1 : StaticMemPool) (c : Call) (h : Agree st st1) :
    (call N S st c = none ∧ call N S st1 c = none) ∨
      ∃ r t t1, call N S st c = some (r, t) ∧ call N S st1 c = some (r, t1) ∧ Agree t t1 := by
  obtain ⟨pages, indcs, u, f, cur⟩ := st
  obtain ⟨pages1, indcs1, u1, f1, cur1⟩ := st1
  obtain ⟨hp, hl, hu, hf, hc, ht⟩ := h
  simp only at hp hl hu hf hc ht
  subst hp hu hf hc
  cases c with
  | allocMem size =>
    by_cases hs : size ≤ S
    · by_cases hca : (decide (u < N) || decide (f > 0)) = true
      · by_cases hf0 : f = 0
        · by_cases huN : u < N
          · right
            refine ⟨some (u * S), _, _, by simp [call, allocMem, hs, can_alloc, hca, hf0, huN]; rfl,
              by simp [call, allocMem, hs, can_alloc, hca, hf0, huN]; rfl, ?_⟩
            exact ⟨rfl, hl, rfl, rfl, rfl, by simp [hf0]⟩
          · left
            constructor <;> simp [call, allocMem, hs, can_alloc, hf0, huN]
        · have hget : indcs[f - 1]? = indcs1[f - 1]? :=
            getElem?_of_take_eq indcs indcs1 f (f - 1) ht (by omega)
          cases hg : indcs1[f - 1]? with
          | none =>
            left
            rw [hg] at hget
            constructor <;> simp [call, allocMem, hs, can_alloc, hf0, hget, hg]
          | some i =>
            rw [hg] at hget
            by_cases hiN : i < N
            · right
              have hpos : 0 < f := Nat.pos_of_ne_zero hf0
              refine ⟨some (i * S), _, _,
                by simp [call, allocMem, hs, can_alloc, hf0, hget, hiN, hpos]; rfl,
                by simp [call, allocMem, hs, can_alloc, hf0, hg, hiN, hpos]; rfl, ?_⟩
              exact ⟨rfl, hl, rfl, rfl, rfl, take_of_take_eq indcs indcs1 f (f - 1) ht (by omega)⟩
            · left
              constructor
              · simp [call, allocMem, hs, can_alloc, hf0, hget, hiN]
              · simp [call, allocMem, hs, can_alloc, hf0, hg, hiN]
      · left
        constructor <;> simp [call, allocMem, hs, can_alloc, hca]
    · left
      constructor <;> simp [call, allocMem, hs]
  | freeMem ofs =>
    by_cases hcf : f < N
    · cases hm : mapped N S ofs with
      | none => left; constructor <;> simp [call, freeMem, can_free, hcf, hm]
      | some b =>
        cases b with
        | false => left; constructor <;> simp [call, freeMem, can_free, hcf, hm]
        | true =>
          cases hz : zeroFill pages ofs S with
          | none => left; constructor <;> simp [call, freeMem, can_free, hcf, hm, hz]
          | some pg =>
            by_cases hfl : f < indcs.length
            · right
              have hfl1 : f < indcs1.length := by omega
              refine ⟨none, _, _, by simp [call, freeMem, can_free, hcf, hm, hz, hfl]; rfl,
                by simp [call, freeMem, can_free, hcf, hm, hz, hfl1]; rfl, ?_⟩
              refine ⟨rfl, by simp [hl], rfl, rfl, rfl, ?_⟩
              simp only
              rw [take_set_succ indcs f _ hfl, take_set_succ indcs1 f _ hfl1, ht]
            · left
              have hfl1 : ¬ f < indcs1.length := by omega
              constructor
              · simp [call, freeMem, can_free, hcf, hm, hz, hfl]
              · simp [call, freeMem, can_free, hcf, hm, hz, hfl1]
    · left
      constructor <;> simp [call, freeMem, can_free, hcf]

theorem calls_agree (N S : Nat) (cs : List Call) :
    ∀ st st1 : StaticMemPool, Agree st st1 →
      (calls N S st cs).map observed = (calls N S st1 cs).map observed := by
  induction cs with
  | nil =>
    intro st st1 h
    obtain ⟨hp, _, hu, hf, hc, ht⟩ := h
    simp only [calls, observed, Option.map_some', hp, hu, hc, ht]
    rw [hf]
  | cons c cs ih =>
    intro st st1 h
    rcases call_agree N S st st1 c h with ⟨h1, h2⟩ | ⟨r, t, t1, h1, h2, h3⟩
    · simp [calls, h1, h2]
    · have := ih t t1 h3
      simp only [calls, h1, h2]
      cases hc1 : calls N S t cs with
      | none =>
        rw [hc1] at this
        cases hc2 : calls N S t1 cs with
        | none => rfl
        | some v => rw [hc2] at this; simp at this
      | some v =>
        rw [hc1] at this
        cases hc2 : calls N S t1 cs with
        | none => rw [hc2] at this; simp at this
        | some w =>
          rw [hc2] at this
          simp only [Option.map_some', Option.some.injEq, observed, Prod.mk.injEq] at this ⊢
          obtain ⟨a1, a2, a3, a4, a5, a6⟩ := this
          exact ⟨by rw [a1], a2, a3, a4, a5, a6⟩

end StaticMemPool

theorem covered_append_singleton (m : List (Nat × Nat)) (g : Nat × Nat) (q : Nat) :
    Covered (m ++ [g]) q ↔ Covered m q ∨ (g.1 ≤ q ∧ q < g.1 + g.2) := by
  constructor
  · rintro ⟨e, he, h1, h2⟩
    rcases List.mem_append.1 he with h | h
    · exact Or.inl ⟨e, h, h1, h2⟩
    · simp only [List.mem_singleton] at h
      subst h
      exact Or.inr ⟨h1, h2⟩
  · rintro (⟨e, he, h1, h2⟩ | ⟨h1, h2⟩)
    · exact ⟨e, List.mem_append_left _ he, h1, h2⟩
    · exact ⟨g, by simp, h1, h2⟩

namespace StablePosAllocator

variable {α : Type} [Inhabited α]

/-- What `CompactGaps` does to the free positions and to the elements: the positions in
gaps afterwards together with the cut-off tail are the positions in gaps before, and the
elements that remain are the first ones of the vector. -/
theorem CompactGaps_frame (st : StablePosAllocator α) (hne : st.positionToSize ≠ [])
    (hord : Ordered st) (hc : Consistent st) :
    ∃ st1, CompactGaps st = some st1 ∧ st1.data.length ≤ st.data.length ∧
      st1.data = st.data.take st1.data.length ∧
      ∀ q, (Covered st1.positionToSize q ∨ (st1.data.length ≤ q ∧ q < st.data.length)) ↔
        Covered st.positionToSize q := by
  obtain ⟨s2p1, fin, hfin, _, _, _, heq⟩ := CompactGaps_eq st hne hord hc
  obtain ⟨x, rest, hxr⟩ := List.exists_cons_of_ne_nil hne
  have hcov : ∀ q, Covered (mergeRuns st.positionToSize) q ↔ Covered st.positionToSize q := by
    intro q
    rw [hxr]
    exact mergeRunsAux_covered rest x q
  have hlast : (mergeRuns st.positionToSize).dropLast ++ [fin] = mergeRuns st.positionToSize :=
    List.dropLast_append_getLast? fin (by simp [hfin])
  by_cases htrim : fin.1 + fin.2 = st.data.length
  · rw [if_pos htrim] at heq
    have hz : fin.1 - st.data.length = 0 := by omega
    refine ⟨_, heq, by simp only [vecResize_length]; omega, ?_, ?_⟩
    · simp [vecResize, hz]
    · intro q
      simp only [vecResize_length]
      have hsplit := covered_append_singleton (mergeRuns st.positionToSize).dropLast fin q
      rw [hlast, htrim] at hsplit
      rw [← hcov q, hsplit]
  · rw [if_neg htrim] at heq
    refine ⟨_, heq, Nat.le_refl _, by simp, ?_⟩
    intro q
    simp only
    rw [hcov q]
    constructor
    · rintro (h | ⟨h1, h2⟩)
      · exact h
      · omega
    · intro h
      exact Or.inl h

end StablePosAllocator

/-! ### Allocated ranges -/

theorem covered_cons (a : Nat × Nat) (m : List (Nat × Nat)) (q : Nat) :
    Covered (a :: m) q ↔ (a.1 ≤ q ∧ q < a.1 + a.2) ∨ Covered m q := by
  constructor
  · rintro ⟨e, he, h1, h2⟩
    rcases List.mem_cons.1 he with h | h
    · subst h; exact Or.inl ⟨h1, h2⟩
    · exact Or.inr ⟨e, h, h1, h2⟩
  · rintro (⟨h1, h2⟩ | ⟨e, he, h1, h2⟩)
    · exact ⟨a, by simp, h1, h2⟩
    · exact ⟨e, List.mem_cons_of_mem _ he, h1, h2⟩

theorem covered_append (m1 m2 : List (Nat × Nat)) (q : Nat) :
    Covered (m1 ++ m2) q ↔ Covered m1 q ∨ Covered m2 q := by
  constructor
  · rintro ⟨e, he, h1, h2⟩
    rcases List.mem_append.1 he with h | h
    · exact Or.inl ⟨e, h, h1, h2⟩
    · exact Or.inr ⟨e, h, h1, h2⟩
  · rintro (⟨e, he, h1, h2⟩ | ⟨e, he, h1, h2⟩)
    · exact ⟨e, List.mem_append_left _ he, h1, h2⟩
    · exact ⟨e, List.mem_append_right _ he, h1, h2⟩

theorem covered_nil (q : Nat) : ¬ Covered [] q := by
  rintro ⟨e, he, _⟩
  simp at he

theorem cutOne_mem (first n : Nat) (a x : Nat × Nat) (hx : x ∈ cutOne first n a) :
    a.1 ≤ x.1 ∧ x.1 + x.2 ≤ a.1 + a.2 ∧ 0 < x.2 ∧
      (x.1 + x.2 ≤ first ∨ first + n ≤ x.1) := by
  simp only [cutOne, List.mem_append] at hx
  rcases hx with hx | hx
  · split at hx
    · rename_i hc
      simp only [List.mem_singleton] at hx
      by_cases h2 : a.1 + a.2 ≤ first
      · rw [if_pos h2] at hx
        subst hx
        omega
      · rw [if_neg h2] at hx
        subst hx
        simp only
        omega
    · simp at hx
  · split at hx
    · rename_i hc
      simp only [List.mem_singleton] at hx
      by_cases h2 : a.1 ≤ first + n
      · rw [if_pos h2] at hx
        subst hx
        simp only
        omega
      · rw [if_neg h2] at hx
        subst hx
        omega
    · simp at hx

theorem cutOne_covered (first n : Nat) (a : Nat × Nat) (q : Nat) :
    Covered (cutOne first n a) q ↔
      (a.1 ≤ q ∧ q < a.1 + a.2) ∧ ¬ (first ≤ q ∧ q < first + n) := by
  constructor
  · rintro ⟨e, he, h1, h2⟩
    have hm := cutOne_mem first n a e he
    omega
  · rintro ⟨⟨h1, h2⟩, h3⟩
    unfold cutOne
    rw [covered_append]
    by_cases hq : q < first
    · left
      have hc : a.1 < first ∧ 0 < a.2 := by omega
      rw [if_pos hc]
      by_cases h4 : a.1 + a.2 ≤ first
      · rw [if_pos h4]
        exact ⟨_, List.mem_singleton_self _, h1, h2⟩
      · rw [if_neg h4]
        exact ⟨_, List.mem_singleton_self _, h1, by simp only; omega⟩
    · right
      have hc : first + n < a.1 + a.2 ∧ 0 < a.2 := by omega
      rw [if_pos hc]
      by_cases h4 : a.1 ≤ first + n
      · rw [if_pos h4]
        exact ⟨_, List.mem_singleton_self _, by simp only; omega, by simp only; omega⟩
      · rw [if_neg h4]
        exact ⟨_, List.mem_singleton_self _, h1, h2⟩

theorem cutOne_pairwise (first n : Nat) (a : Nat × Nat) :
    (cutOne first n a).Pairwise Apart := by
  have hm := cutOne_mem first n a
  unfold cutOne at hm ⊢
  by_cases h1 : a.1 < first ∧ 0 < a.2
  · by_cases h2 : first + n < a.1 + a.2 ∧ 0 < a.2
    · rw [if_pos h1, if_pos h2] at hm ⊢
      have h3 : ¬ a.1 + a.2 ≤ first := by omega
      have h4 : a.1 ≤ first + n := by omega
      rw [if_neg h3, if_pos h4]
      simp only [List.singleton_append, List.pairwise_cons, List.mem_singleton, forall_eq,
        List.not_mem_nil, false_implies, implies_true, List.Pairwise.nil, and_true]
      left
      simp only
      omega
    · rw [if_pos h1, if_neg h2]
      simp
  · rw [if_neg h1]
    by_cases h2 : first + n < a.1 + a.2 ∧ 0 < a.2
    · rw [if_pos h2]; simp
    · rw [if_neg h2]; simp

theorem cutRange_covered (first n : Nat) (L : List (Nat × Nat)) (q : Nat) :
    Covered (cutRange first n L) q ↔ Covered L q ∧ ¬ (first ≤ q ∧ q < first + n) := by
  induction L with
  | nil => simp [cutRange, covered_nil]
  | cons a rest ih =>
    simp only [cutRange]
    rw [covered_append, covered_cons, cutOne_covered, ih]
    constructor
    · rintro (⟨h1, h2⟩ | ⟨h1, h2⟩)
      · exact ⟨Or.inl h1, h2⟩
      · exact ⟨Or.inr h1, h2⟩
    · rintro ⟨h1 | h1, h2⟩
      · exact Or.inl ⟨h1, h2⟩
      · exact Or.inr ⟨h1, h2⟩

theorem cutRange_mem (first n : Nat) (L : List (Nat × Nat)) (x : Nat × Nat)
    (hx : x ∈ cutRange first n L) :
    ∃ a ∈ L, a.1 ≤ x.1 ∧ x.1 + x.2 ≤ a.1 + a.2 ∧ 0 < x.2 ∧
      (x.1 + x.2 ≤ first ∨ first + n ≤ x.1) := by
  induction L with
  | nil => simp [cutRange] at hx
  | cons a rest ih =>
    simp only [cutRange, List.mem_append] at hx
    rcases hx with hx | hx
    · exact ⟨a, by simp, cutOne_mem first n a x hx⟩
    · obtain ⟨b, hb, h⟩ := ih hx
      exact ⟨b, List.mem_cons_of_mem _ hb, h⟩

theorem cutRange_pairwise (first n : Nat) (L : List (Nat × Nat)) (h : L.Pairwise Apart) :
    (cutRange first n L).Pairwise Apart := by
  induction L with
  | nil => simp [cutRange]
  | cons a rest ih =>
    simp only [cutRange]
    rw [List.pairwise_cons] at h
    rw [List.pairwise_append]
    refine ⟨cutOne_pairwise first n a, ih h.2, ?_⟩
    intro x hx y hy
    have hxa := cutOne_mem first n a x hx
    obtain ⟨b, hb, hyb⟩ := cutRange_mem first n rest y hy
    have hab := h.1 b hb
    simp only [Apart] at hab ⊢
    omega

theorem covered_insert_middle (pre post : List (Nat × Nat)) (x : Nat × Nat) (q : Nat) :
    Covered (pre ++ x :: post) q ↔ Covered (pre ++ post) q ∨ (x.1 ≤ q ∧ q < x.1 + x.2) := by
  rw [covered_append, covered_cons, covered_append]
  constructor
  · rintro (h | h | h)
    · exact Or.inl (Or.inl h)
    · exact Or.inr h
    · exact Or.inl (Or.inr h)
  · rintro ((h | h) | h)
    · exact Or.inl h
    · exact Or.inr (Or.inr h)
    · exact Or.inr (Or.inl h)

namespace StablePosAllocator

variable {α : Type} [Inhabited α]

/-- What `AllocateImpl` with `n > 0` and a size sum that does not overflow does to the
allocated positions (those below `GetSize()` that are in no gap): the returned range ends
inside the vector, none of its positions was allocated before, and afterwards the allocated
positions are the ones before and those of the range. -/
theorem AllocateImpl_fresh (st : StablePosAllocator α) (n : Nat) (hn : 0 < n) (h : Inv st)
    (hb : st.data.length + n < 2 ^ 64) :
    (AllocateImpl st n).1 + n ≤ (AllocateImpl st n).2.data.length ∧
    (∀ q, (q < (AllocateImpl st n).2.data.length ∧
        ¬ Covered (AllocateImpl st n).2.positionToSize q) ↔
      ((q < st.data.length ∧ ¬ Covered st.positionToSize q) ∨
        ((AllocateImpl st n).1 ≤ q ∧ q < (AllocateImpl st n).1 + n))) ∧
    (∀ q, (AllocateImpl st n).1 ≤ q → q < (AllocateImpl st n).1 + n →
      ¬ (q < st.data.length ∧ ¬ Covered st.positionToSize q)) := by
  obtain ⟨hord, hc, hpos, hno⟩ := h
  have hcin : ∀ q, Covered st.positionToSize q → q < st.data.length := by
    rintro q ⟨g, hg, _, h2⟩
    have := (hpos g hg).2
    omega
  cases hlb : st.sizeToPositions[lowerBound st.sizeToPositions n]? with
  | none =>
    rw [AllocateImpl_append st n hn (Or.inr (lowerBound_none _ _ hlb)) hb]
    simp only [vecResize_length]
    refine ⟨Nat.le_refl _, ?_, ?_⟩
    · intro q
      constructor
      · rintro ⟨h1, h2⟩
        by_cases hq : q < st.data.length
        · exact Or.inl ⟨hq, h2⟩
        · exact Or.inr ⟨by omega, h1⟩
      · rintro (⟨h1, h2⟩ | ⟨h1, h2⟩)
        · exact ⟨by omega, h2⟩
        · exact ⟨h2, fun hcov => by have := hcin q hcov; omega⟩
    · rintro q h1 _ ⟨h3, _⟩
      omega
  | some e =>
    obtain ⟨s, p⟩ := e
    obtain ⟨pre, post, hsplit, hr, hdata, hp2s, _, _, _⟩ :=
      AllocateImpl_gap_split st n s p hn hord hc hno hlb
    have hns : n ≤ s := (lowerBound_some _ _ _ hlb).1
    have hno1 : NonOverlapping (pre ++ (p, s) :: post) := hsplit ▸ hno
    have hpos1 : ∀ g ∈ pre ++ (p, s) :: post, 0 < g.2 ∧ g.1 + g.2 ≤ st.data.length :=
      hsplit ▸ hpos
    have hpre : ∀ e ∈ pre, e.1 + e.2 ≤ p := fun e he =>
      (List.pairwise_append.1 hno1).2.2 e he (p, s) (by simp)
    have hpost : ∀ e ∈ post, p + s ≤ e.1 := fun e he =>
      (List.pairwise_cons.1 (List.pairwise_append.1 hno1).2.1).1 e he
    have hps : p + s ≤ st.data.length := (hpos1 (p, s) (by simp)).2
    have hothers : ∀ q, Covered (pre ++ post) q → ¬ (p ≤ q ∧ q < p + s) := by
      rintro q ⟨g, hg, h1, h2⟩
      rcases List.mem_append.1 hg with hg | hg
      · have := hpre g hg
        omega
      · have := hpost g hg
        omega
    have hold : ∀ q, Covered st.positionToSize q ↔
        Covered (pre ++ post) q ∨ (p ≤ q ∧ q < p + s) := by
      intro q
      rw [hsplit]
      exact covered_insert_middle pre post (p, s) q
    have hnew : ∀ q, Covered (AllocateImpl st n).2.positionToSize q ↔
        Covered (pre ++ post) q ∨ (p + n ≤ q ∧ q < p + s) := by
      intro q
      rw [hp2s]
      by_cases hlt : n < s
      · rw [if_pos hlt, covered_insert_middle]
        simp only
        have : p + n + (s - n) = p + s := by omega
        rw [this]
      · rw [if_neg hlt]
        constructor
        · intro hcv; exact Or.inl hcv
        · rintro (hcv | hcv)
          · exact hcv
          · omega
    rw [hr, hdata]
    refine ⟨by omega, ?_, ?_⟩
    · intro q
      rw [hnew q, hold q]
      by_cases hC : Covered (pre ++ post) q
      · have := hothers q hC
        constructor
        · rintro ⟨_, h2⟩
          exact absurd (Or.inl hC) h2
        · rintro (⟨_, h2⟩ | h2)
          · exact absurd (Or.inl hC) h2
          · omega
      · constructor
        · rintro ⟨h1, h2⟩
          by_cases hq : p ≤ q ∧ q < p + n
          · exact Or.inr hq
          · refine Or.inl ⟨h1, ?_⟩
            rintro (h3 | h3)
            · exact hC h3
            · exact h2 (Or.inr (by omega))
        · rintro (⟨h1, h2⟩ | h2)
          · refine ⟨h1, ?_⟩
            rintro (h3 | h3)
            · exact hC h3
            · exact h2 (Or.inr (by omega))
          · refine ⟨by omega, ?_⟩
            rintro (h3 | h3)
            · exact hC h3
            · omega
    · rintro q h1 h2 ⟨_, h4⟩
      exact h4 ((hold q).2 (Or.inr (by omega)))

/-- What a valid `Free` does to the allocated positions: they are the ones before without
the freed range, and the elements that remain are the first ones of the vector. -/
theorem Free_owned (trig : Nat → Nat → Bool) (st : StablePosAllocator α) (first n : Nat)
    (h : Inv st) (hv : ValidFree st first n) :
    ∃ st1, Free trig st first n = some (st1, sentinel) ∧ Inv st1 ∧
      ∀ q, (q < st1.data.length ∧ ¬ Covered st1.positionToSize q) ↔
        (q < st.data.length ∧ ¬ Covered st.positionToSize q ∧
          ¬ (first ≤ q ∧ q < first + n)) := by
  obtain ⟨st1, hf1, hinv1⟩ := Free_inv trig st first n h hv
  refine ⟨st1, hf1, hinv1, ?_⟩
  obtain ⟨hord, hc, hpos, hno⟩ := h
  have hle : first + n ≤ st.data.length := hv.1
  by_cases hn : n = 0
  · have hle0 : first ≤ st.data.length := by omega
    have : Free trig st first n = some (st, sentinel) := by simp [Free, hn, hle0]
    rw [this] at hf1
    simp only [Option.some.injEq, Prod.mk.injEq, and_true] at hf1
    subst hf1
    intro q
    constructor
    · rintro ⟨h1, h2⟩
      exact ⟨h1, h2, by omega⟩
    · rintro ⟨h1, h2, _⟩
      exact ⟨h1, h2⟩
  have hn0 : 0 < n := Nat.pos_of_ne_zero hn
  have hsep := no_gap_beyond_free st first n hn0 hpos hv
  by_cases htail : first + n = st.data.length
  · have : Free trig st first n = some ({ st with data := vecResize st.data first }, sentinel) := by
      simp [Free, hn, htail]
    rw [this] at hf1
    simp only [Option.some.injEq, Prod.mk.injEq, and_true] at hf1
    subst hf1
    intro q
    simp only [vecResize_length]
    constructor
    · rintro ⟨h1, h2⟩
      exact ⟨by omega, h2, by omega⟩
    · rintro ⟨h1, h2, h3⟩
      exact ⟨by omega, h2⟩
  · have hkey : ∀ e ∈ st.positionToSize, e.1 ≠ first := by
      intro e he
      have h1 := hpos e he
      have h2 := hsep e he
      omega
    obtain ⟨pre, post, hsplit, hpre, hpost⟩ := split_at_key _ first hord.1 hkey
    have hE : mapEmplace st.positionToSize first n = pre ++ (first, n) :: post := by
      rw [hsplit]; exact mapEmplace_append pre post first n hpre hpost
    have hcovE : ∀ q, Covered (mapEmplace st.positionToSize first n) q ↔
        Covered st.positionToSize q ∨ (first ≤ q ∧ q < first + n) := by
      intro q
      rw [hE, covered_insert_middle, ← hsplit]
    -- the state after the two `emplace` calls, as `Free` without compaction leaves it
    obtain ⟨st2, hf2, hinv2⟩ := Free_inv (fun _ _ => false) st first n
      ⟨hord, hc, hpos, hno⟩ hv
    have hst2 : Free (fun _ _ => false) st first n =
        some ({ st with positionToSize := mapEmplace st.positionToSize first n
                        sizeToPositions := mmEmplace st.sizeToPositions n first },
          sentinel) := by
      simp [Free, hn, htail, hle]
    rw [hst2] at hf2
    simp only [Option.some.injEq, Prod.mk.injEq, and_true] at hf2
    subst hf2
    cases ht : trig (mapEmplace st.positionToSize first n).length st.data.length with
    | false =>
      have : Free trig st first n =
          some ({ st with positionToSize := mapEmplace st.positionToSize first n
                          sizeToPositions := mmEmplace st.sizeToPositions n first },
            sentinel) := by
        simp [Free, hn, htail, hle, ht]
      rw [this] at hf1
      simp only [Option.some.injEq, Prod.mk.injEq, and_true] at hf1
      subst hf1
      intro q
      simp only
      rw [hcovE q]
      constructor
      · rintro ⟨h1, h2⟩
        exact ⟨h1, fun h3 => h2 (Or.inl h3), fun h3 => h2 (Or.inr h3)⟩
      · rintro ⟨h1, h2, h3⟩
        refine ⟨h1, ?_⟩
        rintro (h4 | h4)
        · exact h2 h4
        · exact h3 h4
    | true =>
      have hne : (mapEmplace st.positionToSize first n) ≠ [] := by rw [hE]; simp
      obtain ⟨st3, h3, hle3, _, hcov3⟩ := CompactGaps_frame _ hne hinv2.1 hinv2.2.1
      have hf : Free trig st first n = some (st3, sentinel) := by
        simp only [Free, hn, htail, hle, ht, not_true_eq_false, if_false, if_true]
        rw [h3]; rfl
      rw [hf] at hf1
      simp only [Option.some.injEq, Prod.mk.injEq, and_true] at hf1
      subst hf1
      have hin3 : ∀ q, Covered st3.positionToSize q → q < st3.data.length := by
        rintro q ⟨g, hg, _, h2⟩
        have := (hinv1.2.2.1 g hg).2
        omega
      intro q
      have hq3 := hcov3 q
      simp only at hq3 hle3
      rw [hcovE q] at hq3
      constructor
      · rintro ⟨h1, h2⟩
        have hnot : ¬ (Covered st.positionToSize q ∨ (first ≤ q ∧ q < first + n)) := by
          intro hc2
          rcases hq3.2 hc2 with h4 | h4
          · exact h2 h4
          · omega
        exact ⟨by omega, fun h4 => hnot (Or.inl h4), fun h4 => hnot (Or.inr h4)⟩
      · rintro ⟨h1, h2, h3⟩
        have hnc : ¬ Covered st3.positionToSize q := by
          intro h4
          rcases hq3.1 (Or.inl h4) with h5 | h5
          · exact h2 h5
          · exact h3 h5
        refine ⟨?_, hnc⟩
        by_contra hge
        rcases hq3.1 (Or.inr ⟨by omega, h1⟩) with h5 | h5
        · exact h2 h5
        · exact h3 h5

end StablePosAllocator

namespace StablePosAllocator

variable {α : Type} [Inhabited α]

theorem Free_some_le (trig : Nat → Nat → Bool) (st st1 : StablePosAllocator α)
    (first n r : Nat) (h : Free trig st first n = some (st1, r)) :
    first + n ≤ st.data.length := by
  by_contra hcon
  simp [Free, hcon] at h

/-- The allocated ranges and the gaps tile the backing vector: a position is in an
allocated range exactly when it is below `GetSize()` and in no gap; the allocated ranges
are not empty and no two of them share a position. -/
theorem owns_tiles (trig : Nat → Nat → Bool) (st : StablePosAllocator α)
    (L : List (Nat × Nat)) (h : Owns trig st L) :
    ReachableNoWrap trig st ∧
      (∀ q, Covered L q ↔ (q < st.data.length ∧ ¬ Covered st.positionToSize q)) ∧
      (∀ a ∈ L, 0 < a.2) ∧ L.Pairwise Apart := by
  induction h with
  | empty =>
    refine ⟨ReachableNoWrap.empty, ?_, by simp, List.Pairwise.nil⟩
    intro q
    constructor
    · intro hc; exact absurd hc (covered_nil q)
    · rintro ⟨h1, _⟩
      simp [empty] at h1
  | @allocate st L n m _ hb ih =>
    obtain ⟨hreach, htile, hposL, hpw⟩ := ih
    refine ⟨ReachableNoWrap.allocate n m hreach hb, ?_⟩
    by_cases hn : n = 0
    · have h0 : Allocate st n m = (sentinel, st) := by
        rw [Allocate_eq, hn]; simp [AllocateImpl]
      rw [if_pos hn, h0]
      exact ⟨htile, hposL, hpw⟩
    · rw [if_neg hn, Allocate_eq]
      have hn0 : 0 < n := Nat.pos_of_ne_zero hn
      obtain ⟨_, hiff, hfresh⟩ :=
        AllocateImpl_fresh st n hn0 (ReachableNoWrap_inv trig st hreach) hb
      refine ⟨?_, ?_, ?_⟩
      · intro q
        rw [covered_cons, hiff q, htile q]
        constructor
        · rintro (h1 | h1)
          · exact Or.inr h1
          · exact Or.inl h1
        · rintro (h1 | h1)
          · exact Or.inr h1
          · exact Or.inl h1
      · intro a ha
        rcases List.mem_cons.1 ha with h1 | h1
        · rw [h1]; exact hn0
        · exact hposL a h1
      · refine List.pairwise_cons.2 ⟨?_, hpw⟩
        intro a ha
        have hapos := hposL a ha
        by_contra hcon
        simp only [Apart, not_or, Nat.not_le] at hcon
        by_cases hle : a.1 ≤ (AllocateImpl st n).1
        · exact hfresh (AllocateImpl st n).1 (Nat.le_refl _) (by omega)
            ((htile _).1 ⟨a, ha, hle, by omega⟩)
        · exact hfresh a.1 (by omega) (by omega) ((htile _).1 ⟨a, ha, Nat.le_refl _, by omega⟩)
  | @free st st1 L first n r _ hown hfree ih =>
    obtain ⟨hreach, htile, hposL, hpw⟩ := ih
    have hv : ValidFree st first n :=
      ⟨Free_some_le trig st st1 first n r hfree,
        fun q h1 h2 => ((htile q).1 (hown q h1 h2)).2⟩
    obtain ⟨st2, hf2, _, hiff⟩ :=
      Free_owned trig st first n (ReachableNoWrap_inv trig st hreach) hv
    rw [hf2] at hfree
    simp only [Option.some.injEq, Prod.mk.injEq] at hfree
    obtain ⟨hst, _⟩ := hfree
    subst hst
    refine ⟨ReachableNoWrap.free first n sentinel hreach hv hf2, ?_, ?_,
      cutRange_pairwise first n L hpw⟩
    · intro q
      rw [cutRange_covered, hiff q, htile q]
      constructor
      · rintro ⟨⟨h1, h2⟩, h3⟩
        exact ⟨h1, h2, h3⟩
      · rintro ⟨h1, h2, h3⟩
        exact ⟨⟨h1, h2⟩, h3⟩
    · intro a ha
      obtain ⟨_, _, _, _, h3, _⟩ := cutRange_mem first n L a ha
      exact h3

/-- The state `threeRanges` with its three allocated ranges. -/
theorem threeRanges_owns :
    Owns trigFortieth threeRanges [(15, 10), (10, 5), (0, 10)] :=
  Owns.allocate 10 false (Owns.allocate 5 false (Owns.allocate 10 false Owns.empty
    (by decide)) (by decide)) (by decide)

/-- The state `tenElems` with its one allocated range. -/
theorem tenElems_owns : Owns compactionTrigger tenElems [(0, 10)] :=
  Owns.allocate 10 false Owns.empty (by decide)

/-- The state `middleFreed`: the ranges `[0, 10)` and `[15, 25)` are allocated. -/
theorem middleFreed_owns : Owns trigFortieth middleFreed [(15, 10), (0, 10)] :=
  Owns.free 10 5 sentinel threeRanges_owns
    (fun _ h1 h2 => ⟨(10, 5), by simp, h1, h2⟩) (by decide)

end StablePosAllocator

/-! ### Page indices of the chunked pool -/

theorem range_succ_mul (c K : Nat) :
    List.range ((c + 1) * K) = List.range (c * K) ++ List.range' (c * K) K := by
  rw [Nat.add_mul, Nat.one_mul, List.range_add, List.range'_eq_map_range]

theorem perm_pop_last (A l : List Nat) (idx : Nat) (h : l.getLast? = some idx) :
    (idx :: A ++ l.dropLast).Perm (A ++ l) := by
  have hl : l.dropLast ++ [idx] = l := List.dropLast_append_getLast? idx (by simp [h])
  have h1 : (idx :: (A ++ l.dropLast)).Perm ((A ++ l.dropLast) ++ [idx]) :=
    (List.perm_append_singleton _ _).symm
  rw [List.append_assoc, hl] at h1
  exact h1

namespace FixedDynMemPool

/-- Without wrap-around of the `uint32_t` cast, the indices pushed for chunk `c` are the
indices of its `K` pages. -/
theorem newIndices_perm (K c : Nat) (h : (c + 1) * K ≤ 2 ^ 32) :
    (newIndices K c).Perm (List.range' (c * K) K) := by
  have hsucc : (c + 1) * K = c * K + K := by rw [Nat.add_mul, Nat.one_mul]
  apply (List.perm_ext_iff_of_nodup ?_ (List.nodup_range' _ _)).2
  · intro x
    simp only [newIndices, List.mem_map, List.mem_range, List.mem_range'_1]
    constructor
    · rintro ⟨j, hj, rfl⟩
      rw [Nat.mod_eq_of_lt (by omega)]
      omega
    · rintro ⟨h1, h2⟩
      refine ⟨c * K + K - 1 - x, by omega, ?_⟩
      rw [Nat.mod_eq_of_lt (by omega)]
      omega
  · unfold newIndices
    apply List.Nodup.map_on _ (List.nodup_range K)
    intro x hx y hy hxy
    rw [List.mem_range] at hx hy
    rw [Nat.mod_eq_of_lt (by omega), Nat.mod_eq_of_lt (by omega)] at hxy
    omega

theorem clear_indcs_perm (K nc : Nat) (h : nc * K ≤ 2 ^ 32) :
    (((List.range nc).map (fun i => newIndices K i)).flatten).Perm (List.range (nc * K)) := by
  induction nc with
  | zero => simp
  | succ c ih =>
    have hle : c * K ≤ 2 ^ 32 := by
      have : (c + 1) * K = c * K + K := by rw [Nat.add_mul, Nat.one_mul]
      omega
    rw [List.range_succ, List.map_append, List.flatten_append, range_succ_mul]
    simp only [List.map_cons, List.map_nil, List.flatten_cons, List.flatten_nil,
      List.append_nil]
    exact (ih hle).append (newIndices_perm K c h)

theorem writePayload_fields (S K : Nat) (st st1 : FixedDynMemPool) (idx : Nat)
    (bytes : List Nat) (h : writePayload S K st idx bytes = some st1) :
    st1.indcs = st.indcs ∧ st1.num_chunks = st.num_chunks ∧ st1.page_index = st.page_index := by
  unfold writePayload at h
  split at h
  · simp at h
  · split at h
    · simp only [Option.some.injEq] at h
      subst h
      exact ⟨rfl, rfl, rfl⟩
    · simp at h

/-- While the page indices fit `uint32_t` (`N * K ≤ 2 ^ 32`), the allocated indices and the
free list together are the indices `0 .. num_chunks * K - 1`, each once. -/
theorem validUse_partition (S N K : Nat) (st : FixedDynMemPool) (A : List Nat)
    (hNK : N * K ≤ 2 ^ 32) (h : ValidUse S N K st A) :
    (A ++ st.indcs).Perm (List.range (st.num_chunks * K)) := by
  induction h with
  | fresh => simp [fresh]
  | @allocMem st st1 A size ptr hv ha hp ih =>
    have ht := validUse_tracked S N K st A hv
    rw [allocMem_eq S N K st size ht.1] at ha
    by_cases hnil : st.indcs = []
    · rw [if_pos hnil] at ha
      by_cases hN : st.num_chunks = N
      · rw [if_pos hN] at ha
        simp only [Option.some.injEq, Prod.mk.injEq] at ha
        exact absurd ha.1.symm hp
      · rw [if_neg hN] at ha
        have htm := tracked_materialize S N K st A ht hN
        obtain ⟨idx, hlast, hpix, _, _, _, _, _, _, hind, hnc⟩ :=
          popPage_round_trip S N K _ st1 size ptr htm.1 htm.2.1 ha
        have hlt : st.num_chunks < N := by have := ht.1.2.1; omega
        have hb : (st.num_chunks + 1) * K ≤ 2 ^ 32 :=
          Nat.le_trans (Nat.mul_le_mul_right K hlt) hNK
        have hm : (A ++ (materialize S K st).indcs).Perm
            (List.range ((materialize S K st).num_chunks * K)) := by
          simp only [materialize, hnil, List.nil_append]
          rw [hnil, List.append_nil] at ih
          rw [range_succ_mul]
          exact ih.append (newIndices_perm K st.num_chunks hb)
        rw [hind, hnc, hpix]
        exact (perm_pop_last A _ idx hlast).trans hm
    · rw [if_neg hnil] at ha
      obtain ⟨idx, hlast, hpix, _, _, _, _, _, _, hind, hnc⟩ :=
        popPage_round_trip S N K st st1 size ptr ht.1 ht.2.1 ha
      rw [hind, hnc, hpix]
      exact (perm_pop_last A _ idx hlast).trans ih
  | @freeMem st st1 A idx hv hi hf ih =>
    have ht := validUse_tracked S N K st A hv
    obtain ⟨_, _, mem, mem1, _, _, heq⟩ := freeMem_payload_eq S N K st A idx ht hi
    rw [heq] at hf
    simp only [Option.some.injEq] at hf
    subst hf
    simp only
    have hnd : A.Nodup := (List.nodup_append.1 ((List.Perm.nodup_iff ih).2 (List.nodup_range _))).1
    have hA := perm_cons_filter_ne A idx hnd hi
    refine List.Perm.trans ?_ ih
    refine List.Perm.trans ?_ (hA.symm.append_right _)
    rw [← List.append_assoc]
    refine (List.perm_append_singleton _ _).trans ?_
    simp
  | @clear st hv _ =>
    have ht := validUse_tracked S N K st [] hv
    simp only [clear, List.nil_append]
    exact clear_indcs_perm K st.num_chunks
      (Nat.le_trans (Nat.mul_le_mul_right K ht.1.2.1) hNK)
  | write idx bytes _ _ hw ih =>
    obtain ⟨h1, h2, _⟩ := writePayload_fields S K _ _ idx bytes hw
    rw [h1, h2]
    exact ih

end FixedDynMemPool

namespace FixedDynMemPool

/-- The state after `i` calls of `allocMem` on a fresh pool is a state of valid use in which
the pages handed out, with their `uint32_t` indices, are allocated. -/
theorem allocMemN_validUse (S N K : Nat) (sz : Nat → Nat) (hK : 0 < K)
    (hsz : ∀ k, sz k ≤ S) (i : Nat) (hi : i ≤ N * K) :
    ∃ st, allocMemN S N K sz i = some st ∧ AfterAllocs S N K i st ∧
      ValidUse S N K st ((List.range i).reverse.map (fun j => j % 2 ^ 32)) := by
  induction i with
  | zero => exact ⟨fresh N, rfl, afterAllocs_fresh S N K hK, ValidUse.fresh⟩
  | succ j ih =>
    obtain ⟨st, h1, h2, hv⟩ := ih (by omega)
    obtain ⟨st1, h3, h4, h5⟩ := allocMem_step S N K j st (sz j) hK h2 (by omega) (hsz j)
    refine ⟨st1, by simp [allocMemN, h1, h3], h4, ?_⟩
    have hstep := ValidUse.allocMem (sz j) _ hv h3 (by simp)
    rw [h5] at hstep
    simpa [List.range_succ] using hstep

end FixedDynMemPool

/-! ## Claims -/

namespace StablePosAllocator

variable {α : Type} [Inhabited α]

/-- C1 (best fit): for `n > 0` and a state with consistent indices (the size index in key
order, as `std::multimap` keeps it) in which some gap has size at least `n`, `Allocate(n)`
returns the position of a gap whose size is minimal among the gaps of size at least `n`,
and `GetSize()` is unchanged. -/
theorem allocate_best_fit (st : StablePosAllocator α) (n : Nat) (withMutex : Bool)
    (hn : 0 < n) (hsorted : KeysSorted st.sizeToPositions) (hc : Consistent st)
    (hgap : ∃ g ∈ st.positionToSize, n ≤ g.2) :
    (∃ g ∈ st.positionToSize, g.1 = (Allocate st n withMutex).1 ∧ n ≤ g.2 ∧
        ∀ h ∈ st.positionToSize, n ≤ h.2 → g.2 ≤ h.2) ∧
      GetSize (Allocate st n withMutex).2 = GetSize st := by
  obtain ⟨g0, hg0, hg0n⟩ := hgap
  have hne : st.positionToSize ≠ [] := List.ne_nil_of_mem hg0
  have hex : ∃ e ∈ st.sizeToPositions, n ≤ e.1 :=
    ⟨(g0.2, g0.1), (mem_swap_of_perm _ _ hc g0.2 g0.1).2 hg0, hg0n⟩
  obtain ⟨⟨s, p⟩, hlb⟩ := lowerBound_of_exists _ n hex
  have hls := lowerBound_some _ _ _ hlb
  rw [Allocate_eq, AllocateImpl_gap st n s p hn hne hlb]
  refine ⟨⟨(p, s), (mem_swap_of_perm _ _ hc s p).1 hls.2, rfl, hls.1, ?_⟩, rfl⟩
  intro h hh hhn
  exact lowerBound_min _ n (s, p) hsorted hlb (h.2, h.1)
    ((mem_swap_of_perm _ _ hc h.2 h.1).2 hh) hhn

/-- Witness of C1: a request of 4 elements in `threeGaps` takes the gap `(0, 5)`, not the
larger gap `(10, 8)`. -/
theorem allocate_best_fit_witness :
    (Allocate threeGaps 4 false).1 = 0 ∧
    ((∃ g ∈ threeGaps.positionToSize, g.1 = (Allocate threeGaps 4 false).1 ∧ 4 ≤ g.2 ∧
        ∀ h ∈ threeGaps.positionToSize, 4 ≤ h.2 → g.2 ≤ h.2) ∧
      GetSize (Allocate threeGaps 4 false).2 = GetSize threeGaps) :=
  ⟨by decide, allocate_best_fit threeGaps 4 false (by decide) (by decide) (by decide)
    ⟨(0, 5), by decide, by decide⟩⟩

/-- C3 (gap well-formedness), amended with `Allocate` calls that do not overflow: in every
state reachable from an empty allocator by `Allocate` calls made with
`GetSize() + n < 2 ^ 64` and valid `Free` calls, every gap recorded in either index has a
size above 0 and ends inside the backing vector, and two distinct gaps share no position. -/
theorem reachable_gaps_wellformed (trig : Nat → Nat → Bool) (st : StablePosAllocator α)
    (h : ReachableNoWrap trig st) :
    (∀ g ∈ st.positionToSize, 0 < g.2 ∧ g.1 + g.2 ≤ GetSize st) ∧
      (∀ e ∈ st.sizeToPositions, 0 < e.1 ∧ e.2 + e.1 ≤ GetSize st) ∧
      (∀ g ∈ st.positionToSize, ∀ k ∈ st.positionToSize, g ≠ k →
        (g.1 + g.2 ≤ k.1 ∨ k.1 + k.2 ≤ g.1) ∧
        ∀ q, ¬ ((g.1 ≤ q ∧ q < g.1 + g.2) ∧ (k.1 ≤ q ∧ q < k.1 + k.2))) := by
  obtain ⟨_, hc, hpos, hno⟩ := ReachableNoWrap_inv trig st h
  refine ⟨hpos, ?_, ?_⟩
  · intro e he
    exact hpos (e.2, e.1) ((mem_swap_of_perm _ _ hc e.1 e.2).1 he)
  · intro g hg k hk hgk
    have hsym : st.positionToSize.Pairwise
        (fun a b : Nat × Nat => a.1 + a.2 ≤ b.1 ∨ b.1 + b.2 ≤ a.1) :=
      hno.imp (fun {a b} hab => Or.inl hab)
    have hor := List.Pairwise.forall (fun a b hab => Or.symm hab) hsym hg hk hgk
    refine ⟨hor, ?_⟩
    intro q hq
    omega

/-- Witness of C3 (amended): the gaps `(0, 4)` and `(10, 5)` of `twoGaps` lie apart inside
a vector of 25 elements. -/
theorem reachable_gaps_wellformed_witness :
    (GetSize twoGaps = 25 ∧ twoGaps.positionToSize = [(0, 4), (10, 5)]) ∧
    ((∀ g ∈ twoGaps.positionToSize, 0 < g.2 ∧ g.1 + g.2 ≤ GetSize twoGaps) ∧
      (∀ e ∈ twoGaps.sizeToPositions, 0 < e.1 ∧ e.2 + e.1 ≤ GetSize twoGaps) ∧
      (∀ g ∈ twoGaps.positionToSize, ∀ k ∈ twoGaps.positionToSize, g ≠ k →
        (g.1 + g.2 ≤ k.1 ∨ k.1 + k.2 ≤ g.1) ∧
        ∀ q, ¬ ((g.1 ≤ q ∧ q < g.1 + g.2) ∧ (k.1 ≤ q ∧ q < k.1 + k.2)))) :=
  ⟨by decide, reachable_gaps_wellformed trigFortieth twoGaps twoGaps_noWrap⟩

/-- Counterexample to C3 as stated: after `Allocate` of 1, 2, 2, 5, 10 and 10 elements and
`Free(10, 10)` the allocator holds 30 elements and the gap `(10, 10)`.  `Allocate(2 ^ 64 - 25)`
fits no gap and returns 30; the new size `30 + (2 ^ 64 - 25)` is 5 as a `size_t`, so
`resize` leaves 5 elements.  The state is reachable, and its gap `(10, 10)` ends at 20,
behind `GetSize() = 5`. -/
theorem reachable_gap_behind_size :
    Reachable compactionTrigger holeAtTen ∧
    Allocate holeAtTen (2 ^ 64 - 25) false = (30, wrapped) ∧
    Reachable compactionTrigger wrapped ∧
    GetSize wrapped = 5 ∧ (10, 10) ∈ wrapped.positionToSize ∧
    ¬ (∀ g ∈ wrapped.positionToSize, 0 < g.2 ∧ g.1 + g.2 ≤ GetSize wrapped) :=
  ⟨holeAtTen_reachable, holeAtTen_allocate, wrapped_reachable, by decide, by decide,
    by decide⟩

/-- C4 (merge fixed point), amended: on a non-empty, consistent, non-overlapping gap set
`CompactGaps` returns.  Its merge loop ends with the gap list in which each run of adjacent
gaps of the input is one gap (first position of the run, sum of its sizes), any two of
these merged gaps have free room between them, and they are the remaining gaps, except
that the last one is removed again when it ends at `GetSize()` (the tail trim).  No two
remaining gaps are adjacent. -/
theorem compactGaps_merges_runs (st : StablePosAllocator α) (hne : st.positionToSize ≠ [])
    (hord : Ordered st) (hc : Consistent st) (hno : NonOverlapping st.positionToSize) :
    ∃ (st1 : StablePosAllocator α) (runs : List (List (Nat × Nat))) (s2p1 : List (Nat × Nat))
      (fin : Nat × Nat),
      CompactGaps st = some st1 ∧
      runs.flatten = st.positionToSize ∧
      (∀ r ∈ runs, r ≠ [] ∧ List.Chain' Adjacent r) ∧
      mergeLoop st.positionToSize.length st.positionToSize st.sizeToPositions 0 =
        some (runs.map collapseRun, s2p1) ∧
      s2p1.Perm ((runs.map collapseRun).map Prod.swap) ∧
      Separated (runs.map collapseRun) ∧
      (runs.map collapseRun).getLast? = some fin ∧
      st1.positionToSize =
        (if fin.1 + fin.2 = GetSize st then (runs.map collapseRun).dropLast
         else runs.map collapseRun) ∧
      Consistent st1 ∧
      (∀ a ∈ st1.positionToSize, ∀ b ∈ st1.positionToSize, a ≠ b → ¬ Adjacent a b) := by
  obtain ⟨s2p1, fin, hfin, hloop, hperm, hsorted, heq⟩ := CompactGaps_eq st hne hord hc
  obtain ⟨runs, hr1, hr2, hr3⟩ := mergeRuns_runs st.positionToSize
  obtain ⟨x, rest, hxr⟩ := List.exists_cons_of_ne_nil hne
  have hsep : Separated (mergeRuns st.positionToSize) := by
    rw [hxr]
    exact (mergeRunsAux_separated rest x (hxr ▸ hno)).2
  have hlast : (mergeRuns st.positionToSize).dropLast ++ [fin] = mergeRuns st.positionToSize :=
    List.dropLast_append_getLast? fin (by simp [hfin])
  have hsepd : Separated (mergeRuns st.positionToSize).dropLast :=
    List.Pairwise.sublist (List.dropLast_sublist _) hsep
  have hnoadj : ∀ m : List (Nat × Nat), Separated m →
      ∀ a ∈ m, ∀ b ∈ m, a ≠ b → ¬ Adjacent a b := by
    intro m hm a ha b hb hab
    have hsym : m.Pairwise (fun a b : Nat × Nat => a.1 + a.2 ≠ b.1 ∧ b.1 + b.2 ≠ a.1) :=
      hm.imp (fun {a b} h => ⟨by omega, by omega⟩)
    exact (List.Pairwise.forall (fun a b h => And.symm h) hsym ha hb hab).1
  by_cases htrim : fin.1 + fin.2 = st.data.length
  · rw [if_pos htrim] at heq
    refine ⟨_, runs, s2p1, fin, heq, hr1, hr2, hr3 ▸ hloop, hr3 ▸ hperm, hr3 ▸ hsep,
      hr3 ▸ hfin, by simp [GetSize, htrim, ← hr3], ?_, hnoadj _ hsepd⟩
    have := perm_swap_erase s2p1 (mergeRuns st.positionToSize).dropLast [] fin
      (by rw [hlast]; exact hperm)
    simp only [List.append_nil] at this
    exact this
  · rw [if_neg htrim] at heq
    exact ⟨_, runs, s2p1, fin, heq, hr1, hr2, hr3 ▸ hloop, hr3 ▸ hperm, hr3 ▸ hsep,
      hr3 ▸ hfin, by simp [GetSize, htrim, ← hr3], hperm, hnoadj _ hsep⟩

/-- Witness of C4 (amended): in `adjacentGaps` the run `(2, 3)`, `(5, 1)`, `(6, 2)` becomes
the gap `(2, 6)`; the gap `(10, 2)` ends with the vector and is trimmed. -/
theorem compactGaps_merges_runs_witness :
    CompactGaps adjacentGaps =
        some { data := List.replicate 10 (), sizeToPositions := [(6, 2)]
               positionToSize := [(2, 6)] } ∧
    ∃ (st1 : StablePosAllocator Unit) (runs : List (List (Nat × Nat)))
      (s2p1 : List (Nat × Nat)) (fin : Nat × Nat),
      CompactGaps adjacentGaps = some st1 ∧
      runs.flatten = adjacentGaps.positionToSize ∧
      (∀ r ∈ runs, r ≠ [] ∧ List.Chain' Adjacent r) ∧
      mergeLoop adjacentGaps.positionToSize.length adjacentGaps.positionToSize
          adjacentGaps.sizeToPositions 0 = some (runs.map collapseRun, s2p1) ∧
      s2p1.Perm ((runs.map collapseRun).map Prod.swap) ∧
      Separated (runs.map collapseRun) ∧
      (runs.map collapseRun).getLast? = some fin ∧
      st1.positionToSize =
        (if fin.1 + fin.2 = GetSize adjacentGaps then (runs.map collapseRun).dropLast
         else runs.map collapseRun) ∧
      Consistent st1 ∧
      (∀ a ∈ st1.positionToSize, ∀ b ∈ st1.positionToSize, a ≠ b → ¬ Adjacent a b) :=
  ⟨by decide, compactGaps_merges_runs adjacentGaps (by decide) (by decide) (by decide)
    (by decide)⟩

/-- Counterexample to C4 as stated: `tailRun` is a non-empty, consistent, non-overlapping
gap set whose gaps form one run of adjacent gaps, from position 0 with sizes that sum to
2; after `CompactGaps` no gap `(0, 2)` is recorded, the merged gap was trimmed away.  The
allocator runs `CompactGaps` on `tailRun` inside the valid call `Free(0, 1)` in the
reachable state `gapAtEnd`. -/
theorem compactGaps_merged_run_trimmed :
    (tailRun.positionToSize ≠ [] ∧ Ordered tailRun ∧ Consistent tailRun ∧
      NonOverlapping tailRun.positionToSize) ∧
    List.Chain' Adjacent tailRun.positionToSize ∧
    collapseRun tailRun.positionToSize = (0, 2) ∧
    CompactGaps tailRun = some { data := [], sizeToPositions := [], positionToSize := [] } ∧
    (¬ ∃ st1, CompactGaps tailRun = some st1 ∧ (0, 2) ∈ st1.positionToSize) ∧
    Reachable trigFortieth gapAtEnd ∧ ValidFree gapAtEnd 0 1 ∧
    Free trigFortieth gapAtEnd 0 1 =
      some ({ data := [], sizeToPositions := [], positionToSize := [] }, sentinel) := by
  refine ⟨by decide, List.chain'_cons.2 ⟨rfl, List.chain'_singleton _⟩, by decide, by decide, ?_,
    gapAtEnd_reachable, gapAtEnd_validFree, by decide⟩
  rintro ⟨st1, h1, h2⟩
  have h3 : CompactGaps tailRun =
      some { data := [], sizeToPositions := [], positionToSize := [] } := by decide
  rw [h3] at h1
  simp only [Option.some.injEq] at h1
  subst h1
  simp at h2

/-- C5 (tail trim), amended: on a non-empty, consistent, non-overlapping gap set, let `fin`
be the last gap in position order after the merge loop.  If `fin` ends at `GetSize()`, then
`CompactGaps` sets `GetSize()` to the position of `fin` and removes `fin` from both
indices; otherwise the data and the merged indices are left as they are.  When the gaps
lie inside the backing vector, no gap recorded afterwards ends at `GetSize()`. -/
theorem compactGaps_trims_tail (st : StablePosAllocator α) (hne : st.positionToSize ≠ [])
    (hord : Ordered st) (hc : Consistent st) (hno : NonOverlapping st.positionToSize) :
    ∃ (st1 : StablePosAllocator α) (merged s2p1 : List (Nat × Nat)) (fin : Nat × Nat),
      mergeLoop st.positionToSize.length st.positionToSize st.sizeToPositions 0 =
        some (merged, s2p1) ∧
      merged.getLast? = some fin ∧
      CompactGaps st = some st1 ∧
      (fin.1 + fin.2 = GetSize st →
        GetSize st1 = fin.1 ∧ st1.data = st.data.take fin.1 ∧
        st1.positionToSize = merged.dropLast ∧
        st1.sizeToPositions = eraseSizeToPositionsKVFunc s2p1 fin.2 fin.1 ∧
        fin ∉ st1.positionToSize ∧ (fin.2, fin.1) ∉ st1.sizeToPositions) ∧
      (fin.1 + fin.2 ≠ GetSize st →
        st1 = { data := st.data, sizeToPositions := s2p1, positionToSize := merged }) ∧
      ((∀ g ∈ st.positionToSize, g.1 + g.2 ≤ GetSize st) →
        (∀ g ∈ st1.positionToSize, g.1 + g.2 ≠ GetSize st1) ∧
        (∀ e ∈ st1.sizeToPositions, e.2 + e.1 ≠ GetSize st1)) := by
  obtain ⟨s2p1, fin, hfin, hloop, hperm, hsorted, heq⟩ := CompactGaps_eq st hne hord hc
  obtain ⟨x, rest, hxr⟩ := List.exists_cons_of_ne_nil hne
  have hsep : Separated (mergeRuns st.positionToSize) := by
    rw [hxr]
    exact (mergeRunsAux_separated rest x (hxr ▸ hno)).2
  have hlast : (mergeRuns st.positionToSize).dropLast ++ [fin] = mergeRuns st.positionToSize :=
    List.dropLast_append_getLast? fin (by simp [hfin])
  have hsep2 : Separated ((mergeRuns st.positionToSize).dropLast ++ [fin]) := by
    rw [hlast]; exact hsep
  have hnotin : fin ∉ (mergeRuns st.positionToSize).dropLast := by
    intro hmem
    have := (List.pairwise_append.1 hsep2).2.2 fin hmem fin (by simp)
    omega
  have hpermd : (eraseSizeToPositionsKVFunc s2p1 fin.2 fin.1).Perm
      ((mergeRuns st.positionToSize).dropLast.map Prod.swap) := by
    have := perm_swap_erase s2p1 (mergeRuns st.positionToSize).dropLast [] fin
      (by rw [hlast]; exact hperm)
    simp only [List.append_nil] at this
    exact this
  refine ⟨_, mergeRuns st.positionToSize, s2p1, fin, hloop, hfin, heq, ?_, ?_, ?_⟩
  · intro htrim
    have htrim1 : fin.1 + fin.2 = st.data.length := htrim
    rw [if_pos htrim1]
    refine ⟨by simp [GetSize, vecResize_length], ?_, rfl, rfl, hnotin, ?_⟩
    · have hz : fin.1 - st.data.length = 0 := by omega
      simp [vecResize, hz]
    · intro hmem
      exact hnotin ((mem_swap_of_perm _ _ hpermd fin.2 fin.1).1 hmem)
  · intro htrim
    have htrim1 : ¬ fin.1 + fin.2 = st.data.length := htrim
    rw [if_neg htrim1]
  · intro hin
    obtain ⟨st2, h1, _, h3, _, h5, _⟩ := CompactGaps_post st hne hord hc hno hin
    rw [heq] at h1
    simp only [Option.some.injEq] at h1
    rw [h1]
    refine ⟨fun g hg => Nat.ne_of_lt (h5 g hg), ?_⟩
    intro e he
    exact Nat.ne_of_lt (h5 (e.2, e.1) ((mem_swap_of_perm _ _ h3 e.1 e.2).1 he))

/-- Witness of C5 (amended): in `adjacentGaps` the last gap `(10, 2)` ends with the vector of 12
elements; `CompactGaps` leaves 10 elements and the one merged gap `(2, 6)`. -/
theorem compactGaps_trims_tail_witness :
    CompactGaps adjacentGaps =
        some { data := List.replicate 10 (), sizeToPositions := [(6, 2)]
               positionToSize := [(2, 6)] } ∧
    ∃ (st1 : StablePosAllocator Unit) (merged s2p1 : List (Nat × Nat)) (fin : Nat × Nat),
      mergeLoop adjacentGaps.positionToSize.length adjacentGaps.positionToSize
          adjacentGaps.sizeToPositions 0 = some (merged, s2p1) ∧
      merged.getLast? = some fin ∧
      CompactGaps adjacentGaps = some st1 ∧
      (fin.1 + fin.2 = GetSize adjacentGaps →
        GetSize st1 = fin.1 ∧ st1.data = adjacentGaps.data.take fin.1 ∧
        st1.positionToSize = merged.dropLast ∧
        st1.sizeToPositions = eraseSizeToPositionsKVFunc s2p1 fin.2 fin.1 ∧
        fin ∉ st1.positionToSize ∧ (fin.2, fin.1) ∉ st1.sizeToPositions) ∧
      (fin.1 + fin.2 ≠ GetSize adjacentGaps →
        st1 = { data := adjacentGaps.data, sizeToPositions := s2p1
                positionToSize := merged }) ∧
      ((∀ g ∈ adjacentGaps.positionToSize, g.1 + g.2 ≤ GetSize adjacentGaps) →
        (∀ g ∈ st1.positionToSize, g.1 + g.2 ≠ GetSize st1) ∧
        (∀ e ∈ st1.sizeToPositions, e.2 + e.1 ≠ GetSize st1)) :=
  ⟨by decide, compactGaps_trims_tail adjacentGaps (by decide) (by decide) (by decide)
    (by decide)⟩

/-- Counterexample to C5 as stated: `wrappedRun` is a non-empty, consistent,
non-overlapping gap set, the gaps `(0, 1)`, `(1, 2)`, `(10, 10)` with 3 elements.
`CompactGaps` merges the first two to `(0, 3)`; the last gap `(10, 10)` does not end at
`GetSize()`, nothing is trimmed, and the recorded gap `(0, 3)` ends at `GetSize() = 3`.
The allocator runs `CompactGaps` on `wrappedRun` inside the valid call `Free(0, 1)` in the
reachable state `wrappedTail`: after `Allocate` of 1, 2, 2, 5, 10, 10 elements and
`Free(10, 10)`, the call `Allocate(2 ^ 64 - 25)` leaves 5 elements with the gap `(10, 10)`
behind them, and `Free(1, 2)`, `Free(3, 2)` lead to `wrappedTail`. -/
theorem compactGaps_gap_ends_at_size :
    (wrappedRun.positionToSize ≠ [] ∧ Ordered wrappedRun ∧ Consistent wrappedRun ∧
      NonOverlapping wrappedRun.positionToSize) ∧
    CompactGaps wrappedRun = some wrappedMerged ∧
    (∃ st1, CompactGaps wrappedRun = some st1 ∧
      ∃ g ∈ st1.positionToSize, g.1 + g.2 = GetSize st1) ∧
    Reachable compactionTrigger wrappedTail ∧ ValidFree wrappedTail 0 1 ∧
    Free (fun _ _ => false) wrappedTail 0 1 = some (wrappedRun, sentinel) ∧
    compactionTrigger wrappedRun.positionToSize.length wrappedRun.data.length = true ∧
    Free compactionTrigger wrappedTail 0 1 = some (wrappedMerged, sentinel) :=
  ⟨by decide, by decide, ⟨wrappedMerged, by decide, (0, 3), by decide, by decide⟩,
    wrappedTail_reachable, wrappedTail_validFree, by decide, by decide, by decide⟩

/-- C6 (tail free): for `n > 0` and `first + n = GetSize()`, `Free(first, n)` sets
`GetSize()` to `first`, keeps the first `first` elements, and leaves both gap indices as
they were, whatever the compaction trigger would answer. -/
theorem free_tail_truncates (trig : Nat → Nat → Bool) (st : StablePosAllocator α)
    (first n : Nat) (hn : 0 < n) (h : first + n = GetSize st) :
    ∃ st1, Free trig st first n = some (st1, sentinel) ∧ GetSize st1 = first ∧
      st1.data = st.data.take first ∧
      st1.sizeToPositions = st.sizeToPositions ∧
      st1.positionToSize = st.positionToSize := by
  have h1 : first + n = st.data.length := h
  have hn0 : n ≠ 0 := by omega
  refine ⟨{ st with data := vecResize st.data first }, ?_, ?_, ?_, rfl, rfl⟩
  · simp [Free, h1, hn0]
  · simp [GetSize, vecResize_length]
  · have hz : first - st.data.length = 0 := by omega
    simp [vecResize, hz]

/-- Witness of C6: freeing the trailing range `[15, 25)` of `middleFreed` leaves 15
elements and the gap `(10, 5)`, which now ends with the vector and is not compacted. -/
theorem free_tail_truncates_witness :
    Free trigFortieth middleFreed 15 10 =
        some ({ data := List.replicate 15 (), sizeToPositions := [(5, 10)]
                positionToSize := [(10, 5)] }, sentinel) ∧
    ∃ st1, Free trigFortieth middleFreed 15 10 = some (st1, sentinel) ∧ GetSize st1 = 15 ∧
      st1.data = middleFreed.data.take 15 ∧
      st1.sizeToPositions = middleFreed.sizeToPositions ∧
      st1.positionToSize = middleFreed.positionToSize :=
  ⟨by decide, free_tail_truncates trigFortieth middleFreed 15 10 (by decide) (by decide)⟩

/-- C8 (append path), amended with `GetSize() + n < 2 ^ 64`: for `n > 0` with
`GetSize() + n < 2 ^ 64`, when there is no gap or every gap is smaller than `n`,
`Allocate(n)` returns the old `GetSize()`, `GetSize()` grows by `n` (the old elements
stay, `n` value-initialised elements follow), and both gap indices are unchanged. -/
theorem allocate_appends (st : StablePosAllocator α) (n : Nat) (withMutex : Bool)
    (hn : 0 < n)
    (h : st.positionToSize = [] ∨ ∀ e ∈ st.sizeToPositions, e.1 < n)
    (hb : GetSize st + n < 2 ^ 64) :
    (Allocate st n withMutex).1 = GetSize st ∧
      GetSize (Allocate st n withMutex).2 = GetSize st + n ∧
      (Allocate st n withMutex).2.data = st.data ++ List.replicate n default ∧
      (Allocate st n withMutex).2.sizeToPositions = st.sizeToPositions ∧
      (Allocate st n withMutex).2.positionToSize = st.positionToSize := by
  rw [Allocate_eq, AllocateImpl_append st n hn h hb]
  refine ⟨rfl, by simp [GetSize, vecResize_length], ?_, rfl, rfl⟩
  simp [vecResize, List.take_of_length_le]

/-- Witness of C8 (amended): a request of 9 elements in `threeGaps`, whose largest gap has
size 8, is appended at position 30. -/
theorem allocate_appends_witness :
    (∀ e ∈ threeGaps.sizeToPositions, e.1 < 9) ∧ GetSize threeGaps + 9 < 2 ^ 64 ∧
    ((Allocate threeGaps 9 true).1 = GetSize threeGaps ∧
      GetSize (Allocate threeGaps 9 true).2 = GetSize threeGaps + 9 ∧
      (Allocate threeGaps 9 true).2.data = threeGaps.data ++ List.replicate 9 default ∧
      (Allocate threeGaps 9 true).2.sizeToPositions = threeGaps.sizeToPositions ∧
      (Allocate threeGaps 9 true).2.positionToSize = threeGaps.positionToSize) :=
  ⟨by decide, by decide,
    allocate_appends threeGaps 9 true (by decide) (Or.inr (by decide)) (by decide)⟩

/-- Counterexample to C8 as stated: `tenElems`, the state after `Allocate(10)`, has no gap.
`Allocate(2 ^ 64 - 5)` returns 10, the old `GetSize()`; the new size `10 + (2 ^ 64 - 5)` is
5 as a `size_t`, so `resize` leaves 5 elements: `GetSize()` did not grow by `2 ^ 64 - 5`,
it shrank. -/
theorem allocate_append_overflows :
    Reachable compactionTrigger tenElems ∧
    0 < 2 ^ 64 - 5 ∧ tenElems.positionToSize = [] ∧ GetSize tenElems = 10 ∧
    Allocate tenElems (2 ^ 64 - 5) false =
      (10, { data := List.replicate 5 (), sizeToPositions := [], positionToSize := [] }) ∧
    GetSize (Allocate tenElems (2 ^ 64 - 5) false).2 = 5 ∧
    ¬ (GetSize (Allocate tenElems (2 ^ 64 - 5) false).2 = GetSize tenElems + (2 ^ 64 - 5)) :=
  ⟨tenElems_reachable, by decide, rfl, by decide, by decide, by decide, by decide⟩

end StablePosAllocator

namespace FixedDynMemPool

/-- C9 (hand-out order), amended with `N * K ≤ 2 ^ 32`: on a fresh pool with `K ≥ 1`,
served only `allocMem` calls with sizes up to `S`, for every `i < N * K` the call number
`i + 1` succeeds and returns the payload address of the page with global index `i` (chunk
`i / K`, slot `i % K`); before it `i / K` rounded up chunks are materialised, after it
`i / K + 1`, so a chunk is materialised exactly by the calls with `i % K = 0`.  The call number `N * K + 1` returns null and leaves the state unchanged. -/
theorem allocMem_hands_out_in_order (S N K : Nat) (sz : Nat → Nat) (hK : 0 < K)
    (hsz : ∀ k, sz k ≤ S) (hNK : N * K ≤ 2 ^ 32) :
    (∀ i, i < N * K →
      ∃ st st1, allocMemN S N K sz i = some st ∧ st.num_chunks = (i + K - 1) / K ∧
        allocMem S N K st (sz i) = some (Ptr.mk (i / K) (i % K * (4 + S) + 4), st1) ∧
        page_mem S K st1 i 4 = some (Ptr.mk (i / K) (i % K * (4 + S) + 4)) ∧
        st1.page_index = i ∧ st1.num_chunks = i / K + 1 ∧
        (i % K = 0 → st1.num_chunks = st.num_chunks + 1) ∧
        (i % K ≠ 0 → st1.num_chunks = st.num_chunks) ∧
        allocMemN S N K sz (i + 1) = some st1) ∧
      ∃ st, allocMemN S N K sz (N * K) = some st ∧ st.num_chunks = N ∧
        ∀ size, allocMem S N K st size = some (Ptr.null, st) := by
  constructor
  · intro i hi
    obtain ⟨st, st1, h1, h2, h3, h4, h5⟩ := allocMemN_next S N K sz hK hsz i hi
    have hmod : i % 2 ^ 32 = i := Nat.mod_eq_of_lt (by omega)
    rw [hmod] at h3 h5
    have hnc : st.num_chunks = (i + K - 1) / K := by
      symm
      apply Nat.div_eq_of_lt_le
      · have := h2.2.2.1; omega
      · have := h2.2.1
        rw [Nat.succ_mul]; omega
    have hnc1 : st1.num_chunks = i / K + 1 := by
      have hlo := h4.2.1
      have hhi := h4.2.2.1
      obtain ⟨q, hq⟩ : ∃ q, st1.num_chunks = q + 1 := by
        refine ⟨st1.num_chunks - 1, ?_⟩
        have : st1.num_chunks ≠ 0 := by
          intro h0; rw [h0] at hlo; simp at hlo
        omega
      rw [hq] at hlo hhi ⊢
      rw [Nat.add_mul] at hlo hhi
      have : i / K = q := by
        apply Nat.div_eq_of_lt_le
        · omega
        · rw [Nat.succ_mul]; omega
      rw [this]
    have hK0 : K ≠ 0 := by omega
    have hlt : i / K < st1.num_chunks := by omega
    obtain ⟨mem, hmem, _⟩ := chunkMem_of_shaped S N K st1 h4.1 (i / K) hlt
    have hdm : K * (i / K) + i % K = i := Nat.div_add_mod i K
    have hml : i % K < K := Nat.mod_lt i hK
    have hcomm : i / K * K = K * (i / K) := Nat.mul_comm _ _
    refine ⟨st, st1, h1, hnc, h3, by simp [page_mem, hK0, hmem], h5, hnc1, ?_, ?_, ?_⟩
    · intro h0
      have : (i + K - 1) / K = i / K := by
        apply Nat.div_eq_of_lt_le
        · omega
        · rw [Nat.succ_mul]; omega
      omega
    · intro h0
      have : (i + K - 1) / K = i / K + 1 := by
        apply Nat.div_eq_of_lt_le
        · rw [Nat.add_mul]; omega
        · rw [Nat.succ_mul, Nat.add_mul]; omega
      omega
    · simp [allocMemN, h1, h3]
  · obtain ⟨st, h1, h2⟩ := allocMemN_afterAllocs S N K sz hK hsz (N * K) (Nat.le_refl _)
    obtain ⟨hsh, hlo, hhi, hind, _⟩ := h2
    have hN : st.num_chunks = N := by
      have h3 : N ≤ st.num_chunks := Nat.le_of_mul_le_mul_right hlo hK
      have := hsh.2.1
      omega
    refine ⟨st, h1, hN, ?_⟩
    intro size
    have hnil : st.indcs = [] := by
      rw [hind, hN]; simp
    rw [allocMem_eq S N K st size hsh, if_pos hnil, if_pos hN]

/-- Witness of C9 (amended): `FixedDynMemPool<2, 2, 2>` hands out pages 0, 1, 2, 3 in this
order and then returns null. -/
theorem allocMem_hands_out_in_order_witness :
    allocMemN 2 2 2 (fun _ => 1) 4 =
        some { chunks := [some [0, 0, 0, 0, 0, 0, 1, 0, 0, 0, 0, 0],
                          some [2, 0, 0, 0, 0, 0, 3, 0, 0, 0, 0, 0]]
               indcs := [], num_chunks := 2, page_index := 3 } ∧
    ((∀ i, i < 2 * 2 →
      ∃ st st1, allocMemN 2 2 2 (fun _ => 1) i = some st ∧ st.num_chunks = (i + 2 - 1) / 2 ∧
        allocMem 2 2 2 st 1 = some (Ptr.mk (i / 2) (i % 2 * (4 + 2) + 4), st1) ∧
        page_mem 2 2 st1 i 4 = some (Ptr.mk (i / 2) (i % 2 * (4 + 2) + 4)) ∧
        st1.page_index = i ∧ st1.num_chunks = i / 2 + 1 ∧
        (i % 2 = 0 → st1.num_chunks = st.num_chunks + 1) ∧
        (i % 2 ≠ 0 → st1.num_chunks = st.num_chunks) ∧
        allocMemN 2 2 2 (fun _ => 1) (i + 1) = some st1) ∧
      ∃ st, allocMemN 2 2 2 (fun _ => 1) (2 * 2) = some st ∧ st.num_chunks = 2 ∧
        ∀ size, allocMem 2 2 2 st size = some (Ptr.null, st)) :=
  ⟨by decide, allocMem_hands_out_in_order 2 2 2 (fun _ => 1) (by decide)
    (fun _ => show 1 ≤ 2 by decide) (by decide)⟩

/-- Counterexample to C9 as stated: in `FixedDynMemPool<1, 65537, 65536>` (`N, K ≥ 1`,
`N * K > 2 ^ 32`) the call number `2 ^ 32 + 1` is one of the first `N * K` calls, but the
index pushed for it is cast to `uint32_t` and wraps to 0: the call returns the payload of
page 0 (chunk 0, offset 4), which the first call handed out already, and not the payload
of page `2 ^ 32` (chunk 65536, offset 4). -/
theorem allocMem_index_wraps :
    (1 ≤ 65537 ∧ 1 ≤ 65536 ∧ 4294967296 < 65537 * 65536) ∧
    (∃ st1, allocMem 1 65537 65536 (fresh 65537) 1 = some (Ptr.mk 0 4, st1)) ∧
    ∃ st st1, allocMemN 1 65537 65536 (fun _ => 1) 4294967296 = some st ∧
      allocMem 1 65537 65536 st 1 = some (Ptr.mk 0 4, st1) ∧
      Ptr.mk 0 4 ≠ Ptr.mk (4294967296 / 65536) (4294967296 % 65536 * (4 + 1) + 4) := by
  refine ⟨by decide, ?_, ?_⟩
  · obtain ⟨st, st1, h1, _, h3, _, _⟩ :=
      allocMemN_next 1 65537 65536 (fun _ => 1) (by decide) (fun _ => Nat.le_refl 1) 0
        (by decide)
    have h0 : st = fresh 65537 := by
      have : allocMemN 1 65537 65536 (fun _ => 1) 0 = some (fresh 65537) := rfl
      rw [this] at h1
      exact (Option.some.inj h1).symm
    have e : Ptr.mk (0 % 2 ^ 32 / 65536) (0 % 2 ^ 32 % 65536 * (4 + 1) + 4) = Ptr.mk 0 4 := by
      decide
    rw [e, h0] at h3
    exact ⟨st1, h3⟩
  · obtain ⟨st, st1, h1, _, h3, _, _⟩ :=
      allocMemN_next 1 65537 65536 (fun _ => 1) (by decide) (fun _ => Nat.le_refl 1) 4294967296
        (by decide)
    have e : Ptr.mk (4294967296 % 2 ^ 32 / 65536)
        (4294967296 % 2 ^ 32 % 65536 * (4 + 1) + 4) = Ptr.mk 0 4 := by decide
    rw [e] at h3
    exact ⟨st, st1, h1, h3, by decide⟩

/-- C10 (embedded index round trip): in every state reachable from a fresh pool, when
`allocMem` succeeds, handing out the page with index `idx` (the back of the free list,
refilled from the new chunk when it was empty), then for the returned `ptr`:
`page_idx(ptr) = idx`, `ptr = page_mem(idx, 4)`, that is chunk `idx / K` and slot
`idx % K`, and `mapped(ptr)` and `alloced(ptr)` are both true. -/
theorem allocMem_index_round_trip (S N K : Nat) (st st1 : FixedDynMemPool) (size : Nat)
    (ptr : Ptr) (hreach : Reachable S N K st)
    (h : allocMem S N K st size = some (ptr, st1)) (hnn : ptr ≠ Ptr.null) :
    ∃ idx, (if st.indcs = [] then newIndices K st.num_chunks else st.indcs).getLast? = some idx ∧
      st1.page_index = idx ∧
      page_idx st1 ptr = some idx ∧ page_mem S K st1 idx 4 = some ptr ∧
      ptr = Ptr.mk (idx / K) (idx % K * (4 + S) + 4) ∧
      mapped S K st1 ptr = some true ∧ alloced S K st1 ptr = some true := by
  obtain ⟨hsh, hu32⟩ := reachable_shaped S N K st hreach
  exact allocMem_round_trip_of_shaped S N K st st1 size ptr hsh hu32 h hnn

/-- Witness of C10: in `oneAllocated`, the state of `FixedDynMemPool<2, 2, 2>` after one
`allocMem`, the next `allocMem` hands out page 1 at offset 10 of chunk 0, and the 4 bytes
before it hold 1. -/
theorem allocMem_index_round_trip_witness :
    allocMem 2 2 2 oneAllocated 1 = some (Ptr.mk 0 10, twoAllocated) ∧
    ∃ idx, (if oneAllocated.indcs = [] then newIndices 2 oneAllocated.num_chunks
        else oneAllocated.indcs).getLast? = some idx ∧
      twoAllocated.page_index = idx ∧
      page_idx twoAllocated (Ptr.mk 0 10) = some idx ∧
      page_mem 2 2 twoAllocated idx 4 = some (Ptr.mk 0 10) ∧
      Ptr.mk 0 10 = Ptr.mk (idx / 2) (idx % 2 * (4 + 2) + 4) ∧
      mapped 2 2 twoAllocated (Ptr.mk 0 10) = some true ∧
      alloced 2 2 twoAllocated (Ptr.mk 0 10) = some true :=
  ⟨by decide, allocMem_index_round_trip 2 2 2 oneAllocated twoAllocated 1 (Ptr.mk 0 10)
    oneAllocated_reachable (by decide) (by decide)⟩

end FixedDynMemPool

namespace FixedDynMemPool

/-- C11 (reuse after free): in every state of valid use, for every allocated page `idx`,
with address `payload S K idx` and index bytes holding `idx`, and every `size ≤ S`:
`freeMem` on the address returns, the `allocMem` that follows returns that same address,
and the index bytes in front of it hold `idx` again.  This does not depend on the free list:
when it is empty and all `N` chunks are materialised, `allocMem` returns null before the
`freeMem` and the freed page after it. -/
theorem freeMem_then_allocMem (S N K : Nat) (st : FixedDynMemPool) (A : List Nat)
    (idx size : Nat) (hv : ValidUse S N K st A) (hidx : idx ∈ A) (hsize : size ≤ S) :
    page_idx st (payload S K idx) = some idx ∧
    (st.indcs = [] → st.num_chunks = N → allocMem S N K st size = some (Ptr.null, st)) ∧
    ∃ st1 st2, freeMem S N K st (payload S K idx) = some st1 ∧
      allocMem S N K st1 size = some (payload S K idx, st2) ∧
      page_idx st2 (payload S K idx) = some idx ∧ st2.page_index = idx := by
  have ht := validUse_tracked S N K st A hv
  obtain ⟨hK, hd, mem, mem1, hmem, hz, heq⟩ := freeMem_payload_eq S N K st A idx ht hidx
  have hsh1 := freeMem_shaped S N K st _ _ ht.1 ht.2.1 heq
  have hfirst : page_idx st (payload S K idx) = some idx := by
    rw [page_idx_payload, ht.2.2.2 idx (ht.2.2.1 idx hidx), if_pos hidx]
  have hnull : st.indcs = [] → st.num_chunks = N →
      allocMem S N K st size = some (Ptr.null, st) := by
    intro h1 h2
    rw [allocMem_eq S N K st size ht.1, if_pos h1, if_pos h2]
  have hlast : (st.indcs ++ [idx]).getLast? = some idx := by simp
  obtain ⟨m, m1, _, _, _, hpop⟩ := popPage_eq S N K _ size idx hK hsh1.1 hlast hsize hd
  have hne : st.indcs ++ [idx] ≠ [] := by simp
  have hal := allocMem_eq S N K _ size hsh1.1
  rw [if_neg hne, hpop] at hal
  obtain ⟨i, hl, hpix, hpi, _⟩ := popPage_round_trip S N K _ _ size _ hsh1.1 hsh1.2 hpop
  rw [hlast] at hl
  have hi : i = idx := (Option.some.inj hl).symm
  subst hi
  exact ⟨hfirst, hnull, _, _, heq, hal, hpi, hpix⟩

/-- Witness of C11: in `FixedDynMemPool<2, 1, 2>` with both pages handed out `allocMem`
returns null; after `freeMem` on page 0 the next `allocMem` returns page 0 again. -/
theorem freeMem_then_allocMem_witness :
    ValidUse 2 1 2 fullPool [1, 0] ∧ allocMem 2 1 2 fullPool 1 = some (Ptr.null, fullPool) ∧
    page_idx fullPool (payload 2 2 0) = some 0 ∧
    ∃ st1 st2, freeMem 2 1 2 fullPool (payload 2 2 0) = some st1 ∧
      allocMem 2 1 2 st1 1 = some (payload 2 2 0, st2) ∧
      page_idx st2 (payload 2 2 0) = some 0 ∧ st2.page_index = 0 :=
  ⟨fullPool_valid, by decide,
    (freeMem_then_allocMem 2 1 2 fullPool [1, 0] 0 1 fullPool_valid (by decide)
      (by decide)).1,
    (freeMem_then_allocMem 2 1 2 fullPool [1, 0] 0 1 fullPool_valid (by decide)
      (by decide)).2.2⟩

end FixedDynMemPool

/-- Counterexample to C12: with nothing on the free-index stack, `allocMem` followed by
`freeMem` of the returned address leaves both counters larger than before.  An empty
`DynMemPool<2>` goes from 0 and 0 to `alloc_size() = 2` and `freed_size() = 2`; a fresh
`FixedDynMemPool<2, 2, 2>` from 0 and 0 to 4 and 4 (a chunk of 2 pages is materialised); a
cleared `StaticMemPool<2, 4>` from 0 and 0 to 4 and 4. -/
theorem alloc_free_counters_grow :
    (DynMemPool.allocMem 2 DynMemPool.empty 1 =
        some (Ptr.mk 0 0, ⟨[[0, 0]], [], [(Ptr.mk 0 0, 0)], 0⟩) ∧
      DynMemPool.freeMem 2 ⟨[[0, 0]], [], [(Ptr.mk 0 0, 0)], 0⟩ (Ptr.mk 0 0) =
        some ⟨[[0, 0]], [0], [], 0⟩ ∧
      DynMemPool.alloc_size 2 DynMemPool.empty = 0 ∧
      DynMemPool.alloc_size 2 ⟨[[0, 0]], [0], [], 0⟩ = 2 ∧
      DynMemPool.freed_size 2 DynMemPool.empty = 0 ∧
      DynMemPool.freed_size 2 ⟨[[0, 0]], [0], [], 0⟩ = 2) ∧
    (FixedDynMemPool.allocMem 2 2 2 (FixedDynMemPool.fresh 2) 1 =
        some (Ptr.mk 0 4, FixedDynMemPool.oneAllocated) ∧
      FixedDynMemPool.freeMem 2 2 2 FixedDynMemPool.oneAllocated (Ptr.mk 0 4) =
        some FixedDynMemPool.oneFreed ∧
      FixedDynMemPool.alloc_size 2 2 (FixedDynMemPool.fresh 2) = 0 ∧
      FixedDynMemPool.alloc_size 2 2 FixedDynMemPool.oneFreed = 4 ∧
      FixedDynMemPool.freed_size 2 (FixedDynMemPool.fresh 2) = 0 ∧
      FixedDynMemPool.freed_size 2 FixedDynMemPool.oneFreed = 4) ∧
    (StaticMemPool.allocMem 2 4 (StaticMemPool.clear 2 4 StaticMemPool.uncleared) 1 =
        some (0, StaticMemPool.oneUsed) ∧
      StaticMemPool.freeMem 2 4 StaticMemPool.oneUsed 0 =
        some ⟨[0, 0, 0, 0, 0, 0, 0, 0], [0, 7], 1, 1, 0⟩ ∧
      StaticMemPool.alloc_size 4 (StaticMemPool.clear 2 4 StaticMemPool.uncleared) = 0 ∧
      StaticMemPool.alloc_size 4 ⟨[0, 0, 0, 0, 0, 0, 0, 0], [0, 7], 1, 1, 0⟩ = 4 ∧
      StaticMemPool.freed_size 4 (StaticMemPool.clear 2 4 StaticMemPool.uncleared) = 0 ∧
      StaticMemPool.freed_size 4 ⟨[0, 0, 0, 0, 0, 0, 0, 0], [0, 7], 1, 1, 0⟩ = 4) := by
  refine ⟨⟨?_, ?_, ?_, ?_, ?_, ?_⟩, ⟨?_, ?_, ?_, ?_, ?_, ?_⟩, ⟨?_, ?_, ?_, ?_, ?_, ?_⟩⟩ <;> decide

/-- C12 (counter round trip), amended: for each of the three pools, in every state of valid
use in which a freed page awaits reuse (`indcs` is not empty, for `StaticMemPool`
`free_page_count > 0`), when `allocMem(size)` returns, `freeMem` of the returned address
returns as well and leaves `alloc_size()` and `freed_size()` equal to the values they had
before the `allocMem` call. -/
theorem alloc_free_counters_reuse :
    (∀ (S : Nat) (st st1 : DynMemPool) (A : List Ptr) (size : Nat) (p : Ptr),
      DynMemPool.ValidUse S st A → st.indcs ≠ [] →
      DynMemPool.allocMem S st size = some (p, st1) →
      ∃ st2, DynMemPool.freeMem S st1 p = some st2 ∧
        DynMemPool.alloc_size S st2 = DynMemPool.alloc_size S st ∧
        DynMemPool.freed_size S st2 = DynMemPool.freed_size S st) ∧
    (∀ (S N K : Nat) (st st1 : FixedDynMemPool) (A : List Nat) (size : Nat) (p : Ptr),
      FixedDynMemPool.ValidUse S N K st A → st.indcs ≠ [] →
      FixedDynMemPool.allocMem S N K st size = some (p, st1) →
      ∃ st2, FixedDynMemPool.freeMem S N K st1 p = some st2 ∧
        FixedDynMemPool.alloc_size S K st2 = FixedDynMemPool.alloc_size S K st ∧
        FixedDynMemPool.freed_size S st2 = FixedDynMemPool.freed_size S st) ∧
    (∀ (N S : Nat) (st st1 : StaticMemPool) (A : List Nat) (size ofs : Nat),
      StaticMemPool.ValidUse N S st A → 0 < st.free_page_count →
      StaticMemPool.allocMem N S st size = some (ofs, st1) →
      ∃ st2, StaticMemPool.freeMem N S st1 ofs = some st2 ∧
        StaticMemPool.alloc_size S st2 = StaticMemPool.alloc_size S st ∧
        StaticMemPool.freed_size S st2 = StaticMemPool.freed_size S st) := by
  refine ⟨?_, ?_, ?_⟩
  · intro S st st1 A size p hv hne ha
    have hinv := DynMemPool.dyn_validUse_inv S st A hv
    obtain ⟨hinv1, _, _, i, hp, _, htab, _, hcase⟩ :=
      DynMemPool.dyn_allocMem_inv S st st1 A size p hinv ha
    rw [if_neg hne] at hcase
    have hm : DynMemPool.mapped st1 p = true :=
      tableFind_isSome _ _ ((List.Perm.mem_iff hinv1.2.1).2 (List.mem_cons_self _ _))
    obtain ⟨j, _, _, _, _, heq⟩ := DynMemPool.dyn_freeMem_eq S st1 (p :: A) p hinv1 hm
    refine ⟨_, heq, ?_, ?_⟩
    · simp [DynMemPool.alloc_size, hcase.2]
    · simp [DynMemPool.freed_size, hcase.1]
  · intro S N K st st1 A size p hv hne ha
    have ht := FixedDynMemPool.validUse_tracked S N K st A hv
    rw [FixedDynMemPool.allocMem_eq S N K st size ht.1, if_neg hne] at ha
    obtain ⟨ht1, hp, _⟩ := FixedDynMemPool.popPage_tracked S N K st st1 size p A ht ha
    obtain ⟨_, _, _, _, _, _, _, _, _, hind, hnc⟩ :=
      FixedDynMemPool.popPage_round_trip S N K st st1 size p ht.1 ht.2.1 ha
    obtain ⟨_, _, mem, mem1, _, _, heq⟩ :=
      FixedDynMemPool.freeMem_payload_eq S N K st1 (st1.page_index :: A) st1.page_index ht1
        (List.mem_cons_self _ _)
    rw [hp]
    refine ⟨_, heq, ?_, ?_⟩
    · simp [FixedDynMemPool.alloc_size, hnc]
    · have hlen : st.indcs.length ≠ 0 := fun hc => hne (List.length_eq_zero.1 hc)
      simp only [FixedDynMemPool.freed_size, hind, List.length_append, List.length_dropLast,
        List.length_singleton]
      congr 1
      omega
  · intro N S st st1 A size ofs hv hpos ha
    have hinv := StaticMemPool.static_validUse_inv N S st A hv
    have hS : 0 < S := hinv.2.2.2.2.2 hpos
    obtain ⟨hinv1, ho, _, _, _, _, hcase⟩ :=
      StaticMemPool.static_allocMem_inv N S st st1 A size ofs hinv ha
    rw [if_neg (by omega)] at hcase
    obtain ⟨pages1, _, heq⟩ := StaticMemPool.static_freeMem_eq N S st1
      (st1.curr_page_index :: A) st1.curr_page_index hinv1 (List.mem_cons_self _ _) hS
    rw [ho]
    refine ⟨_, heq, ?_, ?_⟩
    · simp [StaticMemPool.alloc_size, hcase.2.1]
    · simp only [StaticMemPool.freed_size, hcase.2.2]
      congr 1
      omega

/-- Witness of C12: in `DynMemPool.firstFreed`, `FixedDynMemPool.oneAllocated` and
`StaticMemPool.firstReleased` one page index is on the free stack; `allocMem` returns that
page, and after `freeMem` of it both counters are as before. -/
theorem alloc_free_counters_reuse_witness :
    (DynMemPool.ValidUse 2 DynMemPool.firstFreed [Ptr.mk 1 0] ∧
      DynMemPool.firstFreed.indcs ≠ [] ∧
      ∃ st2, DynMemPool.freeMem 2
          ⟨[[0, 0], [0, 0]], [], [(Ptr.mk 1 0, 1), (Ptr.mk 0 0, 0)], 0⟩ (Ptr.mk 0 0) =
            some st2 ∧
        DynMemPool.alloc_size 2 st2 = DynMemPool.alloc_size 2 DynMemPool.firstFreed ∧
        DynMemPool.freed_size 2 st2 = DynMemPool.freed_size 2 DynMemPool.firstFreed) ∧
    (FixedDynMemPool.ValidUse 2 2 2 FixedDynMemPool.oneAllocated [0] ∧
      FixedDynMemPool.oneAllocated.indcs ≠ [] ∧
      ∃ st2, FixedDynMemPool.freeMem 2 2 2 FixedDynMemPool.twoAllocated (Ptr.mk 0 10) =
            some st2 ∧
        FixedDynMemPool.alloc_size 2 2 st2 =
          FixedDynMemPool.alloc_size 2 2 FixedDynMemPool.oneAllocated ∧
        FixedDynMemPool.freed_size 2 st2 =
          FixedDynMemPool.freed_size 2 FixedDynMemPool.oneAllocated) ∧
    (StaticMemPool.ValidUse 2 4 StaticMemPool.firstReleased [1] ∧
      0 < StaticMemPool.firstReleased.free_page_count ∧
      ∃ st2, StaticMemPool.freeMem 2 4 ⟨[0, 0, 0, 0, 0, 0, 0, 0], [0, 7], 2, 0, 0⟩ 0 =
            some st2 ∧
        StaticMemPool.alloc_size 4 st2 =
          StaticMemPool.alloc_size 4 StaticMemPool.firstReleased ∧
        StaticMemPool.freed_size 4 st2 =
          StaticMemPool.freed_size 4 StaticMemPool.firstReleased) :=
  ⟨⟨DynMemPool.firstFreed_valid, by decide,
      alloc_free_counters_reuse.1 2 DynMemPool.firstFreed _ [Ptr.mk 1 0] 1 (Ptr.mk 0 0)
        DynMemPool.firstFreed_valid (by decide) (by decide)⟩,
    ⟨FixedDynMemPool.oneAllocated_valid, by decide,
      alloc_free_counters_reuse.2.1 2 2 2 FixedDynMemPool.oneAllocated
        FixedDynMemPool.twoAllocated [0] 1 (Ptr.mk 0 10) FixedDynMemPool.oneAllocated_valid
        (by decide) (by decide)⟩,
    ⟨StaticMemPool.firstReleased_valid, by decide,
      alloc_free_counters_reuse.2.2 2 4 StaticMemPool.firstReleased _ [1] 1 0
        StaticMemPool.firstReleased_valid (by decide) (by decide)⟩⟩

namespace DynMemPool

/-- C13 (free): in every state of valid use and for every address `p` with `mapped(p)` true,
`p` is the address of the page whose index `i` the table stores for it, `freeMem(p)`
returns, and after it `mapped(p)` is false, page `i` is `S` zero bytes, `i` is the back of
the free-index stack (`freed_size()` grew by `S`), the table is the old one without the
entry of `p`, so that `find` and `mapped` answer as before for every other address, and
every other page has the bytes it had. -/
theorem freeMem_unmaps_and_zeroes (S : Nat) (st : DynMemPool) (A : List Ptr) (p : Ptr)
    (hv : ValidUse S st A) (hm : mapped st p = true) :
    ∃ i st1, tableFind st.table p = some i ∧ p = Ptr.mk i 0 ∧ i < st.pages.length ∧
      freeMem S st p = some st1 ∧ mapped st1 p = false ∧
      st1.pages[i]? = some (List.replicate S 0) ∧
      st1.indcs.getLast? = some i ∧ st1.indcs = st.indcs ++ [i] ∧
      freed_size S st1 = freed_size S st + S ∧
      (∀ e, e ∈ st1.table ↔ e ∈ st.table ∧ e.1 ≠ p) ∧
      (∀ q, q ≠ p → tableFind st1.table q = tableFind st.table q) ∧
      (∀ q, q ≠ p → mapped st1 q = mapped st q) ∧
      st1.pages.length = st.pages.length ∧
      ∀ j, j ≠ i → st1.pages[j]? = st.pages[j]? := by
  have hinv := dyn_validUse_inv S st A hv
  obtain ⟨i, hfind, hp, hilt, _, heq⟩ := dyn_freeMem_eq S st A p hinv hm
  refine ⟨i, _, hfind, hp, hilt, heq, ?_, ?_, ?_, rfl, ?_, ?_, ?_, ?_, ?_, ?_⟩
  · simp [mapped, tableFind_erase_self]
  · simp [List.getElem?_set, hilt]
  · simp
  · simp [freed_size, Nat.add_mul]
  · intro e
    simp [tableErase, List.mem_filter]
  · intro q hq
    exact tableFind_erase_other st.table p q hq
  · intro q hq
    simp only [mapped]
    rw [tableFind_erase_other st.table p q hq]
  · simp
  · intro j hj
    simp [List.getElem?_set, Ne.symm hj]

/-- Witness of C13: in `twoPages`, a pool `DynMemPool<2>` whose page 0 holds the bytes 7, 9,
`freeMem` on the address of page 0 gives `firstFreed`: page 0 is zero, the address is not
mapped any more, page 1 and its table entry are as before. -/
theorem freeMem_unmaps_and_zeroes_witness :
    ValidUse 2 twoPages [Ptr.mk 1 0, Ptr.mk 0 0] ∧ mapped twoPages (Ptr.mk 0 0) = true ∧
    twoPages.pages[0]? = some [7, 9] ∧
    ∃ i st1, tableFind twoPages.table (Ptr.mk 0 0) = some i ∧ Ptr.mk 0 0 = Ptr.mk i 0 ∧
      i < twoPages.pages.length ∧
      freeMem 2 twoPages (Ptr.mk 0 0) = some st1 ∧ mapped st1 (Ptr.mk 0 0) = false ∧
      st1.pages[i]? = some (List.replicate 2 0) ∧
      st1.indcs.getLast? = some i ∧ st1.indcs = twoPages.indcs ++ [i] ∧
      freed_size 2 st1 = freed_size 2 twoPages + 2 ∧
      (∀ e, e ∈ st1.table ↔ e ∈ twoPages.table ∧ e.1 ≠ Ptr.mk 0 0) ∧
      (∀ q, q ≠ Ptr.mk 0 0 → tableFind st1.table q = tableFind twoPages.table q) ∧
      (∀ q, q ≠ Ptr.mk 0 0 → mapped st1 q = mapped twoPages q) ∧
      st1.pages.length = twoPages.pages.length ∧
      ∀ j, j ≠ i → st1.pages[j]? = twoPages.pages[j]? :=
  ⟨twoPages_valid, by decide, by decide,
    freeMem_unmaps_and_zeroes 2 twoPages [Ptr.mk 1 0, Ptr.mk 0 0] (Ptr.mk 0 0) twoPages_valid
      (by decide)⟩

/-- C14 (page-table invariant): for a page size `S > 0`, in every state reached from an
empty pool by `allocMem` and by `freeMem` on mapped addresses (and by the client storing
bytes in pages it holds), with `A` the addresses that are allocated: they are pairwise
distinct and are exactly the keys of the table, every entry maps the address of a page to
the index of that very page, the number of entries is `pages.size() - indcs.size()`, the
indices in the table together with those on the free stack are `0 .. pages.size() - 1`,
each once, `mapped` is true exactly for the allocated addresses, `freeMem` returns for each
of them, `allocMem` returns for every size up to `S`, and an address `allocMem` returns was
neither mapped nor allocated before. -/
theorem page_table_invariant (S : Nat) (st : DynMemPool) (A : List Ptr) :
    0 < S → ValidUse S st A →
    A.Nodup ∧ (st.table.map Prod.fst).Perm A ∧
    (∀ e ∈ st.table, e.1 = Ptr.mk e.2 0 ∧ e.2 < st.pages.length) ∧
    st.table.length = st.pages.length - st.indcs.length ∧
    (st.table.map Prod.snd ++ st.indcs).Perm (List.range st.pages.length) ∧
    (∀ p, mapped st p = true ↔ p ∈ A) ∧
    (∀ p, mapped st p = true → ∃ st1, freeMem S st p = some st1) ∧
    (∀ size, size ≤ S → ∃ p st1, allocMem S st size = some (p, st1)) ∧
    (∀ size p st1, allocMem S st size = some (p, st1) → mapped st p = false ∧ p ∉ A) := by
  intro _ hv
  have hinv := dyn_validUse_inv S st A hv
  obtain ⟨hvn, hvlt⟩ := tableInv_values S st A hinv
  obtain ⟨hnd, hk, he, hperm, hpg⟩ := hinv
  refine ⟨hnd, hk, ?_, ?_, hperm, ?_, ?_, ?_, ?_⟩
  · intro e hmem
    exact ⟨he e hmem, hvlt _ (List.mem_append_left _ (List.mem_map_of_mem Prod.snd hmem))⟩
  · have := hperm.length_eq
    simp only [List.length_append, List.length_map, List.length_range] at this
    omega
  · intro p
    constructor
    · intro hm
      exact (dyn_freeMem_eq S st A p ⟨hnd, hk, he, hperm, hpg⟩ hm).choose_spec.2.2.2.1
    · intro hA
      exact tableFind_isSome _ _ ((List.Perm.mem_iff hk).2 hA)
  · intro p hm
    obtain ⟨i, _, _, _, _, heq⟩ := dyn_freeMem_eq S st A p ⟨hnd, hk, he, hperm, hpg⟩ hm
    exact ⟨_, heq⟩
  · intro size hs
    by_cases hnil : st.indcs = []
    · simp [allocMem, hs, hnil]
    · obtain ⟨ys, i, hyi⟩ : ∃ ys i, st.indcs = ys ++ [i] := by
        rcases List.eq_nil_or_concat st.indcs with h1 | ⟨ys, i, h1⟩
        · exact absurd h1 hnil
        · exact ⟨ys, i, by simpa using h1⟩
      have hilt : i < st.pages.length :=
        hvlt i (List.mem_append_right _ (by rw [hyi]; simp))
      have hpop : VectorBackPop st.indcs = some (i, ys) := by
        simp [VectorBackPop, hyi]
      simp [allocMem, hs, hnil, hpop, hilt]
  · intro size p st1 ha
    have := dyn_allocMem_inv S st st1 A size p ⟨hnd, hk, he, hperm, hpg⟩ ha
    exact ⟨this.2.1, this.2.2.1⟩

/-- Witness of C14: `firstFreed`, the pool `DynMemPool<2>` after two `allocMem` and
`freeMem` on the first page: the table holds the entry of page 1, the free stack page 0. -/
theorem page_table_invariant_witness :
    0 < 2 ∧ ValidUse 2 firstFreed [Ptr.mk 1 0] ∧ firstFreed.table = [(Ptr.mk 1 0, 1)] ∧
    firstFreed.indcs = [0] ∧ firstFreed.pages.length = 2 ∧
    ([Ptr.mk 1 0].Nodup ∧ (firstFreed.table.map Prod.fst).Perm [Ptr.mk 1 0] ∧
    (∀ e ∈ firstFreed.table, e.1 = Ptr.mk e.2 0 ∧ e.2 < firstFreed.pages.length) ∧
    firstFreed.table.length = firstFreed.pages.length - firstFreed.indcs.length ∧
    (firstFreed.table.map Prod.snd ++ firstFreed.indcs).Perm
      (List.range firstFreed.pages.length) ∧
    (∀ p, mapped firstFreed p = true ↔ p ∈ [Ptr.mk 1 0]) ∧
    (∀ p, mapped firstFreed p = true → ∃ st1, freeMem 2 firstFreed p = some st1) ∧
    (∀ size, size ≤ 2 → ∃ p st1, allocMem 2 firstFreed size = some (p, st1)) ∧
    (∀ size p st1, allocMem 2 firstFreed size = some (p, st1) →
      mapped firstFreed p = false ∧ p ∉ [Ptr.mk 1 0])) :=
  ⟨by decide, firstFreed_valid, rfl, rfl, rfl,
    page_table_invariant 2 firstFreed [Ptr.mk 1 0] (by decide) firstFreed_valid⟩

end DynMemPool

namespace StaticMemPool

/-- C15 (exhaustion test): in every state reached from `clear()` by `allocMem` calls made
while `can_alloc()` is true, by `freeMem` calls on allocated pages (and by the client storing
bytes in pages it holds), with `A` the indices of the allocated pages:
`free_page_count ≤ used_page_count ≤ N`, the allocated pages are
`used_page_count - free_page_count` distinct pages with index below `N`, and `can_alloc()` is
false exactly when `used_page_count - free_page_count = N`, that is when all `N` pages are
allocated.  These calls return: `allocMem` for every size up to `S` while `can_alloc()` is
true, `freeMem` for every allocated page when `S > 0`. -/
theorem can_alloc_false_iff_exhausted (N S : Nat) (st : StaticMemPool) (A : List Nat)
    (hv : ValidUse N S st A) :
    st.free_page_count ≤ st.used_page_count ∧ st.used_page_count ≤ N ∧
    A.Nodup ∧ (∀ i ∈ A, i < N) ∧ A.length = st.used_page_count - st.free_page_count ∧
    (can_alloc N st = false ↔ st.used_page_count - st.free_page_count = N) ∧
    (can_alloc N st = false ↔ A.length = N) ∧
    (∀ size, size ≤ S → can_alloc N st = true →
      ∃ ofs st1, allocMem N S st size = some (ofs, st1)) ∧
    (0 < S → ∀ i ∈ A, ∃ st1, freeMem N S st (i * S) = some st1) := by
  have hinv := static_validUse_inv N S st A hv
  obtain ⟨hnd, hlt, hcount⟩ := countInv_bounds N S st A hinv
  obtain ⟨hl, hp, hfu, huN, hperm, hS⟩ := hinv
  have hiff : can_alloc N st = false ↔ st.used_page_count - st.free_page_count = N := by
    simp only [can_alloc, Bool.or_eq_false_iff, decide_eq_false_iff_not]
    omega
  refine ⟨hfu, huN, (List.nodup_append.1 hnd).1, ?_, by omega, hiff, ?_, ?_, ?_⟩
  · intro i hi
    have := hlt i (List.mem_append_left _ hi)
    omega
  · rw [hiff]; omega
  · intro size hs hc
    by_cases hf : st.free_page_count = 0
    · have hu : st.used_page_count < N := by
        simp only [can_alloc, Bool.or_eq_true, decide_eq_true_eq] at hc
        omega
      simp [allocMem, hs, hc, hf, hu]
    · have hfpos : 0 < st.free_page_count := Nat.pos_of_ne_zero hf
      have hidx : st.free_page_count - 1 < st.indcs.length := by omega
      have hget : st.indcs[st.free_page_count - 1]? =
          some (st.indcs.get ⟨st.free_page_count - 1, hidx⟩) := by
        simp [List.getElem?_eq_getElem, hidx]
      have htake := take_pred_last st.indcs st.free_page_count _ hfpos hget
      have hiu := hlt _ (List.mem_append_right A
        (by rw [htake]; exact List.mem_append_right _ (List.mem_singleton_self _)))
      have hiN : st.indcs.get ⟨st.free_page_count - 1, hidx⟩ < N := by omega
      simp only [allocMem, hs, hc, hf, hget, hiN, not_true_eq_false, if_false, if_true]
      exact ⟨_, _, rfl⟩
  · intro hSpos i hi
    obtain ⟨pages1, _, heq⟩ := static_freeMem_eq N S st A i ⟨hl, hp, hfu, huN, hperm, hS⟩ hi hSpos
    exact ⟨_, heq⟩

/-- Witness of C15: `bothUsed`, the pool `StaticMemPool<2, 4>` after `clear()` and two
`allocMem`: both pages are allocated and `can_alloc()` is false. -/
theorem can_alloc_false_iff_exhausted_witness :
    ValidUse 2 4 bothUsed [1, 0] ∧ can_alloc 2 bothUsed = false ∧
    (bothUsed.free_page_count ≤ bothUsed.used_page_count ∧ bothUsed.used_page_count ≤ 2 ∧
    [1, 0].Nodup ∧ (∀ i ∈ [1, 0], i < 2) ∧
    [1, 0].length = bothUsed.used_page_count - bothUsed.free_page_count ∧
    (can_alloc 2 bothUsed = false ↔ bothUsed.used_page_count - bothUsed.free_page_count = 2) ∧
    (can_alloc 2 bothUsed = false ↔ [1, 0].length = 2) ∧
    (∀ size, size ≤ 4 → can_alloc 2 bothUsed = true →
      ∃ ofs st1, allocMem 2 4 bothUsed size = some (ofs, st1)) ∧
    (0 < 4 → ∀ i ∈ [1, 0], ∃ st1, freeMem 2 4 bothUsed (i * 4) = some st1)) :=
  ⟨bothUsed_valid, by decide, can_alloc_false_iff_exhausted 2 4 bothUsed [1, 0] bothUsed_valid⟩

/-- C16 (pointer validity check), the code at the failing input: for `StaticMemPool<2, 4>`,
whose pages are at the offsets 0 and 4 of 8 bytes, `mapped` is true for the address at
offset 8, behind the last page (8 / 4 = 2 is not below `N = 2`, it is below
`total_size() = 8`), and still true at offset 28, false from offset 32 on.  In `bothUsed`,
where both pages are allocated, both assertions of `freeMem` hold for the address at
offset 8, whose 4 bytes lie outside the array `pages`. -/
theorem mapped_true_behind_last_page :
    mapped 2 4 8 = some true ∧ 8 % 4 = 0 ∧ ¬ 8 / 4 < 2 ∧ total_size 2 4 = 8 ∧
    mapped 2 4 28 = some true ∧ mapped 2 4 32 = some false ∧
    ValidUse 2 4 bothUsed [1, 0] ∧ can_free 2 bothUsed = true ∧
    bothUsed.pages.length = 8 ∧ zeroFill bothUsed.pages 8 4 = none :=
  ⟨by decide, by decide, by decide, by decide, by decide, by decide, bothUsed_valid,
    by decide, by decide, by decide⟩

end StaticMemPool

namespace FixedDynMemPool

/-- C17 (membership query), the code at the failing input: in `FixedDynMemPool<2, 2, 2>`
after one `allocMem`, which hands out page 0, `mapped` is true for the address of page 0
and false for the address of the free page 1; `freeMem` on the address of page 0 returns
and leaves no page allocated, and `mapped` still answers true for that address. -/
theorem mapped_true_after_freeMem :
    ValidUse 2 2 2 oneAllocated [0] ∧
    mapped 2 2 oneAllocated (payload 2 2 0) = some true ∧
    mapped 2 2 oneAllocated (payload 2 2 1) = some false ∧
    freeMem 2 2 2 oneAllocated (payload 2 2 0) = some oneFreed ∧
    ValidUse 2 2 2 oneFreed [] ∧
    page_idx oneFreed (payload 2 2 0) = some 0 ∧
    mapped 2 2 oneFreed (payload 2 2 0) = some true :=
  ⟨oneAllocated_valid, by decide, by decide, by decide,
    ValidUse.freeMem 0 oneAllocated_valid (by decide) (by decide), by decide, by decide⟩

end FixedDynMemPool
namespace StablePosAllocator

variable {α : Type} [Inhabited α]

/-- C18 (Reset), the code at the failing input: a fresh allocator is reachable and has no
gap; `CompactGaps` then steps back from `end()` of the empty `positionToSize`, which is
undefined, and so is `Reset`.  The same state is reached by `Allocate(5)` and the tail
free `Free(0, 5)`.  With a gap, as in the state with the one gap `(0, 10)` in 10 elements,
`Reset` ends with everything empty. -/
theorem reset_undefined_without_gaps :
    Reachable compactionTrigger (empty : StablePosAllocator Unit) ∧
    (empty : StablePosAllocator Unit).positionToSize = [] ∧
    CompactGaps (empty : StablePosAllocator Unit) = none ∧
    Reset (empty : StablePosAllocator Unit) = none ∧
    Free compactionTrigger (Allocate (empty : StablePosAllocator Unit) 5 false).2 0 5 =
      some (empty, sentinel) ∧
    Reset (⟨List.replicate 10 (), [(10, 0)], [(0, 10)]⟩ : StablePosAllocator Unit) =
      some empty :=
  ⟨Reachable.empty, rfl, by decide, by decide, by decide, by decide⟩

/-- C19 (middle-range reuse), amended with `a + b + c < 2 ^ 64`: for `a, b, c > 0` with
`a + b + c < 2 ^ 64`, on an empty allocator `Allocate(a)`,
`Allocate(b)`, `Allocate(c)` return `0`, `a`, `a + b`; after `Free(a, b)` the only gap is
`(a, b)` and `GetSize()` is `a + b + c`; then `Allocate(b)` returns `a`, leaves `GetSize()`
at `a + b + c` and both gap indices empty.  This holds for every answer of the compaction
test and every value of the mutex flags. -/
theorem middle_range_reuse (trig : Nat → Nat → Bool) (a b c : Nat) (m1 m2 m3 m4 : Bool)
    (ha : 0 < a) (hb : 0 < b) (hc : 0 < c) (hsum : a + b + c < 2 ^ 64) :
    ∃ st1 st2 st3 st4 st5 : StablePosAllocator α,
      Allocate empty a m1 = (0, st1) ∧ Allocate st1 b m2 = (a, st2) ∧
      Allocate st2 c m3 = (a + b, st3) ∧
      Free trig st3 a b = some (st4, sentinel) ∧
      st4.positionToSize = [(a, b)] ∧ st4.sizeToPositions = [(b, a)] ∧
      GetSize st4 = a + b + c ∧
      Allocate st4 b m4 = (a, st5) ∧ GetSize st5 = a + b + c ∧
      st5.positionToSize = [] ∧ st5.sizeToPositions = [] := by
  have e1 := Allocate_no_gaps ([] : List α) a ha m1
    (by simp only [List.length_nil]; omega)
  have l1 : (vecResize ([] : List α) (([] : List α).length + a)).length = a := by
    rw [vecResize_length]; simp
  have e2 := Allocate_no_gaps (vecResize ([] : List α) (([] : List α).length + a)) b hb m2
    (by rw [l1]; omega)
  rw [l1] at e2
  have l2 : (vecResize (vecResize ([] : List α) (([] : List α).length + a)) (a + b)).length =
      a + b := vecResize_length _ _
  have e3 := Allocate_no_gaps
    (vecResize (vecResize ([] : List α) (([] : List α).length + a)) (a + b)) c hc m3
    (by rw [l2]; omega)
  rw [l2] at e3
  have l3 : (vecResize (vecResize (vecResize ([] : List α) (([] : List α).length + a))
      (a + b)) (a + b + c)).length = a + b + c := vecResize_length _ _
  have e4 := Free_first_gap trig (vecResize (vecResize (vecResize ([] : List α)
      (([] : List α).length + a)) (a + b)) (a + b + c)) a b hb (by rw [l3]; omega)
  have e5 := Allocate_exact_gap (vecResize (vecResize (vecResize ([] : List α)
      (([] : List α).length + a)) (a + b)) (a + b + c)) a b hb m4
  exact ⟨_, _, _, _, _, e1, e2, e3, e4, rfl, rfl, l3, e5, l3, rfl, rfl⟩

/-- Witness of C19 (amended): the ranges `[0, 10)`, `[10, 15)`, `[15, 25)`, the middle one
freed and allocated again at position 10, with the binary32 compaction test. -/
theorem middle_range_reuse_witness :
    (Allocate middleFreed 5 false =
      (10, { data := List.replicate 25 (), sizeToPositions := [], positionToSize := [] })) ∧
    10 + 5 + 10 < 2 ^ 64 ∧
    ∃ st1 st2 st3 st4 st5 : StablePosAllocator Unit,
      Allocate empty 10 false = (0, st1) ∧ Allocate st1 5 false = (10, st2) ∧
      Allocate st2 10 false = (10 + 5, st3) ∧
      Free compactionTrigger st3 10 5 = some (st4, sentinel) ∧
      st4.positionToSize = [(10, 5)] ∧ st4.sizeToPositions = [(5, 10)] ∧
      GetSize st4 = 10 + 5 + 10 ∧
      Allocate st4 5 false = (10, st5) ∧ GetSize st5 = 10 + 5 + 10 ∧
      st5.positionToSize = [] ∧ st5.sizeToPositions = [] :=
  ⟨by decide, by decide, middle_range_reuse compactionTrigger 10 5 10 false false false false
    (by decide) (by decide) (by decide) (by decide)⟩

/-- Counterexample to C19 as stated, at `a = b = 1`, `c = 2 ^ 64 - 1`: `Allocate(1)`,
`Allocate(1)`, `Allocate(2 ^ 64 - 1)` return 0, 1, 2, but the size `2 + (2 ^ 64 - 1)` of the
third call is 1 as a `size_t`, so 1 element is left; `Free(1, 1)` then fails its `assert`,
whatever the compaction test answers, and no gap `(1, 1)` is recorded. -/
theorem middle_range_overflows :
    0 < 2 ^ 64 - 1 ∧
    Allocate (empty : StablePosAllocator Unit) 1 false = (0, ⟨[()], [], []⟩) ∧
    Allocate (⟨[()], [], []⟩ : StablePosAllocator Unit) 1 false = (1, ⟨[(), ()], [], []⟩) ∧
    Allocate (⟨[(), ()], [], []⟩ : StablePosAllocator Unit) (2 ^ 64 - 1) false =
      (1 + 1, ⟨[()], [], []⟩) ∧
    GetSize (⟨[()], [], []⟩ : StablePosAllocator Unit) = 1 ∧
    (∀ trig, Free trig (⟨[()], [], []⟩ : StablePosAllocator Unit) 1 1 = none) ∧
    ¬ ∃ st1 st2 st3 st4 : StablePosAllocator Unit,
      Allocate empty 1 false = (0, st1) ∧ Allocate st1 1 false = (1, st2) ∧
      Allocate st2 (2 ^ 64 - 1) false = (1 + 1, st3) ∧
      Free compactionTrigger st3 1 1 = some (st4, sentinel) ∧
      GetSize st4 = 1 + 1 + (2 ^ 64 - 1) := by
  have h1 : Allocate (empty : StablePosAllocator Unit) 1 false = (0, ⟨[()], [], []⟩) := by
    decide
  have h2 : Allocate (⟨[()], [], []⟩ : StablePosAllocator Unit) 1 false =
      (1, ⟨[(), ()], [], []⟩) := by decide
  have h3 : Allocate (⟨[(), ()], [], []⟩ : StablePosAllocator Unit) (2 ^ 64 - 1) false =
      (1 + 1, ⟨[()], [], []⟩) := by decide
  have h4 : ∀ trig, Free trig (⟨[()], [], []⟩ : StablePosAllocator Unit) 1 1 = none := by
    intro trig
    simp [Free]
  refine ⟨by decide, h1, h2, h3, rfl, h4, ?_⟩
  rintro ⟨st1, st2, st3, st4, e1, e2, e3, e4, _⟩
  rw [h1] at e1
  simp only [Prod.mk.injEq, true_and] at e1
  subst e1
  rw [h2] at e2
  simp only [Prod.mk.injEq, true_and] at e2
  subst e2
  rw [h3] at e3
  simp only [Prod.mk.injEq, true_and] at e3
  subst e3
  rw [h4] at e4
  simp at e4

/-- C20 (adjacent-gap merge): for `p, x, y, q > 0` with `p + x + y + q < 40`, with the
compaction test of the source in binary32 arithmetic (it answers true for 1 and for 2 gaps
in fewer than 40 elements), on an empty allocator after
`Allocate(p)`, `Allocate(x)`, `Allocate(y)`, `Allocate(q)`, `Free(p, x)`, `Free(p + x, y)`
both gap indices hold exactly the gap `(p, x + y)`; then `Allocate(x + y)` returns `p`,
`GetSize()` is still `p + x + y + q` and no gap is left. -/
theorem adjacent_gaps_merge (p x y q : Nat) (m1 m2 m3 m4 m5 : Bool)
    (hp : 0 < p) (hx : 0 < x) (hy : 0 < y) (hq : 0 < q) (hsum : p + x + y + q < 40) :
    ∃ st1 st2 st3 st4 st5 st6 st7 : StablePosAllocator α,
      Allocate empty p m1 = (0, st1) ∧ Allocate st1 x m2 = (p, st2) ∧
      Allocate st2 y m3 = (p + x, st3) ∧ Allocate st3 q m4 = (p + x + y, st4) ∧
      GetSize st4 = p + x + y + q ∧
      compactionTrigger 1 (p + x + y + q) = true ∧ compactionTrigger 2 (p + x + y + q) = true ∧
      Free compactionTrigger st4 p x = some (st5, sentinel) ∧
      Free compactionTrigger st5 (p + x) y = some (st6, sentinel) ∧
      st6.positionToSize = [(p, x + y)] ∧ st6.sizeToPositions = [(x + y, p)] ∧
      GetSize st6 = p + x + y + q ∧
      Allocate st6 (x + y) m5 = (p, st7) ∧ GetSize st7 = p + x + y + q ∧
      st7.positionToSize = [] ∧ st7.sizeToPositions = [] := by
  have e1 := Allocate_no_gaps ([] : List α) p hp m1
    (by simp only [List.length_nil]; omega)
  have l1 : (vecResize ([] : List α) (([] : List α).length + p)).length = p := by
    rw [vecResize_length]; simp
  have e2 := Allocate_no_gaps (vecResize ([] : List α) (([] : List α).length + p)) x hx m2
    (by rw [l1]; omega)
  rw [l1] at e2
  have l2 := vecResize_length (vecResize ([] : List α) (([] : List α).length + p)) (p + x)
  have e3 := Allocate_no_gaps
    (vecResize (vecResize ([] : List α) (([] : List α).length + p)) (p + x)) y hy m3
    (by rw [l2]; omega)
  rw [l2] at e3
  have l3 := vecResize_length
    (vecResize (vecResize ([] : List α) (([] : List α).length + p)) (p + x)) (p + x + y)
  have e4 := Allocate_no_gaps (vecResize
    (vecResize (vecResize ([] : List α) (([] : List α).length + p)) (p + x)) (p + x + y)) q hq m4
    (by rw [l3]; omega)
  rw [l3] at e4
  have l4 := vecResize_length (vecResize
    (vecResize (vecResize ([] : List α) (([] : List α).length + p)) (p + x)) (p + x + y))
    (p + x + y + q)
  have e5 := Free_first_gap compactionTrigger (vecResize (vecResize
    (vecResize (vecResize ([] : List α) (([] : List α).length + p)) (p + x)) (p + x + y))
    (p + x + y + q)) p x hx (by rw [l4]; omega)
  have e6 := Free_second_gap compactionTrigger (vecResize (vecResize
    (vecResize (vecResize ([] : List α) (([] : List α).length + p)) (p + x)) (p + x + y))
    (p + x + y + q)) p x y hx hy (by rw [l4]; omega)
    (by rw [l4]; exact (compactionTrigger_small _ hsum).2)
  have e7 := Allocate_exact_gap (vecResize (vecResize
    (vecResize (vecResize ([] : List α) (([] : List α).length + p)) (p + x)) (p + x + y))
    (p + x + y + q)) p (x + y) (by omega) m5
  exact ⟨_, _, _, _, _, _, _, e1, e2, e3, e4, l4, (compactionTrigger_small _ hsum).1,
    (compactionTrigger_small _ hsum).2, e5, e6, rfl, rfl, l4, e7, l4, rfl, rfl⟩

/-- Witness of C20: the ranges of sizes 10, 5, 5, 10; the gaps `(10, 5)` and `(15, 5)`
become `(10, 10)`, and a request of 10 elements is served at position 10. -/
theorem adjacent_gaps_merge_witness :
    (compactionTrigger 2 30 = true ∧
      Free compactionTrigger
          (⟨List.replicate 30 (), [(5, 10)], [(10, 5)]⟩ : StablePosAllocator Unit) 15 5 =
        some (⟨List.replicate 30 (), [(10, 10)], [(10, 10)]⟩, sentinel)) ∧
    ∃ st1 st2 st3 st4 st5 st6 st7 : StablePosAllocator Unit,
      Allocate empty 10 false = (0, st1) ∧ Allocate st1 5 false = (10, st2) ∧
      Allocate st2 5 false = (10 + 5, st3) ∧ Allocate st3 10 false = (10 + 5 + 5, st4) ∧
      GetSize st4 = 10 + 5 + 5 + 10 ∧
      compactionTrigger 1 (10 + 5 + 5 + 10) = true ∧
      compactionTrigger 2 (10 + 5 + 5 + 10) = true ∧
      Free compactionTrigger st4 10 5 = some (st5, sentinel) ∧
      Free compactionTrigger st5 (10 + 5) 5 = some (st6, sentinel) ∧
      st6.positionToSize = [(10, 5 + 5)] ∧ st6.sizeToPositions = [(5 + 5, 10)] ∧
      GetSize st6 = 10 + 5 + 5 + 10 ∧
      Allocate st6 (5 + 5) false = (10, st7) ∧ GetSize st7 = 10 + 5 + 5 + 10 ∧
      st7.positionToSize = [] ∧ st7.sizeToPositions = [] :=
  ⟨by decide, adjacent_gaps_merge 10 5 5 10 false false false false false (by decide)
    (by decide) (by decide) (by decide) (by decide)⟩

end StablePosAllocator

namespace FixedDynMemPool

/-- Counterexample to C21: in `FixedDynMemPool<1, 65537, 65536>` the state after `2 ^ 32`
calls of `allocMem` is a state of valid use in which page 0 is allocated; the next
`allocMem` materialises the last chunk, whose indices are cast to `uint32_t`, and returns
the address of page 0 again; after it the free list holds the index 1, and page 1 is
allocated as well. -/
theorem allocMem_hands_out_allocated_page :
    ∃ (st st1 : FixedDynMemPool) (A : List Nat),
      ValidUse 1 65537 65536 st A ∧ 0 ∈ A ∧ 1 ∈ A ∧
      allocMem 1 65537 65536 st 1 = some (payload 1 65536 0, st1) ∧
      ValidUse 1 65537 65536 st1 (0 :: A) ∧ 1 ∈ st1.indcs := by
  obtain ⟨st, h1, h2, hv⟩ := allocMemN_validUse 1 65537 65536 (fun _ => 1) (by decide)
    (fun _ => Nat.le_refl 1) 4294967296 (by decide)
  obtain ⟨st1, h3, h4, h5⟩ := allocMem_step 1 65537 65536 4294967296 st 1 (by decide) h2
    (by decide) (Nat.le_refl 1)
  have e : Ptr.mk (4294967296 % 2 ^ 32 / 65536) (4294967296 % 2 ^ 32 % 65536 * (4 + 1) + 4) =
      payload 1 65536 0 := by decide
  have e5 : (4294967296 : Nat) % 2 ^ 32 = 0 := by decide
  rw [e] at h3
  rw [e5] at h5
  have hv1 := ValidUse.allocMem 1 _ hv h3 (by decide)
  rw [h5] at hv1
  refine ⟨st, st1, _, hv, ?_, ?_, h3, hv1, ?_⟩
  · exact List.mem_map.2 ⟨0, by simp, by decide⟩
  · exact List.mem_map.2 ⟨1, by simp, by decide⟩
  · obtain ⟨_, hlo, hhi, hind, _⟩ := h4
    have hnc : st1.num_chunks = 65537 := by omega
    rw [hind, hnc]
    exact List.mem_map.2 ⟨65534, by simp, by decide⟩

/-- C21 (index bound), amended with `N * K ≤ 2 ^ 32`: in every state of valid use, with `A`
the indices of the allocated pages, `num_chunks * K ≤ N * K`, every free-list entry and
every allocated index is below `num_chunks * K`, the index bytes of an allocated page hold
its index, the free-list entries are pairwise distinct and none of them is allocated.  So
the chunk `idx / K` that `page_mem` looks up for a free or an allocated index is
materialised, and the page a successful `allocMem` hands out was not allocated. -/
theorem index_bound_invariant (S N K : Nat) (st : FixedDynMemPool) (A : List Nat)
    (hNK : N * K ≤ 2 ^ 32) (hv : ValidUse S N K st A) :
    st.num_chunks * K ≤ N * K ∧
    (∀ x ∈ st.indcs, x < st.num_chunks * K) ∧
    (∀ idx ∈ A, idx < st.num_chunks * K ∧ page_idx st (payload S K idx) = some idx) ∧
    st.indcs.Nodup ∧ (∀ x ∈ st.indcs, x ∉ A) ∧
    (∀ idx, idx ∈ st.indcs ∨ idx ∈ A →
      idx / K < st.num_chunks ∧ (∃ mem, chunkMem st (idx / K) = some mem) ∧
      page_mem S K st idx 0 = some (Ptr.mk (idx / K) (idx % K * (4 + S)))) ∧
    (∀ size p st1, allocMem S N K st size = some (p, st1) → p ≠ Ptr.null →
      p = payload S K st1.page_index ∧ st1.page_index ∉ A) := by
  have ht := validUse_tracked S N K st A hv
  have hperm := validUse_partition S N K st A hNK hv
  have hnd : (A ++ st.indcs).Nodup := (List.Perm.nodup_iff hperm).2 (List.nodup_range _)
  have hlt : ∀ x ∈ A ++ st.indcs, x < st.num_chunks * K := fun x hx =>
    List.mem_range.1 ((List.Perm.mem_iff hperm).1 hx)
  refine ⟨Nat.mul_le_mul_right K ht.1.2.1, fun x hx => hlt x (List.mem_append_right _ hx),
    ?_, (List.nodup_append.1 hnd).2.1, ?_, ?_, ?_⟩
  · intro idx hidx
    have h1 := ht.2.2.1 idx hidx
    refine ⟨h1, ?_⟩
    rw [page_idx_payload, ht.2.2.2 idx h1, if_pos hidx]
  · intro x hx hxA
    exact (List.nodup_append.1 hnd).2.2 hxA hx
  · intro idx hidx
    have h1 : idx < st.num_chunks * K := by
      rcases hidx with h | h
      · exact hlt idx (List.mem_append_right _ h)
      · exact hlt idx (List.mem_append_left _ h)
    have hK : 0 < K := by
      rcases Nat.eq_zero_or_pos K with h | h
      · subst h; simp at h1
      · exact h
    have hK0 : K ≠ 0 := by omega
    have hd : idx / K < st.num_chunks := (Nat.div_lt_iff_lt_mul hK).2 h1
    obtain ⟨mem, hmem, _⟩ := chunkMem_of_shaped S N K st ht.1 (idx / K) hd
    exact ⟨hd, ⟨mem, hmem⟩, by simp [page_mem, hK0, hmem]⟩
  · intro size p st1 ha hp
    have hp1 := (allocMem_tracked S N K st st1 size p A ht ha hp).2
    have hperm1 := validUse_partition S N K st1 _ hNK (ValidUse.allocMem size p hv ha hp)
    have hnd1 := (List.Perm.nodup_iff hperm1).2 (List.nodup_range _)
    rw [List.cons_append, List.nodup_cons] at hnd1
    exact ⟨hp1, fun hc => hnd1.1 (List.mem_append_left _ hc)⟩

/-- Witness of C21 (amended): `oneAllocated`, the pool `FixedDynMemPool<2, 2, 2>` with page
0 allocated and page 1 on the free list. -/
theorem index_bound_invariant_witness :
    ValidUse 2 2 2 oneAllocated [0] ∧ oneAllocated.indcs = [1] ∧
    (oneAllocated.num_chunks * 2 ≤ 2 * 2 ∧
    (∀ x ∈ oneAllocated.indcs, x < oneAllocated.num_chunks * 2) ∧
    (∀ idx ∈ [0], idx < oneAllocated.num_chunks * 2 ∧
      page_idx oneAllocated (payload 2 2 idx) = some idx) ∧
    oneAllocated.indcs.Nodup ∧ (∀ x ∈ oneAllocated.indcs, x ∉ [0]) ∧
    (∀ idx, idx ∈ oneAllocated.indcs ∨ idx ∈ [0] →
      idx / 2 < oneAllocated.num_chunks ∧ (∃ mem, chunkMem oneAllocated (idx / 2) = some mem) ∧
      page_mem 2 2 oneAllocated idx 0 = some (Ptr.mk (idx / 2) (idx % 2 * (4 + 2)))) ∧
    (∀ size p st1, allocMem 2 2 2 oneAllocated size = some (p, st1) → p ≠ Ptr.null →
      p = payload 2 2 st1.page_index ∧ st1.page_index ∉ [0])) :=
  ⟨oneAllocated_valid, rfl,
    index_bound_invariant 2 2 2 oneAllocated [0] (by decide) oneAllocated_valid⟩

end FixedDynMemPool

namespace StaticMemPool

/-- C22 (allocation choice): in every state of valid use, with `A` the allocated pages and
`F` the freed pages that await reuse, the one freed last at the end: `F` has
`free_page_count` entries.  When `can_alloc()` is true, `allocMem` with a size up to `S`
returns the address of a page `i < N`, and `alloced` is true for that address afterwards;
`i` is the page freed last when a freed page awaits reuse, and the value of
`used_page_count` otherwise.  When `S > 0`, `freeMem` on the address of an allocated page
followed by `allocMem` returns that address. -/
theorem allocMem_takes_last_freed (N S : Nat) (st : StaticMemPool) (A F : List Nat)
    (size : Nat) (hv : ValidUseFreed N S st A F) (hs : size ≤ S) :
    F.length = st.free_page_count ∧
    (can_alloc N st = true →
      ∃ i st1, allocMem N S st size = some (i * S, st1) ∧ i < N ∧
        st1.curr_page_index = i ∧ alloced N S st1 (i * S) = some true ∧
        (F ≠ [] → F.getLast? = some i ∧ st1.used_page_count = st.used_page_count) ∧
        (F = [] → i = st.used_page_count ∧ st1.used_page_count = st.used_page_count + 1)) ∧
    (0 < S → ∀ j ∈ A, ∃ st2 st3, freeMem N S st (j * S) = some st2 ∧
      allocMem N S st2 size = some (j * S, st3) ∧ alloced N S st3 (j * S) = some true) := by
  obtain ⟨hvu, htake⟩ := validUseFreed_take N S st A F hv
  have hinv := static_validUse_inv N S st A hvu
  obtain ⟨_, hlt, hcount⟩ := countInv_bounds N S st A hinv
  have hlen : F.length = st.free_page_count := by
    rw [← htake, List.length_take]
    have := hinv.1
    have := hinv.2.2.2.1
    omega
  refine ⟨hlen, ?_, ?_⟩
  · intro hc
    obtain ⟨ofs, st1, ha⟩ : ∃ ofs st1, allocMem N S st size = some (ofs, st1) := by
      by_cases hf : st.free_page_count = 0
      · have hu : st.used_page_count < N := by
          simp only [can_alloc, Bool.or_eq_true, decide_eq_true_eq] at hc
          omega
        simp [allocMem, hs, hc, hf, hu]
      · have hfpos : 0 < st.free_page_count := Nat.pos_of_ne_zero hf
        have hidx : st.free_page_count - 1 < st.indcs.length := by
          have := hinv.1
          have := hinv.2.2.2.1
          omega
        have hget : st.indcs[st.free_page_count - 1]? =
            some (st.indcs.get ⟨st.free_page_count - 1, hidx⟩) := by
          simp [List.getElem?_eq_getElem, hidx]
        have htk := take_pred_last st.indcs st.free_page_count _ hfpos hget
        have hiu := hlt _ (List.mem_append_right A
          (by rw [htk]; exact List.mem_append_right _ (List.mem_singleton_self _)))
        have hiN : st.indcs.get ⟨st.free_page_count - 1, hidx⟩ < N := by
          have := hinv.2.2.2.1
          omega
        simp only [allocMem, hs, hc, hf, hget, hiN, not_true_eq_false, if_false, if_true]
        exact ⟨_, _, rfl⟩
    obtain ⟨_, ho, _, hiN, _, _, hcase⟩ := static_allocMem_inv N S st st1 A size ofs hinv ha
    refine ⟨st1.curr_page_index, st1, by rw [← ho]; exact ha, hiN, rfl,
      by simp [alloced, hiN], ?_, ?_⟩
    · intro hne
      have hf : st.free_page_count ≠ 0 := by
        intro h0
        apply hne
        exact List.length_eq_zero.1 (by rw [hlen, h0])
      rw [if_neg hf] at hcase
      have htk := take_pred_last st.indcs st.free_page_count _ (Nat.pos_of_ne_zero hf)
        hcase.1
      refine ⟨?_, hcase.2.1⟩
      rw [← htake, htk]
      simp
    · intro hnil
      have hf : st.free_page_count = 0 := by rw [← hlen, hnil]; rfl
      rw [if_pos hf] at hcase
      exact ⟨hcase.1, hcase.2.1⟩
  · intro hS j hj
    obtain ⟨pages1, _, heq⟩ := static_freeMem_eq N S st A j hinv hj hS
    have hju := hlt j (List.mem_append_left _ hj)
    have hjN : j < N := by
      have := hinv.2.2.2.1
      omega
    have hApos : 0 < A.length := List.length_pos_of_mem hj
    have hfl : st.free_page_count < st.indcs.length := by
      have := hinv.1
      have := hinv.2.2.2.1
      omega
    have hal : allocMem N S { pages := pages1, indcs := st.indcs.set st.free_page_count j
                              used_page_count := st.used_page_count
                              free_page_count := st.free_page_count + 1
                              curr_page_index := st.curr_page_index } size =
        some (j * S, { pages := pages1, indcs := st.indcs.set st.free_page_count j
                       used_page_count := st.used_page_count
                       free_page_count := st.free_page_count + 1 - 1
                       curr_page_index := j }) := by
      simp [allocMem, hs, can_alloc, List.getElem?_set, hfl, hjN]
    exact ⟨_, _, heq, hal, by simp [alloced, hjN]⟩

/-- Witness of C22: in `firstReleased`, the pool `StaticMemPool<2, 4>` whose page 0 was
freed while page 1 is allocated, `allocMem` returns page 0 again; freeing page 1 and
allocating returns page 1. -/
theorem allocMem_takes_last_freed_witness :
    ValidUseFreed 2 4 firstReleased [1] [0] ∧ can_alloc 2 firstReleased = true ∧
    ([0].length = firstReleased.free_page_count ∧
    (can_alloc 2 firstReleased = true →
      ∃ i st1, allocMem 2 4 firstReleased 3 = some (i * 4, st1) ∧ i < 2 ∧
        st1.curr_page_index = i ∧ alloced 2 4 st1 (i * 4) = some true ∧
        (([0] : List Nat) ≠ [] → ([0] : List Nat).getLast? = some i ∧
          st1.used_page_count = firstReleased.used_page_count) ∧
        (([0] : List Nat) = [] → i = firstReleased.used_page_count ∧
          st1.used_page_count = firstReleased.used_page_count + 1)) ∧
    (0 < 4 → ∀ j ∈ [1], ∃ st2 st3, freeMem 2 4 firstReleased (j * 4) = some st2 ∧
      allocMem 2 4 st2 3 = some (j * 4, st3) ∧ alloced 2 4 st3 (j * 4) = some true)) :=
  ⟨firstReleased_freed, by decide,
    allocMem_takes_last_freed 2 4 firstReleased [1] [0] 3 firstReleased_freed (by decide)⟩

end StaticMemPool

namespace DynMemPool

/-- C23 (allocation choice): for a page size `S > 0`, in every state of valid use,
`allocMem` with a size up to `S` returns the address of a page `i`, adds the entry of that
address to the table and changes no other entry, and `mapped` and `alloced` are true for
the address afterwards.  With an empty free-index stack `i` is the previous page count, one
page of `S` zero bytes is appended, the pages before it are as they were, `alloc_size()`
grows by `S` and `freed_size()` stays.  With a non-empty stack `i` is its back, the index
pushed last, which is popped; the pages are as before, `alloc_size()` stays and
`freed_size()` shrinks by `S`. -/
theorem allocMem_page_choice (S : Nat) (st : DynMemPool) (A : List Ptr) (size : Nat) :
    0 < S → ValidUse S st A → size ≤ S →
    ∃ i st1, allocMem S st size = some (Ptr.mk i 0, st1) ∧
      mapped st1 (Ptr.mk i 0) = true ∧ alloced st1 (Ptr.mk i 0) = true ∧
      tableFind st1.table (Ptr.mk i 0) = some i ∧
      st1.table = st.table ++ [(Ptr.mk i 0, i)] ∧
      (∀ q, q ≠ Ptr.mk i 0 → tableFind st1.table q = tableFind st.table q) ∧
      (st.indcs = [] →
        i = st.pages.length ∧ st1.pages = st.pages ++ [List.replicate S 0] ∧
        st1.indcs = [] ∧ alloc_size S st1 = alloc_size S st + S ∧
        freed_size S st1 = freed_size S st ∧
        ∀ j, j < st.pages.length → st1.pages[j]? = st.pages[j]?) ∧
      (st.indcs ≠ [] →
        st.indcs.getLast? = some i ∧ st1.indcs = st.indcs.dropLast ∧
        st1.pages = st.pages ∧ alloc_size S st1 = alloc_size S st ∧
        freed_size S st1 + S = freed_size S st) := by
  intro _ hv hs
  have hinv := dyn_validUse_inv S st A hv
  obtain ⟨_, hvlt⟩ := tableInv_values S st A hinv
  obtain ⟨p, st1, ha⟩ : ∃ p st1, allocMem S st size = some (p, st1) := by
    by_cases hnil : st.indcs = []
    · simp [allocMem, hs, hnil]
    · obtain ⟨ys, i, hyi⟩ : ∃ ys i, st.indcs = ys ++ [i] := by
        rcases List.eq_nil_or_concat st.indcs with h1 | ⟨ys, i, h1⟩
        · exact absurd h1 hnil
        · exact ⟨ys, i, by simpa using h1⟩
      have hilt : i < st.pages.length :=
        hvlt i (List.mem_append_right _ (by rw [hyi]; simp))
      have hpop : VectorBackPop st.indcs = some (i, ys) := by
        simp [VectorBackPop, hyi]
      simp [allocMem, hs, hnil, hpop, hilt]
  obtain ⟨hinv1, hnm, _, i, hp, hilt, htab, hcur, hcase⟩ :=
    dyn_allocMem_inv S st st1 A size p hinv ha
  subst hp
  have hfind : tableFind st1.table (Ptr.mk i 0) = some i := by
    cases hf : tableFind st1.table (Ptr.mk i 0) with
    | none =>
      have := tableFind_isSome st1.table (Ptr.mk i 0) (by rw [htab]; simp)
      rw [hf] at this
      simp at this
    | some j =>
      have := hinv1.2.2.1 _ (tableFind_mem _ _ _ hf)
      simp only [Ptr.mk.injEq, and_true] at this
      rw [this]
  refine ⟨i, st1, ha, by simp [mapped, hfind], by simp [alloced, hcur, hilt], hfind, htab,
    ?_, ?_, ?_⟩
  · intro q hq
    rw [htab]
    exact tableFind_append_other _ _ _ _ hq
  · intro hnil
    rw [if_pos hnil] at hcase
    obtain ⟨h1, h2, h3⟩ := hcase
    refine ⟨h1, h3, h2, by simp [alloc_size, h3, Nat.add_mul], by simp [freed_size, h2, hnil],
      ?_⟩
    intro j hj
    rw [h3, List.getElem?_append_left hj]
  · intro hne
    rw [if_neg hne] at hcase
    obtain ⟨h1, h2⟩ := hcase
    refine ⟨by rw [h1]; simp, by rw [h1]; simp, h2, by simp [alloc_size, h2], ?_⟩
    simp [freed_size, h1, Nat.add_mul]

/-- Witness of C23: in `firstFreed`, where page 0 is on the free-index stack, `allocMem`
returns page 0; in `onePage`, where the stack is empty, it appends page 1. -/
theorem allocMem_page_choice_witness :
    0 < 2 ∧ ValidUse 2 firstFreed [Ptr.mk 1 0] ∧ firstFreed.indcs = [0] ∧
    allocMem 2 onePage 1 = some (Ptr.mk 1 0, twoPages) ∧
    ∃ i st1, allocMem 2 firstFreed 1 = some (Ptr.mk i 0, st1) ∧
      mapped st1 (Ptr.mk i 0) = true ∧ alloced st1 (Ptr.mk i 0) = true ∧
      tableFind st1.table (Ptr.mk i 0) = some i ∧
      st1.table = firstFreed.table ++ [(Ptr.mk i 0, i)] ∧
      (∀ q, q ≠ Ptr.mk i 0 → tableFind st1.table q = tableFind firstFreed.table q) ∧
      (firstFreed.indcs = [] →
        i = firstFreed.pages.length ∧ st1.pages = firstFreed.pages ++ [List.replicate 2 0] ∧
        st1.indcs = [] ∧ alloc_size 2 st1 = alloc_size 2 firstFreed + 2 ∧
        freed_size 2 st1 = freed_size 2 firstFreed ∧
        ∀ j, j < firstFreed.pages.length → st1.pages[j]? = firstFreed.pages[j]?) ∧
      (firstFreed.indcs ≠ [] →
        firstFreed.indcs.getLast? = some i ∧ st1.indcs = firstFreed.indcs.dropLast ∧
        st1.pages = firstFreed.pages ∧ alloc_size 2 st1 = alloc_size 2 firstFreed ∧
        freed_size 2 st1 + 2 = freed_size 2 firstFreed) :=
  ⟨by decide, firstFreed_valid, rfl, by decide,
    allocMem_page_choice 2 firstFreed [Ptr.mk 1 0] 1 (by decide) firstFreed_valid (by decide)⟩

end DynMemPool

namespace StaticMemPool

/-- C24 (clear): from every state `st0`, after `clear()` the array `pages` is `N * S` zero
bytes, the three counters are 0, `alloc_size()` and `freed_size()` are 0, and `can_alloc()`
is true (for `N > 0`, which `allocMem` asserts statically).  What happened before the
`clear()` does not show in later calls: for any two states `st0`, `st1` of the pool (whose
array `indcs` has its `N` entries) and every sequence of `allocMem` and `freeMem` calls, the
calls after `clear()` have a defined result in the one run exactly when they have in the
other, return the same addresses and leave the same page bytes, counters and recorded free
pages.  (The entries of `indcs` from `free_page_count` on may differ: `clear()` zeroes the
first `N` bytes of that array only, and no call reads them.) -/
theorem clear_resets_pool (N S : Nat) (st0 st1 : StaticMemPool) (cs : List Call)
    (h0 : st0.indcs.length = N) (h1 : st1.indcs.length = N) :
    (clear N S st0).pages = List.replicate (N * S) 0 ∧
    (clear N S st0).pages.length = N * S ∧ (∀ b ∈ (clear N S st0).pages, b = 0) ∧
    (clear N S st0).used_page_count = 0 ∧ (clear N S st0).free_page_count = 0 ∧
    (clear N S st0).curr_page_index = 0 ∧
    alloc_size S (clear N S st0) = 0 ∧ freed_size S (clear N S st0) = 0 ∧
    (0 < N → can_alloc N (clear N S st0) = true) ∧
    (calls N S (clear N S st0) cs).map observed =
      (calls N S (clear N S st1) cs).map observed := by
  refine ⟨rfl, by simp [clear, total_size], ?_, rfl, rfl, rfl, by simp [alloc_size, clear],
    by simp [freed_size, clear], ?_, ?_⟩
  · intro b hb
    simp only [clear] at hb
    exact List.eq_of_mem_replicate hb
  · intro hN
    simp [can_alloc, clear, hN]
  · apply calls_agree
    refine ⟨rfl, ?_, rfl, rfl, rfl, ?_⟩
    · simp [clear, zeroLowBytes_length, h0, h1]
    · simp [clear]

/-- Witness of C24: `StaticMemPool<2, 4>` cleared from `uncleared` and from `firstReleased`.
The arrays `indcs` differ after `clear()` (`[65536, 7]` and `[0, 7]`), and the calls
`allocMem(1)`, `allocMem(1)`, `freeMem` of page 0, `allocMem(1)` return the pages 0, 1, 0 in
both runs. -/
theorem clear_resets_pool_witness :
    (clear 2 4 uncleared).indcs = [65536, 7] ∧ (clear 2 4 firstReleased).indcs = [0, 7] ∧
    (calls 2 4 (clear 2 4 uncleared)
      [Call.allocMem 1, Call.allocMem 1, Call.freeMem 0, Call.allocMem 1]).map observed =
      some ([some 0, some 4, none, some 0], [0, 0, 0, 0, 0, 0, 0, 0], 2, 0, 0, []) ∧
    ((clear 2 4 uncleared).pages = List.replicate (2 * 4) 0 ∧
    (clear 2 4 uncleared).pages.length = 2 * 4 ∧ (∀ b ∈ (clear 2 4 uncleared).pages, b = 0) ∧
    (clear 2 4 uncleared).used_page_count = 0 ∧ (clear 2 4 uncleared).free_page_count = 0 ∧
    (clear 2 4 uncleared).curr_page_index = 0 ∧
    alloc_size 4 (clear 2 4 uncleared) = 0 ∧ freed_size 4 (clear 2 4 uncleared) = 0 ∧
    (0 < 2 → can_alloc 2 (clear 2 4 uncleared) = true) ∧
    (calls 2 4 (clear 2 4 uncleared)
        [Call.allocMem 1, Call.allocMem 1, Call.freeMem 0, Call.allocMem 1]).map observed =
      (calls 2 4 (clear 2 4 firstReleased)
        [Call.allocMem 1, Call.allocMem 1, Call.freeMem 0, Call.allocMem 1]).map observed) :=
  ⟨by decide, by decide, by decide,
    clear_resets_pool 2 4 uncleared firstReleased
      [Call.allocMem 1, Call.allocMem 1, Call.freeMem 0, Call.allocMem 1] rfl rfl⟩

end StaticMemPool

namespace StablePosAllocator

variable {α : Type} [Inhabited α]

/-- C25 (zero-size request): in every state, `Allocate(0)`, with or without the mutex flag,
returns the sentinel `~0u`, which is `2 ^ 32 - 1`, and leaves the backing vector and both gap
indices as they are. -/
theorem allocate_zero (st : StablePosAllocator α) (withMutex : Bool) :
    Allocate st 0 withMutex = (sentinel, st) ∧ sentinel = 2 ^ 32 - 1 ∧
    (Allocate st 0 withMutex).2.data = st.data ∧
    (Allocate st 0 withMutex).2.sizeToPositions = st.sizeToPositions ∧
    (Allocate st 0 withMutex).2.positionToSize = st.positionToSize := by
  have h : Allocate st 0 withMutex = (sentinel, st) := by
    cases withMutex <;> simp [Allocate, AllocateImpl]
  rw [h]
  exact ⟨rfl, by decide, rfl, rfl, rfl⟩

end StablePosAllocator

namespace StablePosAllocator

variable {α : Type} [Inhabited α]

/-- C26 (fresh storage), amended with `Allocate` calls that do not overflow: in every state
reached from an empty allocator by `Allocate` calls made with `GetSize() + n < 2 ^ 64`
and by `Free` calls on allocated positions, with `L` the allocated ranges, the range
`[r, r + n)` that `Allocate(n)` returns for `n > 0` with `GetSize() + n < 2 ^ 64` ends
inside the vector as it is after the call, shares no position with any range of `L`, and
shares no position with any gap recorded after the call.  After the call the allocated
ranges, the new one among them, and the gaps tile `[0, GetSize())`: every position below
`GetSize()` is in an allocated range or in a gap and no position is in both, no two
allocated ranges share a position and no two gaps do. -/
theorem allocate_hands_out_fresh (trig : Nat → Nat → Bool) (st : StablePosAllocator α)
    (L : List (Nat × Nat)) (n : Nat) (withMutex : Bool) (h : Owns trig st L) (hn : 0 < n)
    (hb : GetSize st + n < 2 ^ 64) :
    (Allocate st n withMutex).1 + n ≤ GetSize (Allocate st n withMutex).2 ∧
    (∀ a ∈ L, Apart ((Allocate st n withMutex).1, n) a) ∧
    (∀ q, (Allocate st n withMutex).1 ≤ q → q < (Allocate st n withMutex).1 + n →
      ¬ Covered L q) ∧
    (∀ g ∈ (Allocate st n withMutex).2.positionToSize,
      Apart ((Allocate st n withMutex).1, n) g) ∧
    (∀ q, (Allocate st n withMutex).1 ≤ q → q < (Allocate st n withMutex).1 + n →
      ¬ Covered (Allocate st n withMutex).2.positionToSize q) ∧
    (∀ q, q < GetSize (Allocate st n withMutex).2 ↔
      (Covered (((Allocate st n withMutex).1, n) :: L) q ∨
        Covered (Allocate st n withMutex).2.positionToSize q)) ∧
    (∀ q, ¬ (Covered (((Allocate st n withMutex).1, n) :: L) q ∧
      Covered (Allocate st n withMutex).2.positionToSize q)) ∧
    (((Allocate st n withMutex).1, n) :: L).Pairwise Apart ∧
    NonOverlapping (Allocate st n withMutex).2.positionToSize := by
  have hstep := owns_tiles trig _ _ (Owns.allocate n withMutex h hb)
  rw [if_neg (by omega)] at hstep
  obtain ⟨hreach, htile, hposL, hpw⟩ := hstep
  obtain ⟨_, _, hgpos, hgno⟩ := ReachableNoWrap_inv trig _ hreach
  have hin : ∀ q, (Allocate st n withMutex).1 ≤ q → q < (Allocate st n withMutex).1 + n →
      q < (Allocate st n withMutex).2.data.length ∧
        ¬ Covered (Allocate st n withMutex).2.positionToSize q :=
    fun q h1 h2 => (htile q).1 ((covered_cons _ _ q).2 (Or.inl ⟨h1, h2⟩))
  have hapart := (List.pairwise_cons.1 hpw).1
  refine ⟨?_, hapart, ?_, ?_, fun q h1 h2 => (hin q h1 h2).2, ?_, ?_, hpw, hgno⟩
  · have := (hin ((Allocate st n withMutex).1 + n - 1) (by omega) (by omega)).1
    simp only [GetSize]
    omega
  · rintro q h1 h2 ⟨a, ha, h3, h4⟩
    have := hapart a ha
    simp only [Apart] at this
    omega
  · intro g hg
    have hg2 := (hgpos g hg).1
    by_contra hcon
    simp only [Apart, not_or, Nat.not_le] at hcon
    by_cases hle : g.1 ≤ (Allocate st n withMutex).1
    · exact (hin (Allocate st n withMutex).1 (Nat.le_refl _) (by omega)).2
        ⟨g, hg, hle, by omega⟩
    · exact (hin g.1 (by omega) (by omega)).2 ⟨g, hg, Nat.le_refl _, by omega⟩
  · intro q
    constructor
    · intro hq
      by_cases hc : Covered (Allocate st n withMutex).2.positionToSize q
      · exact Or.inr hc
      · exact Or.inl ((htile q).2 ⟨hq, hc⟩)
    · rintro (hc | ⟨g, hg, _, h2⟩)
      · exact ((htile q).1 hc).1
      · have := (hgpos g hg).2
        simp only [GetSize]
        omega
  · rintro q ⟨h1, h2⟩
    exact ((htile q).1 h1).2 h2

/-- Witness of C26 (amended): in `middleFreed` the ranges `[0, 10)` and `[15, 25)` are
allocated and `(10, 5)` is a gap; `Allocate(5)` returns 10, and no gap is left. -/
theorem allocate_hands_out_fresh_witness :
    Owns trigFortieth middleFreed [(15, 10), (0, 10)] ∧ GetSize middleFreed + 5 < 2 ^ 64 ∧
    Allocate middleFreed 5 false =
      (10, { data := List.replicate 25 (), sizeToPositions := [], positionToSize := [] }) ∧
    ((Allocate middleFreed 5 false).1 + 5 ≤ GetSize (Allocate middleFreed 5 false).2 ∧
    (∀ a ∈ [(15, 10), (0, 10)], Apart ((Allocate middleFreed 5 false).1, 5) a) ∧
    (∀ q, (Allocate middleFreed 5 false).1 ≤ q → q < (Allocate middleFreed 5 false).1 + 5 →
      ¬ Covered [(15, 10), (0, 10)] q) ∧
    (∀ g ∈ (Allocate middleFreed 5 false).2.positionToSize,
      Apart ((Allocate middleFreed 5 false).1, 5) g) ∧
    (∀ q, (Allocate middleFreed 5 false).1 ≤ q → q < (Allocate middleFreed 5 false).1 + 5 →
      ¬ Covered (Allocate middleFreed 5 false).2.positionToSize q) ∧
    (∀ q, q < GetSize (Allocate middleFreed 5 false).2 ↔
      (Covered (((Allocate middleFreed 5 false).1, 5) :: [(15, 10), (0, 10)]) q ∨
        Covered (Allocate middleFreed 5 false).2.positionToSize q)) ∧
    (∀ q, ¬ (Covered (((Allocate middleFreed 5 false).1, 5) :: [(15, 10), (0, 10)]) q ∧
      Covered (Allocate middleFreed 5 false).2.positionToSize q)) ∧
    (((Allocate middleFreed 5 false).1, 5) :: [(15, 10), (0, 10)]).Pairwise Apart ∧
    NonOverlapping (Allocate middleFreed 5 false).2.positionToSize) :=
  ⟨middleFreed_owns, by decide, by decide,
    allocate_hands_out_fresh trigFortieth middleFreed [(15, 10), (0, 10)] 5 false
      middleFreed_owns (by decide) (by decide)⟩

/-- Counterexample to C26 as stated: in `tenElems`, reached by `Allocate(10)`, the range
`[0, 10)` is allocated.  `Allocate(2 ^ 64 - 5)` returns `r = 10`; the new size
`10 + (2 ^ 64 - 5)` is 5 as a `size_t`, so 5 elements are left: the returned range does
not end inside the vector, and position 5 of the allocated range `[0, 10)` is not below
`GetSize()`. -/
theorem allocate_range_behind_size :
    Owns compactionTrigger tenElems [(0, 10)] ∧ 0 < 2 ^ 64 - 5 ∧
    Allocate tenElems (2 ^ 64 - 5) false =
      (10, { data := List.replicate 5 (), sizeToPositions := [], positionToSize := [] }) ∧
    ¬ ((Allocate tenElems (2 ^ 64 - 5) false).1 + (2 ^ 64 - 5) ≤
        GetSize (Allocate tenElems (2 ^ 64 - 5) false).2) ∧
    ¬ (∀ q, q < GetSize (Allocate tenElems (2 ^ 64 - 5) false).2 ↔
      (Covered (((Allocate tenElems (2 ^ 64 - 5) false).1, 2 ^ 64 - 5) :: [(0, 10)]) q ∨
        Covered (Allocate tenElems (2 ^ 64 - 5) false).2.positionToSize q)) := by
  have h : Allocate tenElems (2 ^ 64 - 5) false =
      (10, { data := List.replicate 5 (), sizeToPositions := [], positionToSize := [] }) := by
    decide
  refine ⟨tenElems_owns, by decide, h, ?_, ?_⟩
  · rw [h]
    decide
  · rw [h]
    intro hall
    have h5 := (hall 5).2 (Or.inl ⟨(0, 10), by simp, by decide, by decide⟩)
    exact absurd h5 (by decide)

end StablePosAllocator

namespace StablePosAllocator

variable {α : Type} [Inhabited α]

/-- C27 (compaction keeps the free space): on a non-empty, consistent, non-overlapping gap
set that lies inside `[0, GetSize())` (the containers ordered as `std::map` and
`std::multimap` keep them), `CompactGaps` returns, `GetSize()` does not grow, and a position
is in a gap afterwards or in the cut-off tail `[newSize, oldSize)` exactly when it was in a
gap before.  The gaps afterwards lie below the new size, so they share no position with the
tail, and two of them share none.  The two indices stay consistent, and the elements below
the new size are the ones that were there. -/
theorem compactGaps_keeps_free_space (st : StablePosAllocator α)
    (hne : st.positionToSize ≠ []) (hord : Ordered st) (hc : Consistent st)
    (hno : NonOverlapping st.positionToSize)
    (hin : ∀ g ∈ st.positionToSize, g.1 + g.2 ≤ GetSize st) :
    ∃ st1, CompactGaps st = some st1 ∧ GetSize st1 ≤ GetSize st ∧
      (∀ q, (Covered st1.positionToSize q ∨ (GetSize st1 ≤ q ∧ q < GetSize st)) ↔
        Covered st.positionToSize q) ∧
      (∀ q, Covered st1.positionToSize q → q < GetSize st1) ∧
      NonOverlapping st1.positionToSize ∧
      Consistent st1 ∧
      st1.data = st.data.take (GetSize st1) ∧
      ∀ i, i < GetSize st1 → st1.data[i]? = st.data[i]? := by
  obtain ⟨st1, h1, hle, hdata, hcov⟩ := CompactGaps_frame st hne hord hc
  obtain ⟨st2, h2, _, hcons, hsep, hlt, _⟩ := CompactGaps_post st hne hord hc hno hin
  rw [h1] at h2
  simp only [Option.some.injEq] at h2
  subst h2
  refine ⟨st1, h1, hle, hcov, ?_, hsep.imp (fun {a b} hab => by omega), hcons, hdata, ?_⟩
  · rintro q ⟨g, hg, _, hq⟩
    have := hlt g hg
    simp only [GetSize]
    omega
  · intro i hi
    have hi2 : i < st1.data.length := hi
    rw [hdata, List.getElem?_take, if_pos hi2]

/-- Witness of C27: in `adjacentGaps` the gaps `(2, 3)`, `(5, 1)`, `(6, 2)`, `(10, 2)` cover
the positions 2 to 7 and 10, 11 of 12 elements; afterwards the gap `(2, 6)` covers 2 to 7 and
the tail `[10, 12)` is cut off. -/
theorem compactGaps_keeps_free_space_witness :
    CompactGaps adjacentGaps =
        some { data := List.replicate 10 (), sizeToPositions := [(6, 2)]
               positionToSize := [(2, 6)] } ∧
    ∃ st1, CompactGaps adjacentGaps = some st1 ∧ GetSize st1 ≤ GetSize adjacentGaps ∧
      (∀ q, (Covered st1.positionToSize q ∨ (GetSize st1 ≤ q ∧ q < GetSize adjacentGaps)) ↔
        Covered adjacentGaps.positionToSize q) ∧
      (∀ q, Covered st1.positionToSize q → q < GetSize st1) ∧
      NonOverlapping st1.positionToSize ∧
      Consistent st1 ∧
      st1.data = adjacentGaps.data.take (GetSize st1) ∧
      ∀ i, i < GetSize st1 → st1.data[i]? = adjacentGaps.data[i]? :=
  ⟨by decide, compactGaps_keeps_free_space adjacentGaps (by decide) (by decide) (by decide)
    (by decide) (by decide)⟩

end StablePosAllocator
